import Mathlib

/-!
A shallow embedding of the TRIE engine of `src/CXX/libtriexx/trie.hxx`
(the newer trie variant: nibble-branching path-compressed radix tree with
branch-range caches, strict/slobby key tracing, insertion with interim-node
splitting, deletion with pruning/coalescing, and an in-order iterator).

Modelling conventions:
* Keys are byte strings, modelled as `List Nat` (each element a byte value).
  The item type instantiates the C++ template the way `string_trie` does:
  an item is a (key bytes, value) pair, `KeyFn` returns the bytes and
  `KeyLenFn` their count.
* The `std::list<T>` item store only provides address-stable storage and the
  `end()` sentinel used as the "no item" mark; it is modelled by storing
  `Option Item` inline in each node (`none` = `m_items.end()`).
* C++ nodes form an ownership tree (`std::unique_ptr` branches) with
  non-owning `parent` back-pointers.  The tree is modelled as an inductive
  value; a node *pointer* is modelled as the access path (list of branch
  slot indices) from the root, and `parent` is the path without its last
  element.
* The packed `br_attrs` bit-field is modelled as three separate fields
  (`br_1st`, `br_last`, `br_own`); the C++ accessors mask each to 4 bits and
  every call site stores values below 16, so the fields coincide with the
  accessors' results.
* `size_t` arithmetic is modelled by `Nat`; the only subtraction sites
  (`nod->qlen - (i << 1)` and `qlen -= 2`) never underflow on trees built
  by the container's own operations.
-/

namespace Trie

/-- An item, as stored by the trie: key bytes plus a payload value
(the `string_trie` instantiation of the `T`/`KeyFn`/`KeyLenFn` template
parameters, with byte-string keys). -/
structure Item where
  key : List Nat
  val : Nat
deriving DecidableEq, Repr

/-- A trie node (`struct node`): item reference, borrowed key bytes,
quad-bit (nibble) depth `qlen`, the three 4-bit branch attributes and the
16 branch slots.  The C++ `parent` back-pointer is derivable from the
access path and is not stored. -/
inductive Node : Type where
  | mk : Option Item → List Nat → Nat → Nat → Nat → Nat →
      List (Option Node) → Node
deriving Repr

/-- `node::item` (`none` models `m_items.end()`). -/
def Node.item : Node → Option Item
  | .mk it _ _ _ _ _ _ => it

/-- `node::key` (the borrowed key byte buffer; `[]` models `NULL`). -/
def Node.key : Node → List Nat
  | .mk _ k _ _ _ _ _ => k

/-- `node::qlen`. -/
def Node.qlen : Node → Nat
  | .mk _ _ q _ _ _ _ => q

/-- `node::br_own()` (the C++ accessor masks the packed `br_attrs` field
to 4 bits: `0xf & (br_attrs >> 8)`; every store site passes a slot index
below 16). -/
def Node.br_own : Node → Nat
  | .mk _ _ _ bo _ _ _ => bo % 16

/-- `node::br_1st()` (`0xf & br_attrs`). -/
def Node.br_1st : Node → Nat
  | .mk _ _ _ _ b1 _ _ => b1 % 16

/-- `node::br_last()` (`0xf & (br_attrs >> 4)`). -/
def Node.br_last : Node → Nat
  | .mk _ _ _ _ _ bl _ => bl % 16

/-- `node::branches` (16 slots). -/
def Node.branches : Node → List (Option Node)
  | .mk _ _ _ _ _ _ br => br

/-- Branch slot lookup: `branches[i].get()`. -/
def Node.branch (n : Node) (i : Nat) : Option Node :=
  n.branches.getD i none

/-- `node::is_leaf()`. -/
def Node.is_leaf (n : Node) : Bool := n.br_last < n.br_1st

/-- `node::has_only_son()`. -/
def Node.has_only_son (n : Node) : Bool := n.br_1st == n.br_last

/-- Replace the item reference. -/
def Node.setItem (n : Node) (it : Option Item) : Node :=
  match n with
  | .mk _ k q bo b1 bl br => .mk it k q bo b1 bl br

/-- Replace the borrowed key buffer (`nod->key = ...`). -/
def Node.setKey (n : Node) (k : List Nat) : Node :=
  match n with
  | .mk it _ q bo b1 bl br => .mk it k q bo b1 bl br

/-- `node::br_own(ix)` setter. -/
def Node.setBrOwn (n : Node) (ix : Nat) : Node :=
  match n with
  | .mk it k q _ b1 bl br => .mk it k q ix b1 bl br

/-- `node::br_1st(ix)` setter. -/
def Node.setBr1st (n : Node) (ix : Nat) : Node :=
  match n with
  | .mk it k q bo _ bl br => .mk it k q bo ix bl br

/-- `node::br_last(ix)` setter. -/
def Node.setBrLast (n : Node) (ix : Nat) : Node :=
  match n with
  | .mk it k q bo b1 _ br => .mk it k q bo b1 ix br

/-- `node::br_set(ix_1st, ix_last)`. -/
def Node.br_set (n : Node) (ix1 ixl : Nat) : Node :=
  match n with
  | .mk it k q bo _ _ br => .mk it k q bo ix1 ixl br

/-- Overwrite branch slot `i` (`branches[i].reset(...)` / move-assignment). -/
def Node.setBranch (n : Node) (i : Nat) (b : Option Node) : Node :=
  match n with
  | .mk it k q bo b1 bl br => .mk it k q bo b1 bl (br.set i b)

/-- 16 empty branch slots (a freshly constructed node's branch array). -/
def emptyBranches : List (Option Node) := List.replicate 16 none

/-- The root node of an empty trie: `node(m_items.end(), NULL, 0, NULL, 0)`
with the constructor's default leaf encoding `br_1st = 1, br_last = 0`. -/
def emptyTrie : Node := .mk none [] 0 0 1 0 emptyBranches

/-- `trie::get_qpos`: the half-byte of `key` at quad-bit position `qpos`
(high nibble of `key[qpos/2]` when `qpos` is even, else low nibble). -/
def get_qpos (key : List Nat) (qpos : Nat) : Nat :=
  let byte := key.getD (qpos / 2) 0
  if qpos % 2 = 1 then byte % 16 else byte / 16

/-- A node pointer, as the branch-slot path from the root. -/
abbrev Path := List Nat

/-- The `parent` back-pointer: the path without its last slot
(the root's `parent` is `NULL` and is never dereferenced by the modelled
code paths; `[].dropLast = []` is a don't-care value there). -/
def parentPath (p : Path) : Path := p.dropLast

/-- Dereference a node pointer: follow the branch-slot path. -/
def getN : Node → Path → Option Node
  | n, [] => some n
  | n, i :: p =>
    match n.branch i with
    | some c => getN c p
    | none => none

/-- In-place update of the node a path points at (the C++ code mutates the
node through a pointer; the functional model rebuilds the spine).  An
invalid path leaves the tree unchanged (unreachable for pointers the code
actually holds). -/
def updateAt : Node → Path → (Node → Node) → Node
  | n, [], f => f n
  | n, i :: p, f =>
    match n.branch i with
    | some c => n.setBranch i (some (updateAt c p f))
    | none => n

/-- `trie::position_t`: node pointer, matching quad-bit length,
end-of-path (complete key match) flag. -/
structure Position where
  node : Path
  qlen : Nat
  mtch : Bool
deriving DecidableEq, Repr

/-- Outcome of `trie::trace` before the miss handler is interpreted:
either a position produced directly by `trace` (`position_t(...)` return
sites), or an invocation of the miss handler at a node with a matched
quad-bit length (`(this->*miss)(key, len, nod, qlen)` return sites).
The two C++ miss handlers (`search_position`, `insert_node`) are applied
to a `TraceOut.miss` by the respective callers. -/
inductive TraceOut : Type where
  | pos : Path → Nat → Bool → TraceOut
  | miss : Path → Nat → TraceOut
deriving DecidableEq, Repr

/-- Result of one run of the branching loop (Phase A, the inner `while` of
`trie::trace`): a miss-handler invocation, a slobby-mode short-circuit hit,
or the node/qlen state in which byte comparison (Phase B) resumes, with the
`forward_branch` flag. -/
inductive PhaseARes : Type where
  | missAt : Path → Nat → PhaseARes
  | slobHit : Path → PhaseARes
  | cont : Node → Path → Nat → Bool → PhaseARes

mutual

/-- Node count of a (sub-)tree (used as a step bound for the loops the C++
code runs over the pointer structure). -/
def Node.size : Node → Nat
  | .mk _ _ _ _ _ _ br => brListSize br + 1

/-- Total node count of a branch array. -/
def brListSize : List (Option Node) → Nat
  | [] => 0
  | none :: l => brListSize l
  | some c :: l => Node.size c + brListSize l

end

theorem size_brGet {l : List (Option Node)} {i : Nat} {c : Node}
    (h : l.getD i none = some c) : c.size < brListSize l + 1 := by
  induction l generalizing i with
  | nil => simp [List.getD] at h
  | cons a l ih =>
    cases i with
    | zero =>
      simp [List.getD] at h
      subst h
      simp [brListSize]
      omega
    | succ j =>
      have hj : l.getD j none = some c := by
        simpa [List.getD] using h
      have := ih hj
      cases a with
      | none => simpa [brListSize] using this
      | some b => simp [brListSize]; omega

theorem size_branch {n : Node} {i : Nat} {c : Node}
    (h : n.branch i = some c) : c.size < n.size := by
  cases n with
  | mk it k q bo b1 bl br =>
    have : c.size < brListSize br + 1 := size_brGet (l := br) (i := i) h
    simpa [Node.size] using this

/-- Phase A of `trie::trace` for byte `i` (value `byte`), with an explicit
step bound: the inner `while (!(qlen & ~(size_t)0x1))` loop.  `nod`/`path`
is the current node, `qv` the loop's `qlen` variable, `fwd` the
`forward_branch` flag, `slob` the effective slobby condition
(`TRIE_KEY_TRACING_SLOBBY == KeyTracing && slob`).  Each loop step moves
strictly down a branch, so `nod.size` bounds the number of steps; the
fuel-exhausted case is unreachable for the bound `phaseA` passes
(`phaseAF_adequate`). -/
def phaseAF (slob : Bool) (byte i : Nat) :
    Nat → Node → Path → Nat → Bool → PhaseARes
  | 0, _, path, qv, _ => .missAt path (2 * i + qv)
  | fuel + 1, nod, path, qv, fwd =>
    if 2 ≤ qv then .cont nod path qv fwd
    else
      let slot := if qv = 1 then byte % 16 else byte / 16
      match nod.branch slot with
      | none =>
        -- no such branch: report the miss; if branching on the low half
        -- byte and the high half byte already disagrees, report at the
        -- parent one nibble earlier
        if qv = 1 ∧ ((nod.key.getD i 0) ^^^ byte) >>> 4 ≠ 0 then
          .missAt (parentPath path) (2 * i)
        else
          .missAt path (2 * i + qv)
      | some child =>
        if slob ∧ child.is_leaf then .slobHit (path ++ [slot])
        else
          phaseAF slob byte i fuel child (path ++ [slot]) (child.qlen - 2 * i)
            (decide (0 < qv))

/-- Phase A of `trie::trace` (see `phaseAF`). -/
def phaseA (slob : Bool) (byte i : Nat) (nod : Node) (path : Path) (qv : Nat)
    (fwd : Bool) : PhaseARes :=
  phaseAF slob byte i nod.size nod path qv fwd

/-- The byte loop of `trie::trace` (`for (size_t i = 0; i < len; ++i)`),
recursing over the unconsumed query bytes `rest` with `i` the current byte
index, `nod`/`path` the current node and `qv` the running `qlen` variable.
After the loop: an exactly consumed edge yields a position whose match flag
records whether the node carries an item; a key ending amid an edge invokes
the miss handler at the node's parent. -/
def traceGo (slob : Bool) (len : Nat) :
    List Nat → Nat → Node → Path → Nat → TraceOut
  | [], _, nod, path, qv =>
    if qv = 0 then .pos path (len <<< 1) nod.item.isSome
    else .miss (parentPath path) (len <<< 1)
  | byte :: rest, i, nod, path, qv =>
    match phaseA slob byte i nod path qv false with
    | .missAt p q => .miss p q
    | .slobHit p => .pos p (len <<< 1) true
    | .cont nod' path' qv' fwd =>
      let mismatch := (nod'.key.getD i 0) ^^^ byte
      if mismatch ≠ 0 then
        let par := if fwd then parentPath (parentPath path')
                   else parentPath path'
        .miss par ((i <<< 1) + (if mismatch &&& 0xf0 = 0 then 1 else 0))
      else
        traceGo slob len rest (i + 1) nod' path' (qv' - 2)

/-- `trie::trace`: walk the key from the root.  `slob` is the effective
slobby-tracing condition (the template's
`TRIE_KEY_TRACING_SLOBBY == KeyTracing` conjoined with the `slob`
argument). -/
def trace (slob : Bool) (t : Node) (key : List Nat) : TraceOut :=
  traceGo slob key.length key 0 t [] 0

/-- `trie::search_position` interpretation of a trace outcome: a miss is
reported as `(nod, qlen, false)`; a hit is the position `trace` returned. -/
def searchPos : TraceOut → Position
  | .pos p q m => ⟨p, q, m⟩
  | .miss p q => ⟨p, q, false⟩

/-- The second half of `trie::insert_node`: update `nod`'s 1st/last branch
indices for new branch `br_ix` (a leaf gets `br_set(br_ix, br_ix)`, else
the range is expanded) and hang a fresh leaf of depth `2 * len` there
(item `m_items.end()`, key `NULL`, default leaf branch encoding). -/
def addLeafTo (nod : Node) (br_ix len : Nat) : Node :=
  let nod' :=
    if nod.is_leaf then nod.br_set br_ix br_ix
    else
      let n1 := if br_ix < nod.br_1st then nod.setBr1st br_ix else nod
      if n1.br_last < br_ix then n1.setBrLast br_ix else n1
  nod'.setBranch br_ix (some (.mk none [] (len <<< 1) br_ix 1 0 emptyBranches))

/-- `trie::insert_node` applied to the node `nod` the miss was reported at
(the subtree rooted there), with `qlen` the quad-bit position of the key
mismatch.  Returns the transformed subtree together with the relative path
of the node chosen for the item (the fresh interim node when
`qlen == len << 1`, otherwise the fresh leaf). -/
def insertNodeAt (key : List Nat) (len : Nat) (nod : Node) (qlen : Nat) :
    Node × Path :=
  let br_ix := get_qpos key nod.qlen
  match nod.branch br_ix with
  | some br_node =>
    -- create interim branch: move the occupant under a new interim node
    let in_br_ix := get_qpos br_node.key qlen
    let in_node : Node :=
      .mk none br_node.key qlen br_ix in_br_ix in_br_ix
        (emptyBranches.set in_br_ix (some (br_node.setBrOwn in_br_ix)))
    if qlen = len <<< 1 then
      -- interim node shall carry the item
      (nod.setBranch br_ix (some in_node), [br_ix])
    else
      let br_ix2 := get_qpos key qlen
      (nod.setBranch br_ix (some (addLeafTo in_node br_ix2 len)),
       [br_ix, br_ix2])
  | none =>
    (addLeafTo nod br_ix len, [br_ix])

/-- `trie::insert_node` as the trace-miss handler: run `insertNodeAt` on
the node at `path` and return the new tree with the absolute path of the
resulting position (whose match flag is `false`). -/
def insert_node (key : List Nat) (len : Nat) (t : Node) (path : Path)
    (qlen : Nat) : Node × Path :=
  match getN t path with
  | some nod =>
    let r := insertNodeAt key len nod qlen
    (updateAt t path (fun _ => r.1), path ++ r.2)
  | none => (t, path)

/-- `trie::insert_item`: store the item and point the node's `item` and
`key` at it. -/
def insert_item (t : Node) (path : Path) (it : Item) : Node :=
  updateAt t path (fun n => (n.setItem (some it)).setKey it.key)

/-- Iterator: a node pointer, or `NULL` for the end iterator. -/
abbrev Iter := Option Path

/-- The descend part of `iterator_base::next` within the subtree of `nod`,
scanning branch slots from `br_ix` up to `nod.br_last`: enter the smallest
occupied branch; stop at the first node carrying an item; an exhausted
child subtree resumes the parent scan at the next slot (the C++ ascent sets
`br_ix = br_own() + 1`, which is the slot the child occupies, since every
placement site stores a node's slot index in its `br_own`). -/
def descendF : Nat → Node → Nat → Option Path
  | 0, _, _ => none
  | fuel + 1, nod, br_ix =>
    if br_ix ≤ nod.br_last then
      match nod.branch br_ix with
      | none => descendF fuel nod (br_ix + 1)
      | some c =>
        if c.item.isSome then some [br_ix]
        else
          match descendF fuel c c.br_1st with
          | some rel => some (br_ix :: rel)
          | none => descendF fuel nod (br_ix + 1)
    else none

/-- The descend scan of `iterator_base::next` (see `descendF`): a slot
advance costs one step and a move into a branch costs at most 17
(`br_last() ≤ 15`), so `17 * nod.size` steps always suffice
(`descendF_adequate`). -/
def descend (nod : Node) (br_ix : Nat) : Option Path :=
  descendF (17 * nod.size) nod br_ix

/-- The ascend part of `iterator_base::next`: having exhausted the scan of
the subtree below `path`'s node starting at slot `br_ix`, move to the
parent and resume one slot past the node's own branch index; reaching the
root's `NULL` parent yields the end iterator. -/
def nextUpF (t : Node) : Nat → Path → Nat → Iter
  | 0, _, _ => none
  | fuel + 1, path, br_ix =>
    match getN t path with
    | none => none
    | some nod =>
      match descend nod br_ix with
      | some rel => some (path ++ rel)
      | none =>
        if path = [] then none
        else nextUpF t fuel (parentPath path) (nod.br_own + 1)

/-- The ascend loop of `iterator_base::next` (see `nextUpF`): each step
shortens the path by one, so `path.length + 1` steps always suffice
(`nextUpF_adequate`). -/
def nextUp (t : Node) (path : Path) (br_ix : Nat) : Iter :=
  nextUpF t (path.length + 1) path br_ix

/-- `iterator_base::next()`: move the iterator at `path` to the next node
carrying an item (in-order successor), or to the end iterator. -/
def next (t : Node) (path : Path) : Iter :=
  match getN t path with
  | none => none
  | some nod => nextUp t path nod.br_1st

/-- The `iterator_base` constructor: starting from a (non-`NULL`) initial
node, search to depth for a node bearing an item if the initial one does
not. -/
def mkIter (t : Node) (path : Path) : Iter :=
  match getN t path with
  | none => none
  | some nod => if nod.item.isSome then some path else next t path

/-- `trie::begin()`: an iterator constructed at the root. -/
def beginIter (t : Node) : Iter := mkIter t []

/-- `trie::end()`: the `NULL`-node iterator. -/
def endIter : Iter := none

/-- The observation a dereferenced iterator yields
(`{<key>, <key_size>, <value>}`): the first `qlen >> 1` bytes of the
node's key buffer, the byte length `qlen >> 1`, and the stored item. -/
def deref (t : Node) (it : Iter) : Option (List Nat × Nat × Item) :=
  match it with
  | none => none
  | some path =>
    match getN t path with
    | none => none
    | some nod =>
      match nod.item with
      | none => none
      | some item => some (nod.key.take (nod.qlen >>> 1), nod.qlen >>> 1, item)

/-- `trie::insert(item)`: trace with the `insert_node` miss handler; unless
the key matched an existing occupant, install the item at the resulting
node; return the new tree and an iterator at the node. -/
def insert (t : Node) (it : Item) : Node × Path :=
  match trace false t it.key with
  | .pos p _ mtch =>
    if mtch then (t, p) else (insert_item t p it, p)
  | .miss p q =>
    let r := insert_node it.key it.key.length t p q
    (insert_item r.1 r.2 it, r.2)

/-- `trie::find(key, len)`: trace with the `search_position` handler and
`slob = true` (`slobby` is the trie's static key-tracing mode, so the
effective slobby condition equals the mode); end iterator on mismatch. -/
def find (slobby : Bool) (t : Node) (key : List Nat) : Iter :=
  let pos := searchPos (trace slobby t key)
  if pos.mtch then some pos.node else none

/-- `trie::lower_bound(key, len)`: trace with the `search_position`
handler and the default `slob = false` (strict even in slobby mode). -/
def lower_bound (t : Node) (key : List Nat) : Position :=
  searchPos (trace false t key)

/-- The error kinds the engine reports. -/
inductive Err : Type where
  | AlreadyPresent : Err
  | EndIterator : Err
deriving DecidableEq, Repr

/-- `trie::insert(item, pos)` (insert at a position from `lower_bound`):
throws `AlreadyPresent` on a matching position; otherwise runs
`insert_node` at the held position when its quad-bit length differs from
the node's `qlen`, then installs the item there. -/
def insertAtPos (t : Node) (it : Item) (pos : Position) :
    Except Err (Node × Path) :=
  if pos.mtch then .error .AlreadyPresent
  else
    match getN t pos.node with
    | none => .ok (t, pos.node)
    | some nod =>
      let r :=
        if pos.qlen ≠ nod.qlen then
          insert_node it.key it.key.length t pos.node pos.qlen
        else (t, pos.node)
      .ok (insert_item r.1 r.2 it, r.2)

/-- The upward branch-index rescan of `trie::erase` after removing the 1st
son: the first occupied slot at index `≥ ix` (the C++ loop is unbounded and
relies on another occupied slot existing; slots are 0..15). -/
def scanUpF (l : List (Option Node)) : Nat → Nat → Nat
  | 0, ix => ix
  | fuel + 1, ix =>
    match l.getD ix none with
    | some _ => ix
    | none => if ix < 16 then scanUpF l fuel (ix + 1) else ix

/-- `scanUpF` with the always-sufficient step bound (the scan stops at
index 16 at the latest, so 17 steps cover every start index). -/
def scanUpFrom (l : List (Option Node)) (ix : Nat) : Nat := scanUpF l 17 ix

/-- The downward branch-index rescan of `trie::erase` after removing the
last son: the first occupied slot at index `≤ ix` (the C++ loop stops only
at an occupied slot and relies on one existing below; reaching index 0
without one would run off the array — the model stops at 0). -/
def scanDownFrom (l : List (Option Node)) : Nat → Nat
  | 0 => 0
  | ix + 1 =>
    match l.getD (ix + 1) none with
    | some _ => ix + 1
    | none => scanDownFrom l ix

/-- The branch removal of `trie::erase` Step 2, applied to the parent:
free `branches[br_ix]` and restore the 1st/last branch indices (leaf
encoding `(1, 0)` if this was the only son; otherwise rescan whichever end
of the range was removed). -/
def removeChild (par : Node) (br_ix : Nat) : Node :=
  let par' := par.setBranch br_ix none
  if par.has_only_son then par'.br_set 1 0
  else if par.br_1st == br_ix then par'.setBr1st (scanUpFrom par'.branches (br_ix + 1))
  else if par.br_last == br_ix then par'.setBrLast (scanDownFrom par'.branches (br_ix - 1))
  else par'

/-- The key re-borrowing walk of `trie::erase` Step 4: walk upward while
the node carries no item and is not the root, pointing each node's key at
the (still valid) borrowed buffer `key`. -/
def reborrowGoF (key : List Nat) : Nat → Node → Path → Node
  | 0, t, _ => t
  | fuel + 1, t, p =>
    if p = [] then t
    else
      match getN t p with
      | none => t
      | some nod =>
        if nod.item.isSome then t
        else
          reborrowGoF key fuel (updateAt t p (fun n => n.setKey key))
            (parentPath p)

/-- The re-borrowing walk (see `reborrowGoF`): each step shortens the path
by one, so `p.length + 1` steps always suffice. -/
def reborrowGo (t : Node) (p : Path) (key : List Nat) : Node :=
  reborrowGoF key (p.length + 1) t p

/-- `trie::erase(iter)`: fail with `EndIterator` on the end iterator;
otherwise advance the iterator to the in-order successor *first*, then
remove the item, prune an emptied non-root leaf (restoring the parent's
branch range), splice out a non-root interim node left with an only son,
and re-borrow the keys of itemless ancestors.  Returns the new tree and
the advanced iterator. -/
def erase (t : Node) (iter : Iter) : Except Err (Node × Iter) :=
  match iter with
  | none => .error .EndIterator
  | some path =>
    match getN t path with
    | none => .ok (t, next t path)
    | some nod =>
      let advanced := next t path  -- iterator is incremented before mutation
      -- remove item from item list
      let t1 := updateAt t path (fun n => n.setItem none)
      -- empty leaf node shall be removed
      let s2 : Node × Path :=
        if nod.is_leaf ∧ path ≠ [] then
          (updateAt t1 (parentPath path) (fun par => removeChild par nod.br_own),
           parentPath path)
        else (t1, path)
      let t2 := s2.1
      let path2 := s2.2
      -- interim node with only son shall be removed; node pointers into
      -- the moved subtree are stable in C++, so the advanced iterator's
      -- path is re-anchored across the splice (`fix` maps the subtree's
      -- old path root to its new one)
      let s3 : Node × Path × Option (Path × Path) :=
        match getN t2 path2 with
        | none => (t2, path2, none)
        | some n2 =>
          if n2.has_only_son ∧ n2.item = none ∧ path2 ≠ [] then
            (updateAt t2 (parentPath path2) (fun par =>
               par.setBranch n2.br_own
                 (match n2.branch n2.br_1st with
                  | some c => some (c.setBrOwn n2.br_own)
                  | none => none)),
             parentPath path2,
             some (path2 ++ [n2.br_1st], parentPath path2 ++ [n2.br_own]))
          else (t2, path2, none)
      let t3 := s3.1
      let path3 := s3.2.1
      let advanced' : Iter :=
        match advanced, s3.2.2 with
        | some q, some (oldPre, newPre) =>
          if oldPre.isPrefixOf q then some (newPre ++ q.drop oldPre.length)
          else some q
        | _, _ => advanced
      -- interim node without value uses key of a descendant
      let t4 :=
        match getN t3 path3 with
        | none => t3
        | some n3 =>
          if ¬ n3.is_leaf ∧ n3.item = none ∧ path3 ≠ [] then
            let key :=
              match n3.branch n3.br_1st with
              | some c => c.key
              | none => []
            reborrowGo t3 path3 key
          else t3
      .ok (t4, advanced')

/-! ### Specification-side definitions: well-formedness of reachable trees,
the entry list in slot (preorder, nibble-lexicographic) order, and the key
nibble order. -/

/-- Every element of a key buffer is a byte value. -/
def bytesOk (k : List Nat) : Bool := k.all (fun b => b < 256)

/-- The first `q` quad-bits of two key buffers agree. -/
def nibAgree (k1 k2 : List Nat) (q : Nat) : Bool :=
  (List.range q).all (fun j => get_qpos k1 j == get_qpos k2 j)

/-- The occupied branch slots of a node, in ascending order. -/
def occSlots (n : Node) : List Nat :=
  (List.range 16).filter (fun i => (n.branch i).isSome)

mutual

/-- Structural well-formedness of a (sub-)tree, as maintained by the
container's operations between calls (invariants I1-I5 of the design):
the branch array has 16 slots; an item's key is the node's buffer, made of
bytes, of nibble length exactly `qlen` when `exact` is set (`insert` and
`erase` maintain this; `insert_at` at a position whose matched nibble
count equals the node's `qlen` can install an entry whose key is longer
than the path, so sequences using it only maintain the `exact := false`
form, `2 * key length ≥ qlen`); a non-root node without an item has at
least two occupied slots (I5; a non-root leaf therefore carries an item);
the root has `qlen = 0`; the 1st/last branch indices cache the extreme
occupied slots, with `br_1st > br_last` on a leaf (I4); the key buffer is
made of bytes; and each occupied slot `i` holds a child of strictly
greater `qlen` (I1) whose key buffer agrees with this node's on the first
`qlen` quad-bits, whose quad-bit at position `qlen` is `i`, and whose
`br_own` is `i` (I2). -/
def wfNode (exact isRoot : Bool) : Node → Bool
  | n@(.mk _ k q _ _ _ br) =>
    br.length == 16 &&
    (match n.item with
     | some it =>
       n.key == it.key &&
       (if exact then n.qlen == 2 * it.key.length
        else n.qlen ≤ 2 * it.key.length) &&
       bytesOk it.key
     | none => isRoot || 2 ≤ (occSlots n).length) &&
    (!isRoot || n.qlen == 0) &&
    (match occSlots n with
     | [] => n.is_leaf
     | o => o.contains n.br_1st && o.contains n.br_last &&
         o.all (fun j => n.br_1st ≤ j && j ≤ n.br_last)) &&
    bytesOk n.key &&
    wfBranches exact k q br 0

/-- Well-formedness of the branch slots starting at index `i`, against the
parent's key buffer `pk` and depth `pq`. -/
def wfBranches (exact : Bool) (pk : List Nat) (pq : Nat) :
    List (Option Node) → Nat → Bool
  | [], _ => true
  | none :: l, i => wfBranches exact pk pq l (i + 1)
  | some c :: l, i =>
    (pq < c.qlen && nibAgree c.key pk pq && get_qpos c.key pq == i &&
     c.br_own == i) &&
    wfNode exact false c && wfBranches exact pk pq l (i + 1)

end

/-- Top-level well-formedness of a trie (the root), as maintained by
`insert` and `erase`. -/
def wf (t : Node) : Bool := wfNode true true t

/-- Weak well-formedness: as `wf` but an entry's key may be longer than
its node's path (what survives `insert_at` at an equal-`qlen` position). -/
def wwf (t : Node) : Bool := wfNode false true t

mutual

/-- The entries of a (sub-)tree, own item first, then the subtrees in
branch-slot order: the in-order (nibble-lexicographic) entry sequence. -/
def entriesOf : Node → List Item
  | n@(.mk _ _ _ _ _ _ br) =>
    (match n.item with | some it => [it] | none => []) ++ entriesBr br

/-- Entries of a branch array, in slot order. -/
def entriesBr : List (Option Node) → List Item
  | [] => []
  | none :: l => entriesBr l
  | some c :: l => entriesOf c ++ entriesBr l

end

mutual

/-- The paths (relative node pointers) of the item-bearing nodes of a
(sub-)tree, in the same order as `entriesOf`. -/
def itemPaths : Node → List Path
  | n@(.mk _ _ _ _ _ _ br) =>
    (if n.item.isSome then [([] : Path)] else []) ++ itemPathsBr br 0

/-- Item paths below a branch array starting at slot index `i`. -/
def itemPathsBr : List (Option Node) → Nat → List Path
  | [], _ => []
  | none :: l, i => itemPathsBr l (i + 1)
  | some c :: l, i => (itemPaths c).map (i :: .) ++ itemPathsBr l (i + 1)

end

/-- The quad-bit (nibble) string of a key. -/
def nibbles (k : List Nat) : List Nat :=
  (List.range (2 * k.length)).map (get_qpos k)

/-- Strict lexicographic order on nibble strings. -/
def nibLt : List Nat → List Nat → Bool
  | [], [] => false
  | [], _ :: _ => true
  | _ :: _, [] => false
  | a :: as, b :: bs => a < b || (a == b && nibLt as bs)

/-- The states reachable from a fresh trie by insertions and erasures
(inserted keys are byte strings). -/
inductive Reachable : Node → Prop where
  | empty : Reachable emptyTrie
  | insert (t : Node) (it : Item) (h : Reachable t)
      (hb : bytesOk it.key = true) : Reachable (insert t it).1
  | erase (t : Node) (iter : Iter) (t' : Node) (it' : Iter)
      (h : Reachable t) (hok : erase t iter = .ok (t', it')) : Reachable t'

/-- The states reachable from a fresh trie by the full mutator set:
`insert`, `insert_at` on a `lower_bound` position for the entry's own key,
and `erase`. -/
inductive ReachableX : Node → Prop where
  | empty : ReachableX emptyTrie
  | insert (t : Node) (it : Item) (h : ReachableX t)
      (hb : bytesOk it.key = true) : ReachableX (insert t it).1
  | insertAt (t : Node) (it : Item) (t' : Node) (p : Path)
      (h : ReachableX t) (hb : bytesOk it.key = true)
      (hok : insertAtPos t it (lower_bound t it.key) = .ok (t', p)) :
      ReachableX t'
  | erase (t : Node) (iter : Iter) (t' : Node) (it' : Iter)
      (h : ReachableX t) (hok : erase t iter = .ok (t', it')) : ReachableX t'

/-- Iterate the in-order iterator from `it`, collecting at most `fuel`
node pointers (the bound is only needed for totality; iteration from
`begin()` on a well-formed tree visits exactly the item-bearing nodes). -/
def iterPaths (t : Node) : Nat → Iter → List Path
  | 0, _ => []
  | _, none => []
  | fuel + 1, some p => p :: iterPaths t fuel (next t p)

/-- Specification of a strict-trace miss `(p, q)` on tree `t` for query
`key`: the node at `p` either misses `key` at an empty branch slot at its
own depth, or holds at the query's slot an occupant whose edge covers the
divergence depth `q`, so that `insert_node` can split there. -/
def TraceMissOK (t : Node) (key : List Nat) (p : Path) (q : Nat) : Prop :=
  ∃ m, getN t p = some m ∧ nibAgree key m.key m.qlen = true ∧
    ((q = m.qlen ∧ m.branch (get_qpos key m.qlen) = none ∧
      m.qlen < 2 * key.length)
     ∨
     (∃ C, m.branch (get_qpos key m.qlen) = some C ∧
       m.qlen < q ∧ q < C.qlen ∧ nibAgree key C.key q = true ∧
       q ≤ 2 * key.length ∧
       (q < 2 * key.length → get_qpos key q ≠ get_qpos C.key q)))

/-- Specification of a strict-trace success position: the node matches the
full query, and the reported flag is its item presence. -/
def TraceHitOK (t : Node) (key : List Nat) (p : Path) (mtch : Bool) : Prop :=
  ∃ M, getN t p = some M ∧ M.qlen = 2 * key.length ∧
    nibAgree key M.key (2 * key.length) = true ∧ mtch = M.item.isSome

/-- The observation a node pointer yields under `deref`, indexed by the
path (used to state how `erase` relocates surviving entries). -/
def obs (t : Node) (p : Path) : Option (List Nat × Nat × Item) :=
  match getN t p with
  | none => none
  | some nod =>
    match nod.item with
    | none => none
    | some item => some (nod.key.take (nod.qlen >>> 1), nod.qlen >>> 1, item)

/-! ### Concrete tries used by several claims -/

/-- A slobby-relevant one-entry trie: the single key `ab cd` (hex). -/
def oneKeyTrie : Node := (insert emptyTrie ⟨[0xab, 0xcd], 7⟩).1

/-- A one-entry trie with key `12 34` (hex), for `insert_at` positions. -/
def posTrie : Node := (insert emptyTrie ⟨[0x12, 0x34], 5⟩).1

/-- The trie of scenario S1: six keys inserted in the given order. -/
def s1Trie : Node :=
  ([⟨[0x01, 0x02, 0x03], 0⟩, ⟨[0x01, 0x12, 0x03], 1⟩, ⟨[0x02, 0x12, 0x03], 2⟩,
    ⟨[0x10, 0x12, 0x03], 3⟩, ⟨[0x10, 0x12], 4⟩, ⟨[0x10, 0x13, 0x11], 5⟩] :
    List Item).foldl (fun t it => (insert t it).1) emptyTrie

/-! ### Fuel adequacy: the step bounds passed by the wrappers are always
sufficient, so the fuelled definitions satisfy the natural recursive
unfolding equations of the C++ loops. -/

theorem phaseAF_irrel (slob : Bool) (byte i : Nat) :
    ∀ f g nod path qv fwd, Node.size nod ≤ f → Node.size nod ≤ g →
      phaseAF slob byte i f nod path qv fwd =
        phaseAF slob byte i g nod path qv fwd := by
  intro f
  induction f with
  | zero =>
    intro g nod path qv fwd hf _
    cases nod with
    | mk it k q bo b1 bl br => simp [Node.size] at hf
  | succ f ih =>
    intro g nod path qv fwd hf hg
    cases g with
    | zero =>
      cases nod with
      | mk it k q bo b1 bl br => simp [Node.size] at hg
    | succ g =>
      show phaseAF slob byte i (f + 1) nod path qv fwd =
        phaseAF slob byte i (g + 1) nod path qv fwd
      simp only [phaseAF]
      by_cases h2 : 2 ≤ qv
      · simp [h2]
      · simp only [if_neg h2]
        rcases hb : nod.branch (if qv = 1 then byte % 16 else byte / 16) with
          _ | child
        · simp only [hb]
        · simp only [hb]
          have hc : child.size < nod.size := size_branch hb
          by_cases hl : slob = true ∧ child.is_leaf = true
          · simp [hl]
          · simp only [if_neg hl]
            exact ih g child _ _ _ (by omega) (by omega)

theorem phaseA_eq (slob : Bool) (byte i : Nat) (nod : Node) (path : Path)
    (qv : Nat) (fwd : Bool) :
    phaseA slob byte i nod path qv fwd =
      if 2 ≤ qv then .cont nod path qv fwd
      else
        let slot := if qv = 1 then byte % 16 else byte / 16
        match nod.branch slot with
        | none =>
          if qv = 1 ∧ ((nod.key.getD i 0) ^^^ byte) >>> 4 ≠ 0 then
            .missAt (parentPath path) (2 * i)
          else
            .missAt path (2 * i + qv)
        | some child =>
          if slob ∧ child.is_leaf then .slobHit (path ++ [slot])
          else
            phaseA slob byte i child (path ++ [slot]) (child.qlen - 2 * i)
              (decide (0 < qv)) := by
  show phaseAF slob byte i nod.size nod path qv fwd = _
  have h1 : 1 ≤ nod.size := by
    cases nod with
    | mk it k q bo b1 bl br => simp [Node.size]
  rcases hs : nod.size with _ | m
  · omega
  · simp only [phaseAF]
    by_cases h2 : 2 ≤ qv
    · simp [h2]
    · simp only [if_neg h2]
      rcases hb : nod.branch (if qv = 1 then byte % 16 else byte / 16) with
        _ | child
      · simp only [hb]
      · simp only [hb]
        have hc : child.size < nod.size := size_branch hb
        by_cases hl : slob = true ∧ child.is_leaf = true
        · simp [hl]
        · simp only [if_neg hl]
          exact phaseAF_irrel slob byte i m child.size child _ _ _
            (by omega) (le_refl _)

theorem br_last_lt16 (n : Node) : n.br_last < 16 := by
  cases n with
  | mk it k q bo b1 bl br => simpa [Node.br_last] using Nat.mod_lt bl (by omega)

theorem br_1st_lt16 (n : Node) : n.br_1st < 16 := by
  cases n with
  | mk it k q bo b1 bl br => simpa [Node.br_1st] using Nat.mod_lt b1 (by omega)

theorem br_own_lt16 (n : Node) : n.br_own < 16 := by
  cases n with
  | mk it k q bo b1 bl br => simpa [Node.br_own] using Nat.mod_lt bo (by omega)

theorem size_pos (n : Node) : 1 ≤ n.size := by
  cases n with
  | mk it k q bo b1 bl br => simp [Node.size]

theorem descendF_gt {g : Nat} {nod : Node} {br_ix : Nat}
    (h : nod.br_last < br_ix) : descendF g nod br_ix = none := by
  cases g with
  | zero => rfl
  | succ g => simp [descendF, Nat.not_le.mpr h]

theorem descendF_irrel :
    ∀ f g (nod : Node) (br_ix : Nat),
      17 * nod.size ≤ f + br_ix → 17 * nod.size ≤ g + br_ix →
      descendF f nod br_ix = descendF g nod br_ix := by
  intro f
  induction f with
  | zero =>
    intro g nod br_ix hf _
    have h1 := size_pos nod
    have hlt := br_last_lt16 nod
    rw [descendF_gt (by omega), descendF_gt (by omega)]
  | succ f ih =>
    intro g nod br_ix hf hg
    cases g with
    | zero =>
      have h1 := size_pos nod
      have hlt := br_last_lt16 nod
      rw [descendF_gt (by omega), descendF_gt (by omega)]
    | succ g =>
      show descendF (f + 1) nod br_ix = descendF (g + 1) nod br_ix
      simp only [descendF]
      by_cases hbr : br_ix ≤ nod.br_last
      · simp only [if_pos hbr]
        have hlt := br_last_lt16 nod
        rcases hb : nod.branch br_ix with _ | c
        · simp only [hb]
          exact ih g nod (br_ix + 1) (by omega) (by omega)
        · simp only [hb]
          have hc : c.size < nod.size := size_branch hb
          by_cases hi : c.item.isSome
          · simp [hi]
          · rw [if_neg hi, if_neg hi]
            have hinner : descendF f c c.br_1st = descendF g c c.br_1st :=
              ih g c c.br_1st (by omega) (by omega)
            rw [hinner]
            rcases hr : descendF g c c.br_1st with _ | rel
            · simp only [hr]
              exact ih g nod (br_ix + 1) (by omega) (by omega)
            · simp only [hr]
      · simp [if_neg hbr]

theorem descend_eq (nod : Node) (br_ix : Nat) :
    descend nod br_ix =
      if br_ix ≤ nod.br_last then
        match nod.branch br_ix with
        | none => descend nod (br_ix + 1)
        | some c =>
          if c.item.isSome then some [br_ix]
          else
            match descend c c.br_1st with
            | some rel => some (br_ix :: rel)
            | none => descend nod (br_ix + 1)
      else none := by
  show descendF (17 * nod.size) nod br_ix = _
  have h1 := size_pos nod
  have hlt := br_last_lt16 nod
  rcases hs : 17 * nod.size with _ | m
  · omega
  · simp only [descendF]
    by_cases hbr : br_ix ≤ nod.br_last
    · simp only [if_pos hbr]
      rcases hb : nod.branch br_ix with _ | c
      · simp only [hb]
        exact descendF_irrel m (17 * nod.size) nod (br_ix + 1)
          (by omega) (by omega)
      · simp only [hb]
        have hc : c.size < nod.size := size_branch hb
        by_cases hi : c.item.isSome
        · simp [hi]
        · rw [if_neg hi, if_neg hi]
          have hinner : descendF m c c.br_1st = descend c c.br_1st :=
            descendF_irrel m (17 * c.size) c c.br_1st (by omega) (by omega)
          rw [hinner]
          rcases hr : descend c c.br_1st with _ | rel
          · simp only [hr]
            exact descendF_irrel m (17 * nod.size) nod (br_ix + 1)
              (by omega) (by omega)
          · simp only [hr]
    · simp [if_neg hbr]

theorem nextUpF_irrel (t : Node) :
    ∀ f g (path : Path) (br_ix : Nat), path.length < f → path.length < g →
      nextUpF t f path br_ix = nextUpF t g path br_ix := by
  intro f
  induction f with
  | zero => intro g path br_ix hf _; omega
  | succ f ih =>
    intro g path br_ix hf hg
    cases g with
    | zero => omega
    | succ g =>
      show nextUpF t (f + 1) path br_ix = nextUpF t (g + 1) path br_ix
      simp only [nextUpF]
      rcases hn : getN t path with _ | nod
      · simp only [hn]
      · simp only [hn]
        rcases hd : descend nod br_ix with _ | rel
        · simp only [hd]
          by_cases hp : path = []
          · simp [hp]
          · simp only [if_neg hp]
            have hlen : 0 < path.length := List.length_pos.mpr hp
            have : (parentPath path).length = path.length - 1 := by
              simp [parentPath, List.length_dropLast]
            exact ih g (parentPath path) (nod.br_own + 1)
              (by omega) (by omega)
        · simp only [hd]

theorem nextUp_eq (t : Node) (path : Path) (br_ix : Nat) :
    nextUp t path br_ix =
      match getN t path with
      | none => none
      | some nod =>
        match descend nod br_ix with
        | some rel => some (path ++ rel)
        | none =>
          if path = [] then none
          else nextUp t (parentPath path) (nod.br_own + 1) := by
  show nextUpF t (path.length + 1) path br_ix = _
  simp only [nextUpF]
  rcases hn : getN t path with _ | nod
  · simp only [hn]
  · simp only [hn]
    rcases hd : descend nod br_ix with _ | rel
    · simp only [hd]
      by_cases hp : path = []
      · simp [hp]
      · simp only [if_neg hp]
        have hlen : 0 < path.length := List.length_pos.mpr hp
        have hdl : (parentPath path).length = path.length - 1 := by
          simp [parentPath, List.length_dropLast]
        exact nextUpF_irrel t path.length ((parentPath path).length + 1)
          (parentPath path) (nod.br_own + 1) (by omega) (by omega)
    · simp only [hd]

theorem reborrowGoF_irrel (key : List Nat) :
    ∀ f g (t : Node) (p : Path), p.length < f → p.length < g →
      reborrowGoF key f t p = reborrowGoF key g t p := by
  intro f
  induction f with
  | zero => intro g t p hf _; omega
  | succ f ih =>
    intro g t p hf hg
    cases g with
    | zero => omega
    | succ g =>
      show reborrowGoF key (f + 1) t p = reborrowGoF key (g + 1) t p
      simp only [reborrowGoF]
      by_cases hp : p = []
      · simp [hp]
      · simp only [if_neg hp]
        rcases hn : getN t p with _ | nod
        · simp only [hn]
        · simp only [hn]
          by_cases hi : nod.item.isSome
          · simp [hi]
          · rw [if_neg hi, if_neg hi]
            have hlen : 0 < p.length := List.length_pos.mpr hp
            have hdl : (parentPath p).length = p.length - 1 := by
              simp [parentPath, List.length_dropLast]
            exact ih g _ (parentPath p) (by omega) (by omega)

theorem reborrowGo_eq (t : Node) (p : Path) (key : List Nat) :
    reborrowGo t p key =
      if p = [] then t
      else
        match getN t p with
        | none => t
        | some nod =>
          if nod.item.isSome then t
          else
            reborrowGo (updateAt t p (fun n => n.setKey key)) (parentPath p)
              key := by
  show reborrowGoF key (p.length + 1) t p = _
  simp only [reborrowGoF]
  by_cases hp : p = []
  · simp [hp]
  · simp only [if_neg hp]
    rcases hn : getN t p with _ | nod
    · simp only [hn]
    · simp only [hn]
      by_cases hi : nod.item.isSome
      · simp [hi]
      · rw [if_neg hi, if_neg hi]
        have hlen : 0 < p.length := List.length_pos.mpr hp
        have hdl : (parentPath p).length = p.length - 1 := by
          simp [parentPath, List.length_dropLast]
        exact reborrowGoF_irrel key p.length ((parentPath p).length + 1) _
          (parentPath p) (by omega) (by omega)

theorem xor_shiftRight (a b n : Nat) :
    (a ^^^ b) >>> n = (a >>> n) ^^^ (b >>> n) := by
  apply Nat.eq_of_testBit_eq
  intro i
  simp [Nat.testBit_shiftRight, Nat.testBit_xor, Nat.add_comm i n]

theorem xor_hi_ne_zero (a b : Nat) :
    (a ^^^ b) >>> 4 ≠ 0 ↔ a >>> 4 ≠ b >>> 4 := by
  rw [xor_shiftRight, ne_eq, Nat.xor_eq_zero]

theorem getN_append (t : Node) (p q : Path) :
    getN t (p ++ q) = (getN t p).bind (fun n => getN n q) := by
  induction p generalizing t with
  | nil => simp [getN]
  | cons i p ih =>
    simp only [List.cons_append, getN]
    rcases hb : t.branch i with _ | c
    · simp
    · simpa using ih c

/-- Strict tracing never takes the slobby short-circuit. -/
theorem phaseAF_no_slobHit (byte i : Nat) :
    ∀ fuel (nod : Node) (path : Path) (qv : Nat) (fwd : Bool) (p : Path),
      phaseAF false byte i fuel nod path qv fwd ≠ .slobHit p := by
  intro fuel
  induction fuel with
  | zero => intro nod path qv fwd p h; simp [phaseAF] at h
  | succ fuel ih =>
    intro nod path qv fwd p h
    simp only [phaseAF] at h
    by_cases h2 : 2 ≤ qv
    · rw [if_pos h2] at h; cases h
    · rw [if_neg h2] at h
      rcases hb : nod.branch (if qv = 1 then byte % 16 else byte / 16) with
        _ | child
      · simp only [hb] at h
        split at h <;> cases h
      · simp only [hb] at h
        rw [if_neg (by simp)] at h
        exact ih child _ _ _ p h

/-- A Phase-A continuation stays inside the subtree and extends the
path accordingly. -/
theorem phaseAF_cont_getN (slob : Bool) (byte i : Nat) :
    ∀ fuel (nod : Node) (path : Path) (qv : Nat) (fwd : Bool)
      (nod' : Node) (path' : Path) (qv' : Nat) (fwd' : Bool),
      phaseAF slob byte i fuel nod path qv fwd = .cont nod' path' qv' fwd' →
      ∃ rel, path' = path ++ rel ∧ getN nod rel = some nod' := by
  intro fuel
  induction fuel with
  | zero => intro nod path qv fwd n' p' q' f' h; simp [phaseAF] at h
  | succ fuel ih =>
    intro nod path qv fwd n' p' q' f' h
    simp only [phaseAF] at h
    by_cases h2 : 2 ≤ qv
    · rw [if_pos h2] at h
      cases h
      exact ⟨[], by simp, by simp [getN]⟩
    · rw [if_neg h2] at h
      rcases hb : nod.branch (if qv = 1 then byte % 16 else byte / 16) with
        _ | child
      · simp only [hb] at h
        split at h <;> cases h
      · simp only [hb] at h
        by_cases hl : slob = true ∧ child.is_leaf = true
        · rw [if_pos hl] at h; cases h
        · rw [if_neg hl] at h
          obtain ⟨rel, hrel, hget⟩ := ih child _ _ _ n' p' q' f' h
          refine ⟨(if qv = 1 then byte % 16 else byte / 16) :: rel, ?_, ?_⟩
          · simp [hrel]
          · simp [getN, hb, hget]

/-- Phase A with the slobby flag either behaves exactly like the strict
Phase A, or short-circuits at a leaf reached by the descent. -/
theorem phaseAF_slob_cases (byte i : Nat) :
    ∀ fuel (nod : Node) (path : Path) (qv : Nat) (fwd : Bool),
      phaseAF true byte i fuel nod path qv fwd =
        phaseAF false byte i fuel nod path qv fwd ∨
      ∃ rel c, phaseAF true byte i fuel nod path qv fwd
            = .slobHit (path ++ rel)
          ∧ getN nod rel = some c ∧ c.is_leaf = true := by
  intro fuel
  induction fuel with
  | zero => intro nod path qv fwd; left; rfl
  | succ fuel ih =>
    intro nod path qv fwd
    by_cases h2 : 2 ≤ qv
    · left; simp only [phaseAF]; rw [if_pos h2, if_pos h2]
    · rcases hb : nod.branch (if qv = 1 then byte % 16 else byte / 16) with
        _ | child
      · left
        simp only [phaseAF]
        rw [if_neg h2, if_neg h2]
        simp only [hb]
      · by_cases hl : child.is_leaf = true
        · right
          refine ⟨[if qv = 1 then byte % 16 else byte / 16], child, ?_, ?_, hl⟩
          · simp only [phaseAF]
            rw [if_neg h2]
            simp only [hb]
            rw [if_pos ⟨by trivial, hl⟩]
          · simp [getN, hb]
        · have hstep : ∀ b : Bool,
              phaseAF b byte i (fuel + 1) nod path qv fwd =
                phaseAF b byte i fuel child
                  (path ++ [if qv = 1 then byte % 16 else byte / 16])
                  (child.qlen - 2 * i) (decide (0 < qv)) := by
            intro b
            simp only [phaseAF]
            rw [if_neg h2]
            simp only [hb]
            rw [if_neg (by rintro ⟨_, hc⟩; exact hl hc)]
          rw [hstep true, hstep false]
          rcases ih child (path ++ [if qv = 1 then byte % 16 else byte / 16])
              (child.qlen - 2 * i) (decide (0 < qv)) with heq | ⟨rel, c, hs, hg, hlf⟩
          · left; exact heq
          · right
            refine ⟨(if qv = 1 then byte % 16 else byte / 16) :: rel, c, ?_, ?_, hlf⟩
            · simpa using hs
            · simp [getN, hb, hg]

/-- The byte loop with the slobby flag either equals the strict byte loop,
or ends in a short-circuit success position at a leaf of the subtree. -/
theorem traceGo_slob_cases (len : Nat) :
    ∀ (rest : List Nat) (i : Nat) (nod : Node) (path : Path) (qv : Nat),
      traceGo true len rest i nod path qv =
        traceGo false len rest i nod path qv ∨
      ∃ rel c, traceGo true len rest i nod path qv
            = .pos (path ++ rel) (len <<< 1) true
          ∧ getN nod rel = some c ∧ c.is_leaf = true := by
  intro rest
  induction rest with
  | nil => intro i nod path qv; left; rfl
  | cons byte rest ih =>
    intro i nod path qv
    rcases phaseAF_slob_cases byte i nod.size nod path qv false with
      heq | ⟨rel, c, hs, hg, hlf⟩
    · simp only [traceGo, phaseA]
      rw [heq]
      cases hres : phaseAF false byte i nod.size nod path qv false with
      | missAt p q => left; rfl
      | slobHit p =>
        exact absurd hres (phaseAF_no_slobHit byte i _ nod path qv false p)
      | cont nod' path' qv' fwd' =>
        obtain ⟨relc, hrelc, hgetc⟩ :=
          phaseAF_cont_getN false byte i nod.size nod path qv false
            nod' path' qv' fwd' hres
        by_cases hmm : (nod'.key.getD i 0) ^^^ byte ≠ 0
        · left
          simp only [if_pos hmm]
        · simp only [if_neg hmm]
          rcases ih (i + 1) nod' path' (qv' - 2) with
            heq2 | ⟨rel2, c2, hs2, hg2, hlf2⟩
          · left; exact heq2
          · right
            refine ⟨relc ++ rel2, c2, ?_, ?_, hlf2⟩
            · rw [hs2, hrelc, List.append_assoc]
            · rw [getN_append, hgetc]
              simpa using hg2
    · right
      refine ⟨rel, c, ?_, hg, hlf⟩
      simp only [traceGo, phaseA]
      simp only [hs]

/-- C7 (amended).  Slobby-mode `find` is indistinguishable from
strict-mode `find` on every query key except those whose Phase-A descent
reaches a leaf before the query is consumed: on any trie (slobby and
strict tries built from the same insertions hold the identical tree, since
insertion always traces strictly) and any query key, either the slobby
`find` result equals the strict one, or the slobby trace short-circuited
at a leaf of the tree with a full-match position of the query's nibble
length, and `find` returns the entry at that leaf. -/
theorem slobby_find_agrees_unless_leaf_shortcut (t : Node) (k : List Nat) :
    find true t k = find false t k ∨
    ∃ p c, trace true t k = .pos p (k.length <<< 1) true
      ∧ getN t p = some c ∧ c.is_leaf = true ∧ find true t k = some p := by
  rcases traceGo_slob_cases k.length k 0 t [] 0 with heq | ⟨rel, c, hs, hg, hlf⟩
  · left
    simp only [find, trace, heq]
  · right
    refine ⟨rel, c, ?_, hg, hlf, ?_⟩
    · simpa [trace] using hs
    · simp only [find, trace]
      simp only [List.nil_append] at hs
      rw [hs]
      rfl

/-! ### Quad-bit arithmetic -/

theorem get_qpos_even (k : List Nat) (i : Nat) :
    get_qpos k (2 * i) = k.getD i 0 / 16 := by
  simp [get_qpos, Nat.mul_div_cancel_left, Nat.mul_mod_right]

theorem get_qpos_odd (k : List Nat) (i : Nat) :
    get_qpos k (2 * i + 1) = k.getD i 0 % 16 := by
  have h1 : (2 * i + 1) % 2 = 1 := by omega
  have h2 : (2 * i + 1) / 2 = i := by omega
  simp [get_qpos, h1, h2]

theorem byte_eq_of_nibs {a b : Nat} (h1 : a / 16 = b / 16)
    (h2 : a % 16 = b % 16) : a = b := by
  omega

theorem shiftRight4_eq_div (a : Nat) : a >>> 4 = a / 16 := by
  rw [Nat.shiftRight_eq_div_pow]

set_option maxRecDepth 2048 in
theorem and240_small :
    ∀ x < 256, ((x &&& 240 = 0) ↔ x >>> 4 = 0) := by
  decide

theorem and240_eq_zero_iff :
    ∀ a < 256, ∀ b < 256, (((a ^^^ b) &&& 240 = 0) ↔ a / 16 = b / 16) := by
  intro a ha b hb
  have hx : a ^^^ b < 256 := Nat.xor_lt_two_pow (n := 8) ha hb
  rw [and240_small _ hx, xor_shiftRight, Nat.xor_eq_zero,
    shiftRight4_eq_div, shiftRight4_eq_div]

theorem nibAgree_iff {k1 k2 : List Nat} {q : Nat} :
    nibAgree k1 k2 q = true ↔ ∀ j < q, get_qpos k1 j = get_qpos k2 j := by
  simp [nibAgree, List.all_eq_true]

theorem nibAgree_mono {k1 k2 : List Nat} {q q' : Nat} (h : q' ≤ q)
    (ha : nibAgree k1 k2 q = true) : nibAgree k1 k2 q' = true := by
  rw [nibAgree_iff] at ha ⊢
  exact fun j hj => ha j (by omega)

theorem nibAgree_symm {k1 k2 : List Nat} {q : Nat}
    (ha : nibAgree k1 k2 q = true) : nibAgree k2 k1 q = true := by
  rw [nibAgree_iff] at ha ⊢
  exact fun j hj => (ha j hj).symm

theorem nibAgree_trans {k1 k2 k3 : List Nat} {q : Nat}
    (h1 : nibAgree k1 k2 q = true) (h2 : nibAgree k2 k3 q = true) :
    nibAgree k1 k3 q = true := by
  rw [nibAgree_iff] at h1 h2 ⊢
  exact fun j hj => (h1 j hj).trans (h2 j hj)

theorem nibAgree_succ {k1 k2 : List Nat} {q : Nat}
    (ha : nibAgree k1 k2 q = true) (hq : get_qpos k1 q = get_qpos k2 q) :
    nibAgree k1 k2 (q + 1) = true := by
  rw [nibAgree_iff] at ha ⊢
  intro j hj
  rcases Nat.lt_or_ge j q with h | h
  · exact ha j h
  · have : j = q := by omega
    subst this; exact hq

theorem nibAgree_refl (k : List Nat) (q : Nat) : nibAgree k k q = true := by
  rw [nibAgree_iff]; intro j _; rfl

/-! ### Well-formedness component extraction -/

theorem wfNode_def (e r : Bool) (n : Node) :
    wfNode e r n =
      ((n.branches.length == 16) &&
       (match n.item with
        | some it =>
          n.key == it.key &&
          (if e then n.qlen == 2 * it.key.length
           else n.qlen ≤ 2 * it.key.length) &&
          bytesOk it.key
        | none => r || 2 ≤ (occSlots n).length) &&
       (!r || n.qlen == 0) &&
       (match occSlots n with
        | [] => n.is_leaf
        | o => o.contains n.br_1st && o.contains n.br_last &&
            o.all (fun j => n.br_1st ≤ j && j ≤ n.br_last)) &&
       bytesOk n.key &&
       wfBranches e n.key n.qlen n.branches 0) := by
  cases n with
  | mk it k q bo b1 bl br => rfl

theorem wfN_len {e r : Bool} {n : Node} (h : wfNode e r n = true) :
    n.branches.length = 16 := by
  rw [wfNode_def] at h
  simp only [Bool.and_eq_true, beq_iff_eq] at h
  exact h.1.1.1.1.1

theorem wfN_bytes {e r : Bool} {n : Node} (h : wfNode e r n = true) :
    bytesOk n.key = true := by
  rw [wfNode_def] at h
  simp only [Bool.and_eq_true] at h
  exact h.1.2

theorem wfN_item {e r : Bool} {n : Node} {it : Item}
    (h : wfNode e r n = true) (hi : n.item = some it) :
    n.key = it.key ∧ bytesOk it.key = true ∧
    n.qlen ≤ 2 * it.key.length ∧
    (e = true → n.qlen = 2 * it.key.length) := by
  rw [wfNode_def] at h
  simp only [Bool.and_eq_true] at h
  have h2 := h.1.1.1.1.2
  rw [hi] at h2
  simp only [Bool.and_eq_true, beq_iff_eq] at h2
  refine ⟨h2.1.1, h2.2, ?_, ?_⟩
  · cases e with
    | true => have := h2.1.2; simp at this; omega
    | false => have := h2.1.2; simpa using this
  · intro he
    subst he
    have := h2.1.2
    simpa using this

theorem wfN_interim {e : Bool} {n : Node} (h : wfNode e false n = true)
    (hi : n.item = none) : 2 ≤ (occSlots n).length := by
  rw [wfNode_def] at h
  simp only [Bool.and_eq_true] at h
  have h2 := h.1.1.1.1.2
  rw [hi] at h2
  simpa using h2

theorem wfN_root_qlen {e : Bool} {n : Node} (h : wfNode e true n = true) :
    n.qlen = 0 := by
  rw [wfNode_def] at h
  simp only [Bool.and_eq_true] at h
  have h2 := h.1.1.1.2
  simpa using h2

theorem wfN_cache {e r : Bool} {n : Node} (h : wfNode e r n = true) :
    (occSlots n = [] ∧ n.is_leaf = true) ∨
    (occSlots n ≠ [] ∧ n.br_1st ∈ occSlots n ∧ n.br_last ∈ occSlots n ∧
     ∀ j ∈ occSlots n, n.br_1st ≤ j ∧ j ≤ n.br_last) := by
  rw [wfNode_def] at h
  simp only [Bool.and_eq_true] at h
  have h2 := h.1.1.2
  rcases ho : occSlots n with _ | ⟨a, o⟩
  · left
    rw [ho] at h2
    exact ⟨rfl, h2⟩
  · right
    rw [ho] at h2
    simp only [Bool.and_eq_true, List.elem_iff, List.all_eq_true,
      decide_eq_true_eq] at h2
    refine ⟨by simp, h2.1.1, h2.1.2, ?_⟩
    intro j hj
    have := h2.2 j hj
    simpa using this

theorem wfBranches_getD {e : Bool} {pk : List Nat} {pq : Nat} :
    ∀ {l : List (Option Node)} {j i : Nat} {c : Node},
      wfBranches e pk pq l j = true → l.getD i none = some c →
      pq < c.qlen ∧ nibAgree c.key pk pq = true ∧
      get_qpos c.key pq = j + i ∧ c.br_own = j + i ∧
      wfNode e false c = true := by
  intro l
  induction l with
  | nil => intro j i c _ hg; simp [List.getD] at hg
  | cons a l ih =>
    intro j i c hw hg
    cases i with
    | zero =>
      simp only [List.getD_cons_zero] at hg
      subst hg
      simp only [wfBranches, Bool.and_eq_true, beq_iff_eq, decide_eq_true_eq]
        at hw
      refine ⟨hw.1.1.1.1.1, hw.1.1.1.1.2, ?_, ?_, hw.1.2⟩
      · simpa using hw.1.1.1.2
      · simpa using hw.1.1.2
    | succ i' =>
      simp only [List.getD_cons_succ] at hg
      have hw' : wfBranches e pk pq l (j + 1) = true := by
        cases a with
        | none => simpa [wfBranches] using hw
        | some b =>
          simp only [wfBranches, Bool.and_eq_true] at hw
          exact hw.2
      have := ih hw' hg
      refine ⟨this.1, this.2.1, ?_, ?_, this.2.2.2.2⟩
      · rw [this.2.2.1]; omega
      · rw [this.2.2.2.1]; omega

theorem wfN_branch {e r : Bool} {n : Node} {i : Nat} {c : Node}
    (h : wfNode e r n = true) (hb : n.branch i = some c) :
    n.qlen < c.qlen ∧ nibAgree c.key n.key n.qlen = true ∧
    get_qpos c.key n.qlen = i ∧ c.br_own = i ∧
    wfNode e false c = true := by
  have hwb : wfBranches e n.key n.qlen n.branches 0 = true := by
    rw [wfNode_def] at h
    simp only [Bool.and_eq_true] at h
    exact h.2
  have := wfBranches_getD (l := n.branches) (j := 0) (i := i) hwb hb
  simpa using this

/-! ### Accessor/setter algebra -/

theorem setBranch_item (n : Node) (i : Nat) (b : Option Node) :
    (n.setBranch i b).item = n.item := by cases n; rfl

theorem setBranch_key (n : Node) (i : Nat) (b : Option Node) :
    (n.setBranch i b).key = n.key := by cases n; rfl

theorem setBranch_qlen (n : Node) (i : Nat) (b : Option Node) :
    (n.setBranch i b).qlen = n.qlen := by cases n; rfl

theorem setBranch_br_own (n : Node) (i : Nat) (b : Option Node) :
    (n.setBranch i b).br_own = n.br_own := by cases n; rfl

theorem setBranch_br_1st (n : Node) (i : Nat) (b : Option Node) :
    (n.setBranch i b).br_1st = n.br_1st := by cases n; rfl

theorem setBranch_br_last (n : Node) (i : Nat) (b : Option Node) :
    (n.setBranch i b).br_last = n.br_last := by cases n; rfl

theorem setBranch_branches (n : Node) (i : Nat) (b : Option Node) :
    (n.setBranch i b).branches = n.branches.set i b := by cases n; rfl

theorem setItem_item (n : Node) (it : Option Item) :
    (n.setItem it).item = it := by cases n; rfl

theorem setItem_key (n : Node) (it : Option Item) :
    (n.setItem it).key = n.key := by cases n; rfl

theorem setItem_qlen (n : Node) (it : Option Item) :
    (n.setItem it).qlen = n.qlen := by cases n; rfl

theorem setItem_br_own (n : Node) (it : Option Item) :
    (n.setItem it).br_own = n.br_own := by cases n; rfl

theorem setItem_br_1st (n : Node) (it : Option Item) :
    (n.setItem it).br_1st = n.br_1st := by cases n; rfl

theorem setItem_br_last (n : Node) (it : Option Item) :
    (n.setItem it).br_last = n.br_last := by cases n; rfl

theorem setItem_branches (n : Node) (it : Option Item) :
    (n.setItem it).branches = n.branches := by cases n; rfl

theorem setKey_item (n : Node) (k : List Nat) :
    (n.setKey k).item = n.item := by cases n; rfl

theorem setKey_key (n : Node) (k : List Nat) :
    (n.setKey k).key = k := by cases n; rfl

theorem setKey_qlen (n : Node) (k : List Nat) :
    (n.setKey k).qlen = n.qlen := by cases n; rfl

theorem setKey_br_own (n : Node) (k : List Nat) :
    (n.setKey k).br_own = n.br_own := by cases n; rfl

theorem setKey_br_1st (n : Node) (k : List Nat) :
    (n.setKey k).br_1st = n.br_1st := by cases n; rfl

theorem setKey_br_last (n : Node) (k : List Nat) :
    (n.setKey k).br_last = n.br_last := by cases n; rfl

theorem setKey_branches (n : Node) (k : List Nat) :
    (n.setKey k).branches = n.branches := by cases n; rfl

theorem setBrOwn_item (n : Node) (ix : Nat) :
    (n.setBrOwn ix).item = n.item := by cases n; rfl

theorem setBrOwn_key (n : Node) (ix : Nat) :
    (n.setBrOwn ix).key = n.key := by cases n; rfl

theorem setBrOwn_qlen (n : Node) (ix : Nat) :
    (n.setBrOwn ix).qlen = n.qlen := by cases n; rfl

theorem setBrOwn_br_own (n : Node) (ix : Nat) :
    (n.setBrOwn ix).br_own = ix % 16 := by cases n; rfl

theorem setBrOwn_br_1st (n : Node) (ix : Nat) :
    (n.setBrOwn ix).br_1st = n.br_1st := by cases n; rfl

theorem setBrOwn_br_last (n : Node) (ix : Nat) :
    (n.setBrOwn ix).br_last = n.br_last := by cases n; rfl

theorem setBrOwn_branches (n : Node) (ix : Nat) :
    (n.setBrOwn ix).branches = n.branches := by cases n; rfl

theorem setBrOwn_branch (n : Node) (ix i : Nat) :
    (n.setBrOwn ix).branch i = n.branch i := by
  simp [Node.branch, setBrOwn_branches]

theorem br_set_item (n : Node) (a b : Nat) :
    (n.br_set a b).item = n.item := by cases n; rfl

theorem br_set_key (n : Node) (a b : Nat) :
    (n.br_set a b).key = n.key := by cases n; rfl

theorem br_set_qlen (n : Node) (a b : Nat) :
    (n.br_set a b).qlen = n.qlen := by cases n; rfl

theorem br_set_br_own (n : Node) (a b : Nat) :
    (n.br_set a b).br_own = n.br_own := by cases n; rfl

theorem br_set_br_1st (n : Node) (a b : Nat) :
    (n.br_set a b).br_1st = a % 16 := by cases n; rfl

theorem br_set_br_last (n : Node) (a b : Nat) :
    (n.br_set a b).br_last = b % 16 := by cases n; rfl

theorem br_set_branches (n : Node) (a b : Nat) :
    (n.br_set a b).branches = n.branches := by cases n; rfl

theorem setBr1st_item (n : Node) (a : Nat) :
    (n.setBr1st a).item = n.item := by cases n; rfl

theorem setBr1st_key (n : Node) (a : Nat) :
    (n.setBr1st a).key = n.key := by cases n; rfl

theorem setBr1st_qlen (n : Node) (a : Nat) :
    (n.setBr1st a).qlen = n.qlen := by cases n; rfl

theorem setBr1st_br_own (n : Node) (a : Nat) :
    (n.setBr1st a).br_own = n.br_own := by cases n; rfl

theorem setBr1st_br_1st (n : Node) (a : Nat) :
    (n.setBr1st a).br_1st = a % 16 := by cases n; rfl

theorem setBr1st_br_last (n : Node) (a : Nat) :
    (n.setBr1st a).br_last = n.br_last := by cases n; rfl

theorem setBr1st_branches (n : Node) (a : Nat) :
    (n.setBr1st a).branches = n.branches := by cases n; rfl

theorem setBrLast_item (n : Node) (a : Nat) :
    (n.setBrLast a).item = n.item := by cases n; rfl

theorem setBrLast_key (n : Node) (a : Nat) :
    (n.setBrLast a).key = n.key := by cases n; rfl

theorem setBrLast_qlen (n : Node) (a : Nat) :
    (n.setBrLast a).qlen = n.qlen := by cases n; rfl

theorem setBrLast_br_own (n : Node) (a : Nat) :
    (n.setBrLast a).br_own = n.br_own := by cases n; rfl

theorem setBrLast_br_1st (n : Node) (a : Nat) :
    (n.setBrLast a).br_1st = n.br_1st := by cases n; rfl

theorem setBrLast_br_last (n : Node) (a : Nat) :
    (n.setBrLast a).br_last = a % 16 := by cases n; rfl

theorem setBrLast_branches (n : Node) (a : Nat) :
    (n.setBrLast a).branches = n.branches := by cases n; rfl

theorem getD_some_lt {l : List (Option Node)} {i : Nat} {c : Node}
    (h : l.getD i none = some c) : i < l.length := by
  by_contra hge
  rw [List.getD_eq_default] at h
  · cases h
  · omega

theorem getD_set_self {l : List (Option Node)} {i : Nat}
    (h : i < l.length) (b : Option Node) : (l.set i b).getD i none = b := by
  induction l generalizing i with
  | nil => simp at h
  | cons a l ih =>
    cases i with
    | zero => simp
    | succ j =>
      simp only [List.set_cons_succ, List.getD_cons_succ]
      exact ih (by simpa using h)

theorem getD_set_ne {l : List (Option Node)} {i j : Nat}
    (h : j ≠ i) (b : Option Node) : (l.set i b).getD j none = l.getD j none := by
  induction l generalizing i j with
  | nil => simp
  | cons a l ih =>
    cases i with
    | zero =>
      cases j with
      | zero => omega
      | succ j' => simp
    | succ i' =>
      cases j with
      | zero => simp
      | succ j' =>
        simp only [List.set_cons_succ, List.getD_cons_succ]
        exact ih (by omega)

theorem branch_setBranch_self {n : Node} {i : Nat} (h : i < n.branches.length)
    (b : Option Node) : (n.setBranch i b).branch i = b := by
  rw [Node.branch, setBranch_branches, getD_set_self h]

theorem branch_setBranch_ne (n : Node) {i j : Nat} (h : j ≠ i)
    (b : Option Node) : (n.setBranch i b).branch j = n.branch j := by
  rw [Node.branch, setBranch_branches, getD_set_ne h, Node.branch]

/-! ### Paths, `getN` and `updateAt` -/

theorem getN_parent :
    ∀ {p : Path} {t n : Node}, getN t p = some n → p ≠ [] →
      ∃ m j, p = parentPath p ++ [j] ∧ getN t (parentPath p) = some m ∧
        m.branch j = some n := by
  intro p
  induction p with
  | nil => intro t n _ hne; exact absurd rfl hne
  | cons i q ih =>
    intro t n hg _
    simp only [getN] at hg
    rcases hb : t.branch i with _ | c
    · rw [hb] at hg; cases hg
    · rw [hb] at hg
      cases q with
      | nil =>
        simp only [getN] at hg
        cases hg
        exact ⟨t, i, by simp [parentPath], by simp [parentPath, getN], hb⟩
      | cons a q' =>
        obtain ⟨m, j, hpq, hget, hbr⟩ := ih hg (by simp)
        refine ⟨m, j, ?_, ?_, hbr⟩
        · show i :: a :: q' = parentPath (i :: a :: q') ++ [j]
          have : parentPath (i :: a :: q') = i :: parentPath (a :: q') := by
            simp [parentPath]
          rw [this]
          simpa using hpq
        · have : parentPath (i :: a :: q') = i :: parentPath (a :: q') := by
            simp [parentPath]
          rw [this]
          simpa [getN, hb] using hget

theorem getN_wf {e : Bool} :
    ∀ {p : Path} {t n : Node} {r : Bool}, wfNode e r t = true →
      getN t p = some n → (p = [] ∧ n = t) ∨ wfNode e false n = true := by
  intro p
  induction p with
  | nil => intro t n r _ hg; cases hg; left; exact ⟨rfl, rfl⟩
  | cons i q ih =>
    intro t n r hw hg
    simp only [getN] at hg
    rcases hb : t.branch i with _ | c
    · rw [hb] at hg; cases hg
    · rw [hb] at hg
      have hc := (wfN_branch hw hb).2.2.2.2
      rcases ih hc hg with ⟨hq, hn⟩ | h
      · right; subst hq; cases hg; exact hn ▸ hc
      · right; exact h

theorem set_getD_self :
    ∀ {l : List (Option Node)} {i : Nat} {c : Node},
      l.getD i none = some c → l.set i (some c) = l := by
  intro l
  induction l with
  | nil => intro i c h; simp
  | cons a l ih =>
    intro i c h
    cases i with
    | zero => simp_all
    | succ j =>
      simp only [List.getD_cons_succ] at h
      simp [ih h]

theorem getN_updateAt_some :
    ∀ {p : Path} {t n : Node} (f : Node → Node), getN t p = some n →
      getN (updateAt t p f) p = some (f n) := by
  intro p
  induction p with
  | nil => intro t n f hg; cases hg; rfl
  | cons i q ih =>
    intro t n f hg
    simp only [getN] at hg
    rcases hb : t.branch i with _ | c
    · rw [hb] at hg; cases hg
    · rw [hb] at hg
      have hlt : i < t.branches.length := getD_some_lt hb
      simp only [updateAt, hb]
      simp only [getN]
      rw [branch_setBranch_self hlt]
      exact ih f hg

theorem getN_updateAt_none :
    ∀ {p : Path} {t : Node} (f : Node → Node), getN t p = none →
      updateAt t p f = t := by
  intro p
  induction p with
  | nil => intro t f hg; cases hg
  | cons i q ih =>
    intro t f hg
    simp only [getN] at hg
    rcases hb : t.branch i with _ | c
    · simp [updateAt, hb]
    · rw [hb] at hg
      simp only [updateAt, hb]
      rw [ih f hg]
      cases t with
      | mk it k q' bo b1 bl br =>
        simp only [Node.setBranch]
        congr 1
        exact set_getD_self hb

/-! ### Entries of a well-formed tree -/

theorem entriesOf_def (n : Node) :
    entriesOf n =
      (match n.item with | some it => [it] | none => []) ++
        entriesBr n.branches := by
  cases n; rfl

theorem itemPaths_def (n : Node) :
    itemPaths n =
      (if n.item.isSome then [([] : Path)] else []) ++
        itemPathsBr n.branches 0 := by
  cases n; rfl

theorem entriesBr_mem :
    ∀ {l : List (Option Node)} {it : Item},
      it ∈ entriesBr l ↔ ∃ i c, l.getD i none = some c ∧ it ∈ entriesOf c := by
  intro l
  induction l with
  | nil => intro it; simp [entriesBr, List.getD]
  | cons a l ih =>
    intro it
    cases a with
    | none =>
      simp only [entriesBr]
      rw [ih]
      constructor
      · rintro ⟨i, c, hg, hm⟩
        exact ⟨i + 1, c, by simpa using hg, hm⟩
      · rintro ⟨i, c, hg, hm⟩
        cases i with
        | zero => simp [List.getD] at hg
        | succ j => exact ⟨j, c, by simpa using hg, hm⟩
    | some b =>
      simp only [entriesBr, List.mem_append]
      rw [ih]
      constructor
      · rintro (hm | ⟨i, c, hg, hm⟩)
        · exact ⟨0, b, rfl, hm⟩
        · exact ⟨i + 1, c, by simpa using hg, hm⟩
      · rintro ⟨i, c, hg, hm⟩
        cases i with
        | zero =>
          simp only [List.getD_cons_zero, Option.some.injEq] at hg
          subst hg
          exact Or.inl hm
        | succ j => exact Or.inr ⟨j, c, by simpa using hg, hm⟩

theorem mem_entriesOf {n : Node} {it : Item} :
    it ∈ entriesOf n ↔ n.item = some it ∨ it ∈ entriesBr n.branches := by
  rw [entriesOf_def]
  rcases hi : n.item with _ | it0
  · simp
  · simp [List.mem_append, eq_comm]

theorem occSlots_mem {n : Node} {i : Nat} :
    i ∈ occSlots n ↔ i < 16 ∧ (n.branch i).isSome = true := by
  simp [occSlots, List.mem_filter, List.mem_range]

theorem branch_none_of_ge {n : Node} (hlen : n.branches.length = 16) {i : Nat}
    (h : 16 ≤ i) : n.branch i = none := by
  rw [Node.branch, List.getD_eq_default]
  omega

theorem entries_nonempty {e : Bool} :
    ∀ (k : Nat) (n : Node), n.size ≤ k → wfNode e false n = true →
      entriesOf n ≠ [] := by
  intro k
  induction k with
  | zero => intro n hs _; have := size_pos n; omega
  | succ k ih =>
    intro n hs hw
    rcases hi : n.item with _ | it
    · have hocc := wfN_interim hw hi
      have hne : occSlots n ≠ [] := by
        intro h; rw [h] at hocc; simp at hocc
      obtain ⟨i, hmem⟩ := List.exists_mem_of_ne_nil _ hne
      rw [occSlots_mem] at hmem
      rcases hb : n.branch i with _ | c
      · rw [hb] at hmem; simp at hmem
      · have hwc := (wfN_branch hw hb).2.2.2.2
        have hsz := size_branch hb
        have hcne := ih c (by omega) hwc
        intro hemp
        apply hcne
        obtain ⟨x, hx⟩ := List.exists_mem_of_ne_nil _ hcne
        have : x ∈ entriesOf n := by
          rw [mem_entriesOf]
          right
          rw [entriesBr_mem]
          exact ⟨i, c, hb, hx⟩
        rw [hemp] at this
        cases this
    · intro hemp
      have : it ∈ entriesOf n := by rw [mem_entriesOf]; left; exact hi
      rw [hemp] at this
      cases this

theorem entry_below {e : Bool} :
    ∀ (k : Nat) (n : Node), n.size ≤ k → ∀ {r : Bool} {it : Item},
      wfNode e r n = true → it ∈ entriesBr n.branches →
      nibAgree it.key n.key n.qlen = true ∧ n.qlen < 2 * it.key.length ∧
      bytesOk it.key = true ∧
      ∃ c, n.branch (get_qpos it.key n.qlen) = some c ∧ it ∈ entriesOf c := by
  intro k
  induction k with
  | zero => intro n hs; have := size_pos n; omega
  | succ k ih =>
    intro n hs r it hw hm
    rw [entriesBr_mem] at hm
    obtain ⟨i, c, hb, hmc⟩ := hm
    have hbr := wfN_branch hw (show n.branch i = some c from hb)
    have hsz : c.size ≤ k := by
      have := size_branch (show n.branch i = some c from hb); omega
    rw [mem_entriesOf] at hmc
    rcases hmc with hit | hbelow
    · -- the item sits directly at the child
      have hitc := wfN_item hbr.2.2.2.2 hit
      have hkey : c.key = it.key := hitc.1
      have hagree : nibAgree it.key n.key n.qlen = true := by
        have h0 : nibAgree c.key n.key n.qlen = true := hbr.2.1
        rwa [hkey] at h0
      refine ⟨hagree, ?_, hitc.2.1, c, ?_, ?_⟩
      · have h1 := hbr.1
        have h2 := hitc.2.2.1
        omega
      · have h0 : get_qpos c.key n.qlen = i := hbr.2.2.1
        rw [hkey] at h0
        rw [h0]; exact hb
      · rw [mem_entriesOf]; left; exact hit
    · -- the item is deeper: recurse
      have hrec := ih c hsz hbr.2.2.2.2 hbelow
      have hagree : nibAgree it.key n.key n.qlen = true := by
        have h1 : nibAgree it.key c.key n.qlen = true :=
          nibAgree_mono (by omega) hrec.1
        exact nibAgree_trans h1 hbr.2.1
      refine ⟨hagree, ?_, hrec.2.2.1, c, ?_, ?_⟩
      · have := hrec.2.1; have := hbr.1; omega
      · have : get_qpos it.key n.qlen = get_qpos c.key n.qlen := by
          have := hrec.1
          rw [nibAgree_iff] at this
          exact this n.qlen hbr.1
        rw [this, hbr.2.2.1]
        exact hb
      · rw [mem_entriesOf]; right; exact hbelow

/-! ### Reconstruction of well-formedness -/

theorem wfBranches_iff {e : Bool} {pk : List Nat} {pq : Nat} :
    ∀ {l : List (Option Node)} {j : Nat},
      wfBranches e pk pq l j = true ↔
      ∀ x c, l.getD x none = some c →
        pq < c.qlen ∧ nibAgree c.key pk pq = true ∧
        get_qpos c.key pq = j + x ∧ c.br_own = j + x ∧
        wfNode e false c = true := by
  intro l
  induction l with
  | nil =>
    intro j
    constructor
    · intro _ x c hg; simp [List.getD] at hg
    · intro _; rfl
  | cons a l ih =>
    intro j
    cases a with
    | none =>
      simp only [wfBranches]
      rw [ih]
      constructor
      · intro h x c hg
        cases x with
        | zero => simp [List.getD] at hg
        | succ x' =>
          have := h x' c (by simpa using hg)
          refine ⟨this.1, this.2.1, by omega, by omega, this.2.2.2.2⟩
      · intro h x c hg
        have := h (x + 1) c (by simpa using hg)
        refine ⟨this.1, this.2.1, by omega, by omega, this.2.2.2.2⟩
    | some b =>
      simp only [wfBranches, Bool.and_eq_true, beq_iff_eq, decide_eq_true_eq]
      rw [ih]
      constructor
      · rintro ⟨⟨⟨⟨⟨h1, h2⟩, h3⟩, h4⟩, h5⟩, h6⟩ x c hg
        cases x with
        | zero =>
          simp only [List.getD_cons_zero, Option.some.injEq] at hg
          subst hg
          exact ⟨h1, h2, by omega, by omega, h5⟩
        | succ x' =>
          have := h6 x' c (by simpa using hg)
          refine ⟨this.1, this.2.1, by omega, by omega, this.2.2.2.2⟩
      · intro h
        have h0 := h 0 b (by simp)
        refine ⟨⟨⟨⟨⟨h0.1, h0.2.1⟩, by omega⟩, by omega⟩, h0.2.2.2.2⟩, ?_⟩
        intro x c hg
        have := h (x + 1) c (by simpa using hg)
        refine ⟨this.1, this.2.1, by omega, by omega, this.2.2.2.2⟩

theorem wfNode_iff {e r : Bool} {n : Node} :
    wfNode e r n = true ↔
      (n.branches.length = 16 ∧
       (∀ it, n.item = some it →
         n.key = it.key ∧ bytesOk it.key = true ∧
         n.qlen ≤ 2 * it.key.length ∧
         (e = true → n.qlen = 2 * it.key.length)) ∧
       (n.item = none → r = true ∨ 2 ≤ (occSlots n).length) ∧
       (r = true → n.qlen = 0) ∧
       (occSlots n = [] → n.is_leaf = true) ∧
       (occSlots n ≠ [] → n.br_1st ∈ occSlots n ∧ n.br_last ∈ occSlots n ∧
         ∀ j ∈ occSlots n, n.br_1st ≤ j ∧ j ≤ n.br_last) ∧
       bytesOk n.key = true ∧
       (∀ i c, n.branch i = some c →
         n.qlen < c.qlen ∧ nibAgree c.key n.key n.qlen = true ∧
         get_qpos c.key n.qlen = i ∧ c.br_own = i ∧
         wfNode e false c = true)) := by
  constructor
  · intro h
    refine ⟨wfN_len h, ?_, ?_, ?_, ?_, ?_, wfN_bytes h, ?_⟩
    · intro it hi
      have := wfN_item h hi
      exact ⟨this.1, this.2.1, this.2.2.1, this.2.2.2⟩
    · intro hi
      rw [wfNode_def] at h
      simp only [Bool.and_eq_true] at h
      have h2 := h.1.1.1.1.2
      rw [hi] at h2
      cases r with
      | true => exact Or.inl rfl
      | false => right; simpa using h2
    · intro hr
      subst hr
      exact wfN_root_qlen h
    · intro ho
      rcases wfN_cache h with ⟨_, hl⟩ | ⟨hne, _⟩
      · exact hl
      · exact absurd ho hne
    · intro ho
      rcases wfN_cache h with ⟨hnil, _⟩ | ⟨_, h1, h2, h3⟩
      · exact absurd hnil ho
      · exact ⟨h1, h2, h3⟩
    · intro i c hb
      exact wfN_branch h hb
  · rintro ⟨h1, h2, h3, h4, h5, h6, h7, h8⟩
    rw [wfNode_def]
    simp only [Bool.and_eq_true]
    refine ⟨⟨⟨⟨⟨by simpa using h1, ?_⟩, ?_⟩, ?_⟩, h7⟩, ?_⟩
    · rcases hi : n.item with _ | it
      · cases r with
        | true => simp
        | false =>
          rcases h3 hi with h | h
          · cases h
          · simpa using h
      · have := h2 it hi
        simp only [Bool.and_eq_true, beq_iff_eq]
        refine ⟨⟨this.1, ?_⟩, this.2.1⟩
        cases e with
        | true => simp [this.2.2.2 rfl]
        | false => simpa using this.2.2.1
    · cases r with
      | true => simp [h4 rfl]
      | false => simp
    · rcases ho : occSlots n with _ | ⟨a, o⟩
      · exact h5 ho
      · have := h6 (by rw [ho]; simp)
        rw [ho] at this
        simp only [Bool.and_eq_true, List.elem_iff, List.all_eq_true,
          decide_eq_true_eq]
        refine ⟨⟨this.1, this.2.1⟩, ?_⟩
        intro j hj
        have := this.2.2 j hj
        simpa using this
    · rw [wfBranches_iff]
      intro x c hg
      have := h8 x c hg
      refine ⟨this.1, this.2.1, by simpa using this.2.2.1,
        by simpa using this.2.2.2.1, this.2.2.2.2⟩

/-! ### Occupancy under updates -/

theorem occSlots_congr {n m : Node}
    (h : ∀ i, (n.branch i).isSome = (m.branch i).isSome)
    (h1 : n.br_1st = m.br_1st) (h2 : n.br_last = m.br_last) :
    occSlots n = occSlots m ∧ n.is_leaf = m.is_leaf := by
  constructor
  · unfold occSlots
    congr 1
    funext i
    rw [h i]
  · simp [Node.is_leaf, h1, h2]

theorem occSlots_setBranch_some {n : Node} {i : Nat} {c c' : Node}
    (hb : n.branch i = some c) :
    occSlots (n.setBranch i (some c')) = occSlots n := by
  have hlt : i < n.branches.length := getD_some_lt hb
  refine (occSlots_congr ?_ (setBranch_br_1st ..) (setBranch_br_last ..)).1
  intro j
  by_cases hj : j = i
  · subst hj
    rw [branch_setBranch_self hlt, hb]
    rfl
  · rw [branch_setBranch_ne _ hj]

theorem branch_updateAt_cons (t : Node) (i : Nat) (q : Path)
    (f : Node → Node) {c : Node} (hb : t.branch i = some c) (j : Nat) :
    (updateAt t (i :: q) f).branch j =
      if j = i then some (updateAt c q f) else t.branch j := by
  simp only [updateAt, hb]
  by_cases hj : j = i
  · subst hj
    rw [branch_setBranch_self (getD_some_lt hb), if_pos rfl]
  · rw [branch_setBranch_ne _ hj, if_neg hj]

theorem updateAt_fields {c : Node} :
    ∀ {q : Path} {n : Node} (n' : Node), getN c q = some n → q ≠ [] →
      (updateAt c q (fun _ => n')).qlen = c.qlen ∧
      (updateAt c q (fun _ => n')).br_own = c.br_own ∧
      (updateAt c q (fun _ => n')).key = c.key ∧
      (updateAt c q (fun _ => n')).item = c.item ∧
      (updateAt c q (fun _ => n')).br_1st = c.br_1st ∧
      (updateAt c q (fun _ => n')).br_last = c.br_last := by
  intro q n n' hg hne
  cases q with
  | nil => exact absurd rfl hne
  | cons i q' =>
    simp only [getN] at hg
    rcases hb : c.branch i with _ | d
    · rw [hb] at hg; cases hg
    · simp only [updateAt, hb]
      exact ⟨setBranch_qlen .., setBranch_br_own .., setBranch_key ..,
        setBranch_item .., setBranch_br_1st .., setBranch_br_last ..⟩

/-- Replacing the subtree at a valid path by a well-formed node with the
same `qlen` and `br_own` and an agreeing key prefix preserves
well-formedness of the whole tree. -/
theorem wf_updateAt {e : Bool} :
    ∀ {p : Path} {t n n' : Node} {r : Bool},
      wfNode e r t = true → getN t p = some n →
      wfNode e (if p = [] then r else false) n' = true →
      n.qlen ≤ n'.qlen → n'.br_own = n.br_own →
      nibAgree n'.key n.key n.qlen = true →
      wfNode e r (updateAt t p (fun _ => n')) = true := by
  intro p
  induction p with
  | nil =>
    intro t n n' r hw hg hw' _ _ _
    cases hg
    simpa using hw'
  | cons i q ih =>
    intro t n n' r hw hg hw' hq ho ha
    simp only [getN] at hg
    rcases hb : t.branch i with _ | c
    · rw [hb] at hg; cases hg
    · rw [hb] at hg
      have hbr := wfN_branch hw hb
      have hw'' : wfNode e (if q = [] then false else false) n' = true := by
        have : ¬(i :: q = ([] : Path)) := by simp
        rw [if_neg this] at hw'
        split <;> exact hw'
      -- the updated child
      have hcfacts : c.qlen ≤ (updateAt c q (fun _ => n')).qlen ∧
          (updateAt c q (fun _ => n')).br_own = c.br_own ∧
          nibAgree (updateAt c q (fun _ => n')).key c.key c.qlen = true := by
        cases hqe : q with
        | nil =>
          subst hqe
          cases hg
          exact ⟨hq, ho, ha⟩
        | cons a q2 =>
          rw [← hqe]
          have hne : q ≠ [] := by rw [hqe]; simp
          obtain ⟨f1, f2, f3, _, _, _⟩ := updateAt_fields n' hg hne
          exact ⟨le_of_eq f1.symm, f2, by rw [f3]; exact nibAgree_refl _ _⟩
      have hcwf : wfNode e false (updateAt c q (fun _ => n')) = true := by
        have := ih (r := false) hbr.2.2.2.2 hg hw'' hq ho ha
        simpa using this
      -- rebuild at the parent
      rw [wfNode_iff] at hw ⊢
      obtain ⟨g1, g2, g3, g4, g5, g6, g7, g8⟩ := hw
      have hlt : i < t.branches.length := getD_some_lt hb
      have hocc : occSlots (t.setBranch i (some (updateAt c q fun _ => n')))
          = occSlots t := occSlots_setBranch_some hb
      simp only [updateAt, hb]
      refine ⟨?_, ?_, ?_, ?_, ?_, ?_, ?_, ?_⟩
      · rw [setBranch_branches]; simpa using g1
      · intro it hi
        rw [setBranch_item] at hi
        have := g2 it hi
        simpa [setBranch_key, setBranch_qlen] using this
      · intro hi
        rw [setBranch_item] at hi
        rw [hocc]
        exact g3 hi
      · intro hr
        rw [setBranch_qlen]
        exact g4 hr
      · intro hoc
        rw [hocc] at hoc
        have := g5 hoc
        simp only [Node.is_leaf] at this ⊢
        rwa [setBranch_br_1st, setBranch_br_last]
      · intro hoc
        rw [hocc] at hoc
        have := g6 hoc
        rw [hocc, setBranch_br_1st, setBranch_br_last]
        exact this
      · rw [setBranch_key]; exact g7
      · intro j d hbj
        rw [setBranch_qlen, setBranch_key]
        by_cases hj : j = i
        · subst hj
          rw [branch_setBranch_self hlt] at hbj
          cases hbj
          refine ⟨lt_of_lt_of_le hbr.1 hcfacts.1, ?_, ?_, ?_, hcwf⟩
          · exact nibAgree_trans
              (nibAgree_mono (le_of_lt hbr.1) hcfacts.2.2) hbr.2.1
          · have : get_qpos (updateAt c q fun _ => n').key t.qlen =
                get_qpos c.key t.qlen := by
              have := hcfacts.2.2
              rw [nibAgree_iff] at this
              exact this t.qlen hbr.1
            rw [this]
            exact hbr.2.2.1
          · rw [hcfacts.2.1]
            exact hbr.2.2.2.1
        · rw [branch_setBranch_ne _ hj] at hbj
          exact g8 j d hbj

/-! ### Tree-surgery algebra: composing `updateAt` steps, occupied-slot
bookkeeping under branch removal, and the branch-index rescans. -/

theorem setBranch_setBranch (n : Node) (i : Nat) (a b : Option Node) :
    (n.setBranch i a).setBranch i b = n.setBranch i b := by
  cases n with
  | mk it k q bo b1 bl br => simp [Node.setBranch, List.set_set]

theorem updateAt_congr :
    ∀ {p : Path} {t n : Node} (f : Node → Node), getN t p = some n →
      updateAt t p f = updateAt t p (fun _ => f n) := by
  intro p
  induction p with
  | nil => intro t n f hg; cases hg; rfl
  | cons i q ih =>
    intro t n f hg
    simp only [getN] at hg
    cases hb : t.branch i with
    | none => simp only [updateAt, hb]
    | some c =>
      rw [hb] at hg
      simp only [updateAt, hb]
      rw [ih f hg]

theorem updateAt_append (f : Node → Node) :
    ∀ (p : Path) (t : Node) (q : Path),
      updateAt t (p ++ q) f = updateAt t p (fun n => updateAt n q f) := by
  intro p
  induction p with
  | nil => intro t q; rfl
  | cons i p' ih =>
    intro t q
    show updateAt t (i :: (p' ++ q)) f = _
    cases hb : t.branch i with
    | none => simp only [updateAt, hb]
    | some c =>
      simp only [updateAt, hb]
      rw [ih]

theorem updateAt_updateAt (f g : Node → Node) :
    ∀ (p : Path) (t : Node),
      updateAt (updateAt t p f) p g = updateAt t p (fun n => g (f n)) := by
  intro p
  induction p with
  | nil => intro t; rfl
  | cons i p' ih =>
    intro t
    cases hb : t.branch i with
    | none => simp only [updateAt, hb]
    | some c =>
      have hlt : i < t.branches.length := getD_some_lt hb
      have h1 : updateAt t (i :: p') f
          = t.setBranch i (some (updateAt c p' f)) := by
        simp only [updateAt, hb]
      have h2 : (t.setBranch i (some (updateAt c p' f))).branch i
          = some (updateAt c p' f) := branch_setBranch_self hlt _
      rw [h1]
      simp only [updateAt, h2]
      rw [ih, setBranch_setBranch]
      simp only [updateAt, hb]

theorem updateAt_snoc (f : Node → Node) {t par c : Node} {p : Path} {j : Nat}
    (hg : getN t p = some par) (hb : par.branch j = some c) :
    updateAt t (p ++ [j]) f
      = updateAt t p (fun n => n.setBranch j (some (f c))) := by
  rw [updateAt_append, updateAt_congr _ hg,
    updateAt_congr (fun n => n.setBranch j (some (f c))) hg]
  congr 1
  funext m
  simp [updateAt, hb]

theorem occSlots_ext {n m : Node}
    (h : ∀ i, (n.branch i).isSome = (m.branch i).isSome) :
    occSlots n = occSlots m := by
  unfold occSlots
  congr 1
  funext i
  rw [h i]

theorem occSlots_nodup (n : Node) : (occSlots n).Nodup :=
  (List.nodup_range 16).filter _

theorem setBranch_branch_of_ge {n : Node} {j : Nat}
    (hge : n.branches.length ≤ j) (b : Option Node) :
    n.setBranch j b = n := by
  cases n with
  | mk it k q bo b1 bl br =>
    simp only [Node.setBranch]
    rw [List.set_eq_of_length_le (by simpa using hge)]

theorem occSlots_setBranch_none {n : Node} {j : Nat}
    (hlen : n.branches.length = 16) :
    occSlots (n.setBranch j none)
      = (occSlots n).filter (fun i => decide ¬(i = j)) := by
  unfold occSlots
  rw [List.filter_filter]
  apply List.filter_congr
  intro i hi
  rw [List.mem_range] at hi
  by_cases h : i = j
  · subst h
    have hb : (n.setBranch i none).branch i = none :=
      branch_setBranch_self (by rw [hlen]; exact hi) _
    simp [hb]
  · have hb : (n.setBranch j none).branch i = n.branch i :=
      branch_setBranch_ne n h _
    simp [hb, h]

theorem length_filter_ne {l : List Nat} {j : Nat} (hnd : l.Nodup)
    (hj : j ∈ l) :
    (l.filter (fun i => decide ¬(i = j))).length + 1 = l.length := by
  induction l with
  | nil => cases hj
  | cons a l ih =>
    rw [List.nodup_cons] at hnd
    rcases List.mem_cons.mp hj with h | h
    · have hfe : l.filter (fun i => decide ¬(i = j)) = l := by
        apply List.filter_eq_self.mpr
        intro b hb
        simp only [decide_eq_true_eq]
        intro he
        exact hnd.1 (by rw [← h, ← he]; exact hb)
      have haj : (decide ¬(a = j)) = false := by
        rw [← h]
        simp
      have hstep : List.filter (fun i => decide ¬(i = j)) (a :: l)
          = List.filter (fun i => decide ¬(i = j)) l := by
        rw [List.filter_cons, haj]
        simp
      rw [hstep, hfe]
      simp
    · have ha : ¬(a = j) := fun he => hnd.1 (he ▸ h)
      simp only [List.filter_cons, decide_eq_true_eq]
      rw [if_pos ha]
      simp only [List.length_cons]
      have := ih hnd.2 h
      omega

theorem length_occSlots_setBranch_none {n : Node} {j : Nat}
    (hlen : n.branches.length = 16) (hj : j ∈ occSlots n) :
    (occSlots (n.setBranch j none)).length + 1 = (occSlots n).length := by
  rw [occSlots_setBranch_none hlen]
  exact length_filter_ne (occSlots_nodup n) hj

theorem mem_occSlots_setBranch_none {n : Node} {j i : Nat}
    (hlen : n.branches.length = 16) :
    i ∈ occSlots (n.setBranch j none) ↔ i ∈ occSlots n ∧ i ≠ j := by
  rw [occSlots_setBranch_none hlen, List.mem_filter]
  simp

theorem scanUpF_spec (l : List (Option Node)) :
    ∀ (fuel ix : Nat), 17 ≤ ix + fuel →
      (∃ j, ix ≤ j ∧ j < 16 ∧ (l.getD j none).isSome = true) →
      ix ≤ scanUpF l fuel ix ∧
      (l.getD (scanUpF l fuel ix) none).isSome = true ∧
      ∀ j, ix ≤ j → j < scanUpF l fuel ix → l.getD j none = none := by
  intro fuel
  induction fuel with
  | zero =>
    intro ix h16 hex
    obtain ⟨j, hj1, hj2, _⟩ := hex
    omega
  | succ fu ih =>
    intro ix h16 hex
    obtain ⟨j, hj1, hj2, hj3⟩ := hex
    cases hg : l.getD ix none with
    | some c =>
      have hcomp : scanUpF l (fu + 1) ix = ix := by
        conv_lhs => rw [scanUpF]
        rw [hg]
      rw [hcomp]
      exact ⟨le_refl _, by rw [hg]; rfl, fun j2 h1 h2 => by omega⟩
    | none =>
      have hix : ix < 16 := by omega
      have hcomp : scanUpF l (fu + 1) ix = scanUpF l fu (ix + 1) := by
        conv_lhs => rw [scanUpF]
        rw [hg]
        simp [hix]
      rw [hcomp]
      have hne : ix ≠ j := by
        intro he
        rw [← he, hg] at hj3
        cases hj3
      have hrec := ih (ix + 1) (by omega) ⟨j, by omega, hj2, hj3⟩
      refine ⟨by omega, hrec.2.1, ?_⟩
      intro j2 h1 h2
      by_cases h : j2 = ix
      · rw [h]; exact hg
      · exact hrec.2.2 j2 (by omega) h2

theorem scanUpFrom_spec (l : List (Option Node)) (ix : Nat)
    (hex : ∃ j, ix ≤ j ∧ j < 16 ∧ (l.getD j none).isSome = true) :
    ix ≤ scanUpFrom l ix ∧
    (l.getD (scanUpFrom l ix) none).isSome = true ∧
    ∀ j, ix ≤ j → j < scanUpFrom l ix → l.getD j none = none := by
  by_cases h : ix ≤ 16
  · exact scanUpF_spec l 17 ix (by omega) hex
  · obtain ⟨j, hj1, hj2, _⟩ := hex
    omega

theorem scanDownFrom_spec (l : List (Option Node)) :
    ∀ ix, (∃ j, j ≤ ix ∧ (l.getD j none).isSome = true) →
      scanDownFrom l ix ≤ ix ∧
      (l.getD (scanDownFrom l ix) none).isSome = true ∧
      ∀ j, scanDownFrom l ix < j → j ≤ ix → l.getD j none = none := by
  intro ix
  induction ix with
  | zero =>
    intro hex
    obtain ⟨j, hj1, hj2⟩ := hex
    have hj : j = 0 := Nat.le_zero.mp hj1
    simp only [scanDownFrom]
    exact ⟨le_refl _, hj ▸ hj2, fun j2 h1 h2 => absurd (lt_of_lt_of_le h1 h2)
      (lt_irrefl 0)⟩
  | succ ix ih =>
    intro hex
    obtain ⟨j, hj1, hj2⟩ := hex
    cases hg : l.getD (ix + 1) none with
    | some c =>
      have hcomp : scanDownFrom l (ix + 1) = ix + 1 := by
        conv_lhs => rw [scanDownFrom]
        rw [hg]
      rw [hcomp]
      exact ⟨le_refl _, by rw [hg]; rfl, fun j2 h1 h2 => by omega⟩
    | none =>
      have hcomp : scanDownFrom l (ix + 1) = scanDownFrom l ix := by
        conv_lhs => rw [scanDownFrom]
        rw [hg]
      rw [hcomp]
      have hj : j ≤ ix := by
        rcases Nat.lt_or_ge j (ix + 1) with h | h
        · omega
        · have : j = ix + 1 := by omega
          rw [this, hg] at hj2
          cases hj2
      have hrec := ih ⟨j, hj, hj2⟩
      refine ⟨by omega, hrec.2.1, ?_⟩
      intro j2 h1 h2
      by_cases h : j2 = ix + 1
      · rw [h]; exact hg
      · exact hrec.2.2 j2 h1 (by omega)

theorem setItem_branch (n : Node) (it : Option Item) (i : Nat) :
    (n.setItem it).branch i = n.branch i := by
  simp [Node.branch, setItem_branches]

theorem setKey_branch (n : Node) (k : List Nat) (i : Nat) :
    (n.setKey k).branch i = n.branch i := by
  simp [Node.branch, setKey_branches]

theorem br_set_branch (n : Node) (a b i : Nat) :
    (n.br_set a b).branch i = n.branch i := by
  simp [Node.branch, br_set_branches]

theorem setBr1st_branch (n : Node) (a i : Nat) :
    (n.setBr1st a).branch i = n.branch i := by
  simp [Node.branch, setBr1st_branches]

theorem setBrLast_branch (n : Node) (a i : Nat) :
    (n.setBrLast a).branch i = n.branch i := by
  simp [Node.branch, setBrLast_branches]

/-- `wfNode` does not inspect the node's stored item when it is absent,
except through the interim-degree condition; removing the item of a node
that keeps at least two children (or of the root) preserves
well-formedness. -/
theorem wf_setItem_none {e r : Bool} {n : Node} (h : wfNode e r n = true)
    (hkeep : r = true ∨ 2 ≤ (occSlots n).length) :
    wfNode e r (n.setItem none) = true := by
  rw [wfNode_iff] at h ⊢
  obtain ⟨g1, g2, g3, g4, g5, g6, g7, g8⟩ := h
  have hocc : occSlots (n.setItem none) = occSlots n :=
    occSlots_ext (fun i => by rw [setItem_branch])
  refine ⟨?_, ?_, ?_, ?_, ?_, ?_, ?_, ?_⟩
  · rw [setItem_branches]; exact g1
  · intro it hi
    rw [setItem_item] at hi
    cases hi
  · intro _
    rw [hocc]
    exact hkeep
  · intro hr
    rw [setItem_qlen]
    exact g4 hr
  · intro hoc
    rw [hocc] at hoc
    have := g5 hoc
    simp only [Node.is_leaf] at this ⊢
    rwa [setItem_br_1st, setItem_br_last]
  · intro hoc
    rw [hocc] at hoc
    have := g6 hoc
    rw [hocc, setItem_br_1st, setItem_br_last]
    exact this
  · rw [setItem_key]; exact g7
  · intro i c hb
    rw [setItem_branch] at hb
    rw [setItem_qlen, setItem_key]
    exact g8 i c hb

/-- Re-pointing a keyless interim node's borrowed key buffer at any byte
buffer agreeing on the node's matched quad-bits preserves well-formedness
(the key re-borrowing step of `trie::erase`). -/
theorem wf_setKey {e r : Bool} {n : Node} {k : List Nat}
    (h : wfNode e r n = true) (hit : n.item = none) (hb : bytesOk k = true)
    (ha : nibAgree k n.key n.qlen = true) :
    wfNode e r (n.setKey k) = true := by
  rw [wfNode_iff] at h ⊢
  obtain ⟨g1, g2, g3, g4, g5, g6, g7, g8⟩ := h
  have hocc : occSlots (n.setKey k) = occSlots n :=
    occSlots_ext (fun i => by rw [setKey_branch])
  refine ⟨?_, ?_, ?_, ?_, ?_, ?_, ?_, ?_⟩
  · rw [setKey_branches]; exact g1
  · intro it hi
    rw [setKey_item, hit] at hi
    cases hi
  · intro _
    rw [hocc]
    exact g3 hit
  · intro hr
    rw [setKey_qlen]
    exact g4 hr
  · intro hoc
    rw [hocc] at hoc
    have := g5 hoc
    simp only [Node.is_leaf] at this ⊢
    rwa [setKey_br_1st, setKey_br_last]
  · intro hoc
    rw [hocc] at hoc
    have := g6 hoc
    rw [hocc, setKey_br_1st, setKey_br_last]
    exact this
  · rw [setKey_key]; exact hb
  · intro i c hbr
    rw [setKey_branch] at hbr
    rw [setKey_qlen, setKey_key]
    have := g8 i c hbr
    exact ⟨this.1, nibAgree_trans this.2.1 (nibAgree_symm ha),
      this.2.2.1, this.2.2.2⟩

/-- `wfNode` never reads a node's own branch index (only the parent reads
it through the child condition), so overwriting it preserves node-local
well-formedness. -/
theorem wf_setBrOwn {e r : Bool} {n : Node} {x : Nat}
    (h : wfNode e r n = true) : wfNode e r (n.setBrOwn x) = true := by
  rw [wfNode_iff] at h ⊢
  obtain ⟨g1, g2, g3, g4, g5, g6, g7, g8⟩ := h
  have hocc : occSlots (n.setBrOwn x) = occSlots n :=
    occSlots_ext (fun i => by rw [setBrOwn_branch])
  refine ⟨?_, ?_, ?_, ?_, ?_, ?_, ?_, ?_⟩
  · rw [setBrOwn_branches]; exact g1
  · intro it hi
    rw [setBrOwn_item] at hi
    have := g2 it hi
    simpa [setBrOwn_key, setBrOwn_qlen] using this
  · intro hi
    rw [setBrOwn_item] at hi
    rw [hocc]
    exact g3 hi
  · intro hr
    rw [setBrOwn_qlen]
    exact g4 hr
  · intro hoc
    rw [hocc] at hoc
    have := g5 hoc
    simp only [Node.is_leaf] at this ⊢
    rwa [setBrOwn_br_1st, setBrOwn_br_last]
  · intro hoc
    rw [hocc] at hoc
    have := g6 hoc
    rw [hocc, setBrOwn_br_1st, setBrOwn_br_last]
    exact this
  · rw [setBrOwn_key]; exact g7
  · intro i c hb
    rw [setBrOwn_branch] at hb
    rw [setBrOwn_qlen, setBrOwn_key]
    exact g8 i c hb

theorem branch_eq_getD (n : Node) (i : Nat) :
    n.branch i = n.branches.getD i none := rfl

theorem two_le_length_of_ne {l : List Nat} {a b : Nat} (ha : a ∈ l)
    (hb : b ∈ l) (hne : a ≠ b) : 2 ≤ l.length := by
  cases l with
  | nil => cases ha
  | cons x l2 =>
    cases l2 with
    | nil =>
      rw [List.mem_singleton] at ha hb
      exact absurd (ha.trans hb.symm) hne
    | cons y l3 => simp

theorem three_le_length_of_ne {l : List Nat} {a b c : Nat} (ha : a ∈ l)
    (hb : b ∈ l) (hc : c ∈ l) (hab : a ≠ b) (hac : a ≠ c) (hbc : b ≠ c)
    (hnd : l.Nodup) : 3 ≤ l.length := by
  have h1 : b ∈ l.erase a :=
    (List.mem_erase_of_ne (fun h => hab h.symm)).mpr hb
  have h2 : c ∈ l.erase a :=
    (List.mem_erase_of_ne (fun h => hac h.symm)).mpr hc
  have h3 : 2 ≤ (l.erase a).length := two_le_length_of_ne h1 h2 hbc
  have h4 := l.length_erase_of_mem ha
  omega

/-- Under the branch-cache invariant, the leaf encoding `br_last < br_1st`
holds exactly when no child slot is occupied. -/
theorem wfN_leaf_iff {e r : Bool} {n : Node} (h : wfNode e r n = true) :
    n.is_leaf = true ↔ occSlots n = [] := by
  constructor
  · intro hl
    by_contra hne
    have h6 := (wfNode_iff.mp h).2.2.2.2.2.1 hne
    have := (h6.2.2 n.br_last h6.2.1).1
    simp only [Node.is_leaf, decide_eq_true_eq] at hl
    omega
  · exact (wfNode_iff.mp h).2.2.2.2.1

/-- Under the branch-cache invariant, `has_only_son` (`br_1st = br_last`)
holds exactly when exactly one child slot is occupied. -/
theorem wfN_only_son_iff {e r : Bool} {n : Node} (h : wfNode e r n = true)
    (hne : occSlots n ≠ []) :
    n.has_only_son = true ↔ (occSlots n).length = 1 := by
  have h6 := (wfNode_iff.mp h).2.2.2.2.2.1 hne
  constructor
  · intro hs
    simp only [Node.has_only_son, beq_iff_eq] at hs
    have hall : ∀ x ∈ occSlots n, x = n.br_1st := by
      intro x hx
      have := h6.2.2 x hx
      omega
    cases hoc : occSlots n with
    | nil => exact absurd hoc hne
    | cons a rest =>
      have hax : a = n.br_1st := hall a (by rw [hoc]; simp)
      cases rest with
      | nil => rfl
      | cons b rest2 =>
        exfalso
        have hbx : b = n.br_1st := hall b (by rw [hoc]; simp)
        have hnd := occSlots_nodup n
        rw [hoc] at hnd
        rw [List.nodup_cons] at hnd
        exact hnd.1 (by simp [hax.trans hbx.symm])
  · intro hl
    obtain ⟨a, hoc⟩ := List.length_eq_one.mp hl
    rw [hoc] at h6
    simp only [List.mem_singleton] at h6
    simp [Node.has_only_son, h6.1, h6.2.1]

theorem removeChild_item (par : Node) (j : Nat) :
    (removeChild par j).item = par.item := by
  unfold removeChild
  split
  · rw [br_set_item, setBranch_item]
  · split
    · rw [setBr1st_item, setBranch_item]
    · split
      · rw [setBrLast_item, setBranch_item]
      · rw [setBranch_item]

theorem removeChild_key (par : Node) (j : Nat) :
    (removeChild par j).key = par.key := by
  unfold removeChild
  split
  · rw [br_set_key, setBranch_key]
  · split
    · rw [setBr1st_key, setBranch_key]
    · split
      · rw [setBrLast_key, setBranch_key]
      · rw [setBranch_key]

theorem removeChild_qlen (par : Node) (j : Nat) :
    (removeChild par j).qlen = par.qlen := by
  unfold removeChild
  split
  · rw [br_set_qlen, setBranch_qlen]
  · split
    · rw [setBr1st_qlen, setBranch_qlen]
    · split
      · rw [setBrLast_qlen, setBranch_qlen]
      · rw [setBranch_qlen]

theorem removeChild_br_own (par : Node) (j : Nat) :
    (removeChild par j).br_own = par.br_own := by
  unfold removeChild
  split
  · rw [br_set_br_own, setBranch_br_own]
  · split
    · rw [setBr1st_br_own, setBranch_br_own]
    · split
      · rw [setBrLast_br_own, setBranch_br_own]
      · rw [setBranch_br_own]

theorem removeChild_branch (par : Node) (j i : Nat) :
    (removeChild par j).branch i = (par.setBranch j none).branch i := by
  unfold removeChild
  split
  · rw [br_set_branch]
  · split
    · rw [setBr1st_branch]
    · split
      · rw [setBrLast_branch]
      · rfl

theorem removeChild_branches_length (par : Node) (j : Nat) :
    (removeChild par j).branches.length = par.branches.length := by
  unfold removeChild
  split
  · rw [br_set_branches, setBranch_branches, List.length_set]
  · split
    · rw [setBr1st_branches, setBranch_branches, List.length_set]
    · split
      · rw [setBrLast_branches, setBranch_branches, List.length_set]
      · rw [setBranch_branches, List.length_set]

theorem occSlots_removeChild (par : Node) (j : Nat) :
    occSlots (removeChild par j) = occSlots (par.setBranch j none) :=
  occSlots_ext (fun i => by rw [removeChild_branch])

theorem removeChild_eq_only (par : Node) (j : Nat)
    (h : par.has_only_son = true) :
    removeChild par j = (par.setBranch j none).br_set 1 0 := by
  unfold removeChild
  simp [h]

theorem removeChild_eq_1st (par : Node) (j : Nat)
    (h1 : par.has_only_son = false) (h2 : par.br_1st = j) :
    removeChild par j = (par.setBranch j none).setBr1st
      (scanUpFrom (par.setBranch j none).branches (j + 1)) := by
  unfold removeChild
  simp [h1, h2]

theorem removeChild_eq_last (par : Node) (j : Nat)
    (h1 : par.has_only_son = false) (h2 : par.br_1st ≠ j)
    (h3 : par.br_last = j) :
    removeChild par j = (par.setBranch j none).setBrLast
      (scanDownFrom (par.setBranch j none).branches (j - 1)) := by
  unfold removeChild
  simp [h1, h2, h3]

theorem removeChild_eq_mid (par : Node) (j : Nat)
    (h1 : par.has_only_son = false) (h2 : par.br_1st ≠ j)
    (h3 : par.br_last ≠ j) :
    removeChild par j = par.setBranch j none := by
  unfold removeChild
  simp [h1, h2, h3]

/-- Shared verification core for the four cache-restoration cases of
`removeChild`: a result node that keeps the parent's item, key, quad-bit
depth and branch array minus slot `j`, and whose branch cache is correct
for the shrunk occupied-slot list, is well-formed. -/
theorem removeChild_wf_core {e r : Bool} {par res : Node} {j : Nat}
    (h : wfNode e r par = true) (hjlt : j < par.branches.length)
    (hres_item : res.item = par.item) (hres_key : res.key = par.key)
    (hres_qlen : res.qlen = par.qlen)
    (hres_len : res.branches.length = par.branches.length)
    (hres_br : ∀ i, res.branch i = (par.setBranch j none).branch i)
    (hcache : (occSlots (par.setBranch j none) = [] ∧ res.is_leaf = true) ∨
       (res.br_1st ∈ occSlots (par.setBranch j none) ∧
        res.br_last ∈ occSlots (par.setBranch j none) ∧
        ∀ x ∈ occSlots (par.setBranch j none),
          res.br_1st ≤ x ∧ x ≤ res.br_last))
    (hdeg : par.item = none →
       r = true ∨ 2 ≤ (occSlots (par.setBranch j none)).length) :
    wfNode e r res = true := by
  have hw := wfNode_iff.mp h
  obtain ⟨g1, g2, g3, g4, g5, g6, g7, g8⟩ := hw
  have hocc : occSlots res = occSlots (par.setBranch j none) :=
    occSlots_ext (fun i => by rw [hres_br])
  rw [wfNode_iff]
  refine ⟨?_, ?_, ?_, ?_, ?_, ?_, ?_, ?_⟩
  · rw [hres_len]; exact g1
  · intro it hi
    rw [hres_item] at hi
    have := g2 it hi
    rw [hres_key, hres_qlen]
    exact this
  · intro hi
    rw [hres_item] at hi
    rw [hocc]
    exact hdeg hi
  · intro hr
    rw [hres_qlen]
    exact g4 hr
  · intro hoc
    rw [hocc] at hoc
    rcases hcache with ⟨_, hl⟩ | ⟨h1, _, _⟩
    · exact hl
    · rw [hoc] at h1
      cases h1
  · intro hoc
    rw [hocc] at hoc
    rcases hcache with ⟨hnil, _⟩ | hc
    · exact absurd hnil hoc
    · rw [hocc]
      exact hc
  · rw [hres_key]; exact g7
  · intro i c hbc
    rw [hres_br] at hbc
    by_cases hij : i = j
    · subst hij
      rw [branch_setBranch_self hjlt] at hbc
      cases hbc
    · rw [branch_setBranch_ne par (fun he => hij he) _] at hbc
      rw [hres_qlen, hres_key]
      exact g8 i c hbc

/-- `removeChild` (Step 2 of `trie::erase`) keeps the parent well-formed
whenever the parent is allowed to lose one child: it carries an item, is
the root, or keeps at least two children. -/
theorem removeChild_wf {e r : Bool} {par : Node} {j : Nat} {c : Node}
    (h : wfNode e r par = true) (hb : par.branch j = some c)
    (hkeep : par.item.isSome = true ∨ r = true ∨
      3 ≤ (occSlots par).length) :
    wfNode e r (removeChild par j) = true := by
  have hw := wfNode_iff.mp h
  obtain ⟨g1, g2, g3, g4, g5, g6, g7, g8⟩ := hw
  have hjlen : j < par.branches.length := getD_some_lt hb
  have hjlt : j < 16 := by omega
  have hjocc : j ∈ occSlots par :=
    occSlots_mem.mpr ⟨hjlt, by rw [hb]; rfl⟩
  have hoccne : occSlots par ≠ [] := fun hnil => by
    rw [hnil] at hjocc; cases hjocc
  have h6 := g6 hoccne
  have hlen' : (occSlots (par.setBranch j none)).length + 1
      = (occSlots par).length := length_occSlots_setBranch_none g1 hjocc
  have hmem' : ∀ i, i ∈ occSlots (par.setBranch j none) ↔
      i ∈ occSlots par ∧ i ≠ j :=
    fun i => mem_occSlots_setBranch_none g1
  have hlen16 : (par.setBranch j none).branches.length = 16 := by
    rw [setBranch_branches, List.length_set]
    exact g1
  have hdeg3 : par.item = none → 3 ≤ (occSlots par).length →
      r = true ∨ 2 ≤ (occSlots (par.setBranch j none)).length := by
    intro _ h3
    right
    omega
  by_cases hos : par.has_only_son = true
  · -- removed the only son: the parent becomes a leaf
    rw [removeChild_eq_only par j hos]
    have hone : (occSlots par).length = 1 :=
      (wfN_only_son_iff h hoccne).mp hos
    have hnil' : occSlots (par.setBranch j none) = [] := by
      have : (occSlots (par.setBranch j none)).length = 0 := by omega
      exact List.length_eq_zero.mp this
    apply removeChild_wf_core h hjlen
    · rw [br_set_item, setBranch_item]
    · rw [br_set_key, setBranch_key]
    · rw [br_set_qlen, setBranch_qlen]
    · rw [br_set_branches, setBranch_branches, List.length_set]
    · intro i; rw [br_set_branch]
    · left
      refine ⟨hnil', ?_⟩
      simp [Node.is_leaf, br_set_br_1st, br_set_br_last]
    · intro hitem
      rcases hkeep with hk | hk | hk
      · rw [hitem] at hk; cases hk
      · exact Or.inl hk
      · omega
  · have hos' : par.has_only_son = false := by
      cases hq : par.has_only_son
      · rfl
      · exact absurd hq hos
    have hne1l : par.br_1st ≠ par.br_last := by
      intro he
      rw [Node.has_only_son] at hos'
      simp [he] at hos'
    have hdeg : par.item = none →
        r = true ∨ 2 ≤ (occSlots (par.setBranch j none)).length := by
      intro hitem
      rcases hkeep with hk | hk | hk
      · rw [hitem] at hk; cases hk
      · exact Or.inl hk
      · exact hdeg3 hitem hk
    by_cases h1st : par.br_1st = j
    · -- removed the first son: rescan upward for the new first index
      rw [removeChild_eq_1st par j hos' h1st]
      have hlast_ne : par.br_last ≠ j := fun he => hne1l (h1st.trans he.symm)
      have hlast16 : par.br_last < 16 := (occSlots_mem.mp h6.2.1).1
      have hlast_lt : j < par.br_last := by
        have := (h6.2.2 par.br_last h6.2.1).1
        omega
      have hspec := scanUpFrom_spec (par.setBranch j none).branches (j + 1)
        ⟨par.br_last, by omega, hlast16, by
          rw [← branch_eq_getD, branch_setBranch_ne par
            (fun he => hlast_ne he) _]
          exact (occSlots_mem.mp h6.2.1).2⟩
      obtain ⟨hu1, hu2, hu3⟩ := hspec
      have hu16 : scanUpFrom (par.setBranch j none).branches (j + 1) < 16 := by
        by_contra hge
        rw [List.getD_eq_default _ _ (by omega)] at hu2
        cases hu2
      have huocc : scanUpFrom (par.setBranch j none).branches (j + 1)
          ∈ occSlots (par.setBranch j none) :=
        occSlots_mem.mpr ⟨hu16, by rw [branch_eq_getD]; exact hu2⟩
      apply removeChild_wf_core h hjlen
      · rw [setBr1st_item, setBranch_item]
      · rw [setBr1st_key, setBranch_key]
      · rw [setBr1st_qlen, setBranch_qlen]
      · rw [setBr1st_branches, setBranch_branches, List.length_set]
      · intro i; rw [setBr1st_branch]
      · right
        rw [setBr1st_br_1st, setBr1st_br_last, setBranch_br_last,
          Nat.mod_eq_of_lt hu16]
        refine ⟨huocc, (hmem' _).mpr ⟨h6.2.1, hlast_ne⟩, ?_⟩
        intro x hx
        have hx' := (hmem' x).mp hx
        have hxb := h6.2.2 x hx'.1
        have hxro : j + 1 ≤ x := by
          have : par.br_1st ≤ x := hxb.1
          omega
        constructor
        · by_contra hlt
          have hemp := hu3 x hxro (by omega)
          have := (occSlots_mem.mp ((hmem' x).mpr hx')).2
          rw [branch_eq_getD, hemp] at this
          cases this
        · exact hxb.2
      · exact hdeg
    · by_cases hlst : par.br_last = j
      · -- removed the last son: rescan downward for the new last index
        rw [removeChild_eq_last par j hos' h1st hlst]
        have h1st16 : par.br_1st < 16 := (occSlots_mem.mp h6.1).1
        have h1st_lt : par.br_1st < j := by
          have := (h6.2.2 par.br_1st h6.1).2
          omega
        have hspec := scanDownFrom_spec (par.setBranch j none).branches (j - 1)
          ⟨par.br_1st, by omega, by
            rw [← branch_eq_getD, branch_setBranch_ne par
              (fun he => h1st he) _]
            exact (occSlots_mem.mp h6.1).2⟩
        obtain ⟨hd1, hd2, hd3⟩ := hspec
        have hd16 : scanDownFrom (par.setBranch j none).branches (j - 1) < 16 := by
          omega
        have hdocc : scanDownFrom (par.setBranch j none).branches (j - 1)
            ∈ occSlots (par.setBranch j none) :=
          occSlots_mem.mpr ⟨hd16, by rw [branch_eq_getD]; exact hd2⟩
        apply removeChild_wf_core h hjlen
        · rw [setBrLast_item, setBranch_item]
        · rw [setBrLast_key, setBranch_key]
        · rw [setBrLast_qlen, setBranch_qlen]
        · rw [setBrLast_branches, setBranch_branches, List.length_set]
        · intro i; rw [setBrLast_branch]
        · right
          rw [setBrLast_br_1st, setBrLast_br_last, setBranch_br_1st,
            Nat.mod_eq_of_lt hd16]
          refine ⟨(hmem' _).mpr ⟨h6.1, h1st⟩, hdocc, ?_⟩
          intro x hx
          have hx' := (hmem' x).mp hx
          have hxb := h6.2.2 x hx'.1
          have hxro : x ≤ j - 1 := by
            have : x ≤ par.br_last := hxb.2
            omega
          refine ⟨hxb.1, ?_⟩
          by_contra hgt
          have hemp := hd3 x (by omega) hxro
          have := (occSlots_mem.mp ((hmem' x).mpr hx')).2
          rw [branch_eq_getD, hemp] at this
          cases this
        · exact hdeg
      · -- removed a middle son: the cache is untouched
        rw [removeChild_eq_mid par j hos' h1st hlst]
        apply removeChild_wf_core h hjlen
        · rw [setBranch_item]
        · rw [setBranch_key]
        · rw [setBranch_qlen]
        · rw [setBranch_branches, List.length_set]
        · intro i; rfl
        · right
          rw [setBranch_br_1st, setBranch_br_last]
          refine ⟨(hmem' _).mpr ⟨h6.1, h1st⟩, (hmem' _).mpr ⟨h6.2.1, hlst⟩, ?_⟩
          intro x hx
          exact h6.2.2 x ((hmem' x).mp hx).1
        · intro hitem
          right
          have h2le : 2 ≤ (occSlots (par.setBranch j none)).length :=
            two_le_length_of_ne ((hmem' _).mpr ⟨h6.1, h1st⟩)
              ((hmem' _).mpr ⟨h6.2.1, hlst⟩) hne1l
          exact h2le

/-- When the parent has exactly two children, `removeChild` leaves it with
exactly its other child as only son, caches restored to that single slot,
and every other field untouched (the configuration consumed by the
interim-splice step of `trie::erase`). -/
theorem removeChild_two {e r : Bool} {par : Node} {j : Nat} {c : Node}
    (h : wfNode e r par = true) (hb : par.branch j = some c)
    (h2 : (occSlots par).length = 2) :
    ∃ k s, k ≠ j ∧ k < 16 ∧ par.branch k = some s ∧
      (removeChild par j).has_only_son = true ∧
      (removeChild par j).br_1st = k ∧
      (removeChild par j).branch k = some s ∧
      (removeChild par j).item = par.item ∧
      (removeChild par j).key = par.key ∧
      (removeChild par j).qlen = par.qlen ∧
      (removeChild par j).br_own = par.br_own ∧
      ∀ i, i ≠ k → (removeChild par j).branch i = none := by
  have hw := wfNode_iff.mp h
  obtain ⟨g1, g2, g3, g4, g5, g6, g7, g8⟩ := hw
  have hjlen : j < par.branches.length := getD_some_lt hb
  have hjlt : j < 16 := by omega
  have hjocc : j ∈ occSlots par :=
    occSlots_mem.mpr ⟨hjlt, by rw [hb]; rfl⟩
  have hoccne : occSlots par ≠ [] := fun hnil => by
    rw [hnil] at hjocc; cases hjocc
  have h6 := g6 hoccne
  have hlen' : (occSlots (par.setBranch j none)).length + 1
      = (occSlots par).length := length_occSlots_setBranch_none g1 hjocc
  have hmem' : ∀ i, i ∈ occSlots (par.setBranch j none) ↔
      i ∈ occSlots par ∧ i ≠ j :=
    fun i => mem_occSlots_setBranch_none g1
  have hlen16 : (par.setBranch j none).branches.length = 16 := by
    rw [setBranch_branches, List.length_set]
    exact g1
  obtain ⟨z, hz⟩ : ∃ z, occSlots (par.setBranch j none) = [z] :=
    List.length_eq_one.mp (by omega)
  have hzmem : z ∈ occSlots par ∧ z ≠ j := by
    rw [← hmem', hz]
    simp
  have hos' : par.has_only_son = false := by
    cases hq : par.has_only_son
    · rfl
    · have := (wfN_only_son_iff h hoccne).mp hq
      omega
  have hne1l : par.br_1st ≠ par.br_last := by
    intro he
    rw [Node.has_only_son] at hos'
    simp [he] at hos'
  have hj1l : par.br_1st = j ∨ par.br_last = j := by
    by_contra hcon
    push_neg at hcon
    have := three_le_length_of_ne hjocc h6.1 h6.2.1
      (fun he => hcon.1 he.symm) (fun he => hcon.2 he.symm) hne1l
      (occSlots_nodup par)
    omega
  rcases hj1l with h1st | hlst
  · -- the removed child was the first son; the other is the last
    have hlast_ne : par.br_last ≠ j := fun he => hne1l (h1st.trans he.symm)
    have hk16 : par.br_last < 16 := (occSlots_mem.mp h6.2.1).1
    have hkz : par.br_last = z := by
      have : par.br_last ∈ occSlots (par.setBranch j none) :=
        (hmem' _).mpr ⟨h6.2.1, hlast_ne⟩
      rw [hz] at this
      simpa using this
    obtain ⟨s, hs⟩ : ∃ s, par.branch par.br_last = some s := by
      have := (occSlots_mem.mp h6.2.1).2
      cases hsb : par.branch par.br_last
      · rw [hsb] at this; cases this
      · exact ⟨_, rfl⟩
    have hlast_lt : j < par.br_last := by
      have := (h6.2.2 par.br_last h6.2.1).1
      omega
    have hspec := scanUpFrom_spec (par.setBranch j none).branches (j + 1)
      ⟨par.br_last, by omega, hk16, by
        rw [← branch_eq_getD, branch_setBranch_ne par
          (fun he => hlast_ne he) _]
        exact (occSlots_mem.mp h6.2.1).2⟩
    obtain ⟨hu1, hu2, hu3⟩ := hspec
    have hu16 : scanUpFrom (par.setBranch j none).branches (j + 1) < 16 := by
      by_contra hge
      rw [List.getD_eq_default _ _ (by omega)] at hu2
      cases hu2
    have huocc : scanUpFrom (par.setBranch j none).branches (j + 1)
        ∈ occSlots (par.setBranch j none) :=
      occSlots_mem.mpr ⟨hu16, by rw [branch_eq_getD]; exact hu2⟩
    have huz : scanUpFrom (par.setBranch j none).branches (j + 1) = z := by
      rw [hz] at huocc
      simpa using huocc
    rw [removeChild_eq_1st par j hos' h1st]
    refine ⟨par.br_last, s, hlast_ne, hk16, hs, ?_, ?_, ?_, ?_, ?_, ?_, ?_, ?_⟩
    · rw [Node.has_only_son, setBr1st_br_1st, setBr1st_br_last,
        setBranch_br_last, Nat.mod_eq_of_lt hu16, huz, hkz]
      simp
    · rw [setBr1st_br_1st, Nat.mod_eq_of_lt hu16, huz, hkz]
    · rw [setBr1st_branch, branch_setBranch_ne par (fun he => hlast_ne he) _]
      exact hs
    · rw [setBr1st_item, setBranch_item]
    · rw [setBr1st_key, setBranch_key]
    · rw [setBr1st_qlen, setBranch_qlen]
    · rw [setBr1st_br_own, setBranch_br_own]
    · intro i hik
      rw [setBr1st_branch]
      by_cases hij : i = j
      · subst hij
        exact branch_setBranch_self hjlen _
      · cases hbi : (par.setBranch j none).branch i with
        | none => rfl
        | some d =>
          exfalso
          have hilt : i < 16 := by
            have := getD_some_lt (l := (par.setBranch j none).branches) (by
              rw [← branch_eq_getD]; exact hbi)
            rw [setBranch_branches, List.length_set, g1] at this
            omega
          have : i ∈ occSlots (par.setBranch j none) :=
            occSlots_mem.mpr ⟨hilt, by rw [hbi]; rfl⟩
          rw [hz] at this
          simp at this
          exact hik (this.trans hkz.symm)
  · -- the removed child was the last son; the other is the first
    have h1st_ne : par.br_1st ≠ j := fun he => hne1l (he.trans hlst.symm)
    have hk16 : par.br_1st < 16 := (occSlots_mem.mp h6.1).1
    have hkz : par.br_1st = z := by
      have : par.br_1st ∈ occSlots (par.setBranch j none) :=
        (hmem' _).mpr ⟨h6.1, h1st_ne⟩
      rw [hz] at this
      simpa using this
    obtain ⟨s, hs⟩ : ∃ s, par.branch par.br_1st = some s := by
      have := (occSlots_mem.mp h6.1).2
      cases hsb : par.branch par.br_1st
      · rw [hsb] at this; cases this
      · exact ⟨_, rfl⟩
    have h1st_lt : par.br_1st < j := by
      have := (h6.2.2 par.br_1st h6.1).2
      omega
    have hspec := scanDownFrom_spec (par.setBranch j none).branches (j - 1)
      ⟨par.br_1st, by omega, by
        rw [← branch_eq_getD, branch_setBranch_ne par
          (fun he => h1st_ne he) _]
        exact (occSlots_mem.mp h6.1).2⟩
    obtain ⟨hd1, hd2, hd3⟩ := hspec
    have hd16 : scanDownFrom (par.setBranch j none).branches (j - 1) < 16 := by
      omega
    have hdocc : scanDownFrom (par.setBranch j none).branches (j - 1)
        ∈ occSlots (par.setBranch j none) :=
      occSlots_mem.mpr ⟨hd16, by rw [branch_eq_getD]; exact hd2⟩
    have hdz : scanDownFrom (par.setBranch j none).branches (j - 1) = z := by
      rw [hz] at hdocc
      simpa using hdocc
    rw [removeChild_eq_last par j hos' h1st_ne hlst]
    refine ⟨par.br_1st, s, h1st_ne, hk16, hs, ?_, ?_, ?_, ?_, ?_, ?_, ?_, ?_⟩
    · rw [Node.has_only_son, setBrLast_br_1st, setBrLast_br_last,
        setBranch_br_1st, Nat.mod_eq_of_lt hd16, hdz, hkz]
      simp
    · rw [setBrLast_br_1st, setBranch_br_1st]
    · rw [setBrLast_branch, branch_setBranch_ne par (fun he => h1st_ne he) _]
      exact hs
    · rw [setBrLast_item, setBranch_item]
    · rw [setBrLast_key, setBranch_key]
    · rw [setBrLast_qlen, setBranch_qlen]
    · rw [setBrLast_br_own, setBranch_br_own]
    · intro i hik
      rw [setBrLast_branch]
      by_cases hij : i = j
      · subst hij
        exact branch_setBranch_self hjlen _
      · cases hbi : (par.setBranch j none).branch i with
        | none => rfl
        | some d =>
          exfalso
          have hilt : i < 16 := by
            have := getD_some_lt (l := (par.setBranch j none).branches) (by
              rw [← branch_eq_getD]; exact hbi)
            rw [setBranch_branches, List.length_set, g1] at this
            omega
          have : i ∈ occSlots (par.setBranch j none) :=
            occSlots_mem.mpr ⟨hilt, by rw [hbi]; rfl⟩
          rw [hz] at this
          simp at this
          exact hik (this.trans hkz.symm)

theorem updateAt_top_fields {q : Path} (hne : q ≠ []) (c : Node)
    (f : Node → Node) :
    (updateAt c q f).qlen = c.qlen ∧ (updateAt c q f).br_own = c.br_own ∧
    (updateAt c q f).key = c.key ∧ (updateAt c q f).item = c.item ∧
    (updateAt c q f).br_1st = c.br_1st ∧
    (updateAt c q f).br_last = c.br_last := by
  cases q with
  | nil => exact absurd rfl hne
  | cons i q' =>
    cases hb : c.branch i with
    | none => simp [updateAt, hb]
    | some d =>
      simp [updateAt, hb, setBranch_qlen, setBranch_br_own, setBranch_key,
        setBranch_item, setBranch_br_1st, setBranch_br_last]

/-- One step of the key re-borrowing walk preserves well-formedness, and
the walk's invariant — the new key agrees with the current node's key on
its matched quad-bits — moves up to the parent. -/
theorem reborrowGoF_wf {e : Bool} (key : List Nat) (hbk : bytesOk key = true) :
    ∀ (fuel : Nat) (t : Node) (p : Path),
      wfNode e true t = true →
      (∀ m, getN t p = some m → nibAgree key m.key m.qlen = true) →
      wfNode e true (reborrowGoF key fuel t p) = true := by
  intro fuel
  induction fuel with
  | zero =>
    intro t p hw _
    simpa [reborrowGoF] using hw
  | succ fu ih =>
    intro t p hw hagree
    by_cases hp : p = []
    · simpa [reborrowGoF, hp] using hw
    · cases hg : getN t p with
      | none => simpa [reborrowGoF, hp, hg] using hw
      | some nod =>
        cases hit : nod.item.isSome with
        | true => simpa [reborrowGoF, hp, hg, hit] using hw
        | false =>
          have hstep : reborrowGoF key (fu + 1) t p
              = reborrowGoF key fu (updateAt t p (fun n => n.setKey key))
                  (parentPath p) := by
            conv_lhs => rw [reborrowGoF]
            simp [hp, hg, hit]
          rw [hstep]
          have hitn : nod.item = none := by
            cases hio : nod.item
            · rfl
            · rw [hio] at hit; cases hit
          have hna := hagree nod hg
          have hwn : wfNode e false nod = true := by
            rcases getN_wf hw hg with ⟨hpe, _⟩ | hwn
            · exact absurd hpe hp
            · exact hwn
          have hwn' : wfNode e false (nod.setKey key) = true :=
            wf_setKey hwn hitn hbk hna
          obtain ⟨par, ℓ, hpeq, hpar, hbr⟩ := getN_parent hg hp
          have ht' : wfNode e true (updateAt t p (fun n => n.setKey key))
              = true := by
            rw [updateAt_congr _ hg]
            exact wf_updateAt hw hg (by rw [if_neg hp]; exact hwn')
              (le_of_eq (setKey_qlen nod key).symm) (setKey_br_own nod key)
              (by rw [setKey_key]; exact hna)
          apply ih _ _ ht'
          intro m hm
          -- the node above is the old parent with a rebuilt branch array
          have hwpar : ∃ rp, wfNode e rp par = true := by
            rcases getN_wf hw hpar with ⟨_, hpe⟩ | hwp
            · exact ⟨true, hpe ▸ hw⟩
            · exact ⟨false, hwp⟩
          obtain ⟨rp, hwp⟩ := hwpar
          have hbfacts := wfN_branch hwp hbr
          have hm' : getN (updateAt t p (fun n => n.setKey key))
              (parentPath p) = some (updateAt par [ℓ] (fun n => n.setKey key)) := by
            have : updateAt t p (fun n => n.setKey key)
                = updateAt t (parentPath p ++ [ℓ]) (fun n => n.setKey key) := by
              rw [← hpeq]
            rw [this, updateAt_append]
            exact getN_updateAt_some _ hpar
          rw [hm'] at hm
          have hfields := updateAt_top_fields (q := [ℓ]) (by simp) par
            (fun n => n.setKey key)
          cases hm
          rw [hfields.1, hfields.2.2.1]
          exact nibAgree_trans (nibAgree_mono (le_of_lt hbfacts.1) hna)
            hbfacts.2.1

/-- The full key re-borrowing walk of `trie::erase` preserves
well-formedness when the borrowed byte buffer agrees with the starting
node's matched quad-bits. -/
theorem reborrow_wf {e : Bool} {t : Node} {p : Path} {key : List Nat}
    (hw : wfNode e true t = true) (hbk : bytesOk key = true)
    (hagree : ∀ m, getN t p = some m → nibAgree key m.key m.qlen = true) :
    wfNode e true (reborrowGo t p key) = true :=
  reborrowGoF_wf key hbk _ t p hw hagree

theorem updateAt_single {par nod : Node} {j : Nat}
    (hb : par.branch j = some nod) (f : Node → Node) :
    updateAt par [j] f = par.setBranch j (some (f nod)) := by
  simp [updateAt, hb]

/-- `removeChild` never reads the removed slot's content, so it gives the
same result whether or not that slot was just overwritten. -/
theorem removeChild_setBranch (par : Node) (j : Nat) (b : Option Node) :
    removeChild (par.setBranch j b) j = removeChild par j := by
  unfold removeChild
  rw [setBranch_setBranch]
  simp only [Node.has_only_son, Node.is_leaf, setBranch_br_1st,
    setBranch_br_last]

theorem branch_of_not_leaf {e r : Bool} {M : Node} (h : wfNode e r M = true)
    (hl : M.is_leaf = false) : ∃ c, M.branch M.br_1st = some c := by
  have hocc : occSlots M ≠ [] := by
    intro hnil
    rw [(wfN_leaf_iff h).mpr hnil] at hl
    cases hl
  have h6 := (wfNode_iff.mp h).2.2.2.2.2.1 hocc
  have hm := (occSlots_mem.mp h6.1).2
  cases hb : M.branch M.br_1st
  · rw [hb] at hm; cases hm
  · exact ⟨_, rfl⟩

/-- The final stage of `trie::erase`: the key re-borrowing walk started at
a reachable node with the key of its first child preserves
well-formedness. -/
theorem reborrow_at_wf {e : Bool} {T : Node} {p : Path} {M c : Node}
    (hwT : wfNode e true T = true) (hn : getN T p = some M)
    (hbr1 : M.branch M.br_1st = some c) :
    wfNode e true (reborrowGo T p c.key) = true := by
  have hwM : ∃ r2, wfNode e r2 M = true := by
    rcases getN_wf hwT hn with ⟨_, h2⟩ | h2
    · exact ⟨true, h2 ▸ hwT⟩
    · exact ⟨false, h2⟩
  obtain ⟨r2, hwM⟩ := hwM
  have hbf := wfN_branch hwM hbr1
  refine reborrow_wf hwT (wfN_bytes hbf.2.2.2.2) ?_
  intro m hm
  rw [hn] at hm
  cases hm
  exact hbf.2.1

theorem getN_wf_flavor {e : Bool} {t n : Node} {p : Path}
    (hw : wfNode e true t = true) (hg : getN t p = some n) :
    wfNode e (if p = [] then true else false) n = true := by
  by_cases hp : p = []
  · rw [if_pos hp]
    rw [hp] at hg
    simp only [getN] at hg
    cases hg
    exact hw
  · rw [if_neg hp]
    rcases getN_wf hw hg with ⟨hc, _⟩ | h2
    · exact absurd hc hp
    · exact h2

/-- `trie::erase` preserves well-formedness: removing the item, pruning an
emptied non-root leaf, splicing out a single-child non-root interim node
and re-borrowing ancestor keys restore every structural invariant. -/
theorem erase_wf {e : Bool} {t : Node} {iter : Iter} {t' : Node}
    {it' : Iter} (hw : wfNode e true t = true)
    (hok : erase t iter = .ok (t', it')) :
    wfNode e true t' = true := by
  cases iter with
  | none => simp [erase] at hok
  | some path =>
    cases hg : getN t path with
    | none =>
      simp only [erase, hg, Except.ok.injEq, Prod.mk.injEq] at hok
      rw [← hok.1]
      exact hw
    | some nod =>
      by_cases hpe : path = []
      · -- erase at the root: only the item is removed, no structure moves
        subst hpe
        simp only [erase, hg, ne_eq, not_true_eq_false, and_false,
          if_false, getN, updateAt, Except.ok.injEq, Prod.mk.injEq] at hok
        rw [← hok.1]
        exact wf_setItem_none hw (Or.inl rfl)
      · obtain ⟨par, ℓ, hpeq, hpar, hbr⟩ := getN_parent hg hpe
        have hwpar := getN_wf_flavor hw hpar
        have hbf := wfN_branch hwpar hbr
        have hwnod : wfNode e false nod = true := hbf.2.2.2.2
        have hlown : nod.br_own = ℓ := hbf.2.2.2.1
        have hl16 : ℓ < 16 := by
          rw [← hlown]; exact br_own_lt16 nod
        have hparlen : par.branches.length = 16 := wfN_len hwpar
        have hlocc : ℓ ∈ occSlots par :=
          occSlots_mem.mpr ⟨hl16, by rw [hbr]; rfl⟩
        have hoccne : occSlots par ≠ [] := fun hnil => by
          rw [hnil] at hlocc; cases hlocc
        by_cases hleaf : nod.is_leaf = true
        · -- the erased node is a leaf: it is pruned from its parent
          have ht2 : updateAt (updateAt t path fun n => n.setItem none)
              (parentPath path) (fun par1 => removeChild par1 nod.br_own)
              = updateAt t (parentPath path)
                  (fun _ => removeChild par ℓ) := by
            rw [updateAt_congr _ hg, hlown]
            have hs1 : updateAt t path (fun _ => nod.setItem none)
                = updateAt t (parentPath path)
                    (fun n => updateAt n [ℓ] (fun _ => nod.setItem none)) := by
              conv_lhs => rw [hpeq]
              rw [updateAt_append]
            rw [hs1, updateAt_updateAt,
              updateAt_congr
                (fun n => removeChild
                  (updateAt n [ℓ] fun _ => nod.setItem none) ℓ) hpar]
            congr 1
            funext x
            rw [updateAt_single hbr, removeChild_setBranch]
          have hn2 : getN (updateAt t (parentPath path)
              (fun _ => removeChild par ℓ)) (parentPath path)
              = some (removeChild par ℓ) := getN_updateAt_some _ hpar
          have hMitem : (removeChild par ℓ).item = par.item :=
            removeChild_item par ℓ
          by_cases hitem : par.item.isSome = true
          · -- the parent keeps its item: pruning alone restores the tree
            have hwrc := removeChild_wf hwpar hbr (Or.inl hitem)
            have hw2 : wfNode e true (updateAt t (parentPath path)
                (fun _ => removeChild par ℓ)) = true :=
              wf_updateAt hw hpar hwrc
                (le_of_eq (removeChild_qlen par ℓ).symm)
                (removeChild_br_own par ℓ)
                (by rw [removeChild_key]; exact nibAgree_refl _ _)
            obtain ⟨it0, hit0⟩ : ∃ it0, par.item = some it0 := by
              cases hi : par.item
              · rw [hi] at hitem; cases hitem
              · exact ⟨_, rfl⟩
            have hg3f : ((removeChild par ℓ).item = none) = False := by
              simp [hMitem, hit0]
            simp only [erase, hg, hleaf, hpe, ne_eq, not_false_eq_true,
              and_true, true_and, and_self, if_true, ht2, hn2, hg3f,
              and_false, false_and, if_false,
              Except.ok.injEq, Prod.mk.injEq] at hok
            rw [← hok.1]
            exact hw2
          · have hitemn : par.item = none := by
              cases hi : par.item
              · rfl
              · rw [hi] at hitem; simp at hitem
            by_cases hppe : parentPath path = []
            · -- the parent is the root: it may keep any number of sons
              have hwrc := removeChild_wf hwpar hbr
                (Or.inr (Or.inl (by rw [if_pos hppe])))
              have hw2 : wfNode e true (updateAt t (parentPath path)
                  (fun _ => removeChild par ℓ)) = true :=
                wf_updateAt hw hpar hwrc
                  (le_of_eq (removeChild_qlen par ℓ).symm)
                  (removeChild_br_own par ℓ)
                  (by rw [removeChild_key]; exact nibAgree_refl _ _)
              have hg3f : (parentPath path ≠ []) = False := by
                simp [hppe]
              simp only [erase, hg, hleaf, hpe, ne_eq, not_false_eq_true,
                and_true, true_and, and_self, if_true, ht2, hn2, hg3f,
                and_false, false_and, if_false,
                Except.ok.injEq, Prod.mk.injEq] at hok
              rw [← hok.1]
              exact hw2
            · have hwparf : wfNode e false par = true := by
                rw [if_neg hppe] at hwpar; exact hwpar
              have hdeg : 2 ≤ (occSlots par).length := by
                rcases (wfNode_iff.mp hwparf).2.2.1 hitemn with hcl | hcl
                · cases hcl
                · exact hcl
              by_cases hbig : 3 ≤ (occSlots par).length
              · -- the parent keeps enough sons; prune then re-borrow keys
                have hwrc := removeChild_wf hwpar hbr (Or.inr (Or.inr hbig))
                have hw2 : wfNode e true (updateAt t (parentPath path)
                    (fun _ => removeChild par ℓ)) = true :=
                  wf_updateAt hw hpar hwrc
                    (le_of_eq (removeChild_qlen par ℓ).symm)
                    (removeChild_br_own par ℓ)
                    (by rw [removeChild_key]; exact nibAgree_refl _ _)
                have hwrcf : wfNode e false (removeChild par ℓ) = true := by
                  rw [if_neg hppe] at hwrc; exact hwrc
                have hM2 : 2 ≤ (occSlots (removeChild par ℓ)).length := by
                  have := length_occSlots_setBranch_none hparlen hlocc
                  rw [occSlots_removeChild]
                  omega
                have hMne : occSlots (removeChild par ℓ) ≠ [] := by
                  intro hnil
                  rw [hnil] at hM2
                  simp at hM2
                have hos2f : (removeChild par ℓ).has_only_son = false := by
                  cases ho : (removeChild par ℓ).has_only_son
                  · rfl
                  · have := (wfN_only_son_iff hwrcf hMne).mp ho
                    omega
                have hleaf2 : (removeChild par ℓ).is_leaf = false := by
                  cases hlf : (removeChild par ℓ).is_leaf
                  · rfl
                  · exact absurd ((wfN_leaf_iff hwrcf).mp hlf) hMne
                have hit2 : (removeChild par ℓ).item = none := by
                  rw [hMitem]; exact hitemn
                obtain ⟨c3, hbr1⟩ := branch_of_not_leaf hwrcf hleaf2
                have hw4 := reborrow_at_wf hw2 hn2 hbr1
                simp only [erase, hg, hleaf, hpe, ne_eq, not_false_eq_true,
                  and_true, true_and, and_self, if_true, ht2, hn2, hos2f,
                  Bool.false_eq_true, false_and, if_false, hleaf2, hit2,
                  hppe, hbr1, Except.ok.injEq, Prod.mk.injEq] at hok
                rw [← hok.1]
                exact hw4
              · -- the parent had exactly two sons: prune, then splice it
                have h2eq : (occSlots par).length = 2 := by omega
                obtain ⟨k, s, hkne, hk16, hbk, hMos, hMb1, hMbk, hMit,
                  hMkey, hMql, hMbo, hMrest⟩ := removeChild_two hwpar hbr h2eq
                obtain ⟨gp, ℓ2, hpeq2, hgp, hbgp⟩ := getN_parent hpar hppe
                have hwgp := getN_wf_flavor hw hgp
                have hbfg := wfN_branch hwgp hbgp
                have hbrown : par.br_own = ℓ2 := hbfg.2.2.2.1
                have hl2_16 : ℓ2 < 16 := by
                  rw [← hbrown]; exact br_own_lt16 par
                have hswf : wfNode e false s = true :=
                  (wfN_branch hwparf hbk).2.2.2.2
                have hit2 : (removeChild par ℓ).item = none := by
                  rw [hMit]; exact hitemn
                have hMbr1s : (removeChild par ℓ).branch
                    (removeChild par ℓ).br_1st = some s := by
                  rw [hMb1]; exact hMbk
                have hsplice : updateAt (updateAt t (parentPath path)
                      (fun _ => removeChild par ℓ))
                    (parentPath (parentPath path))
                    (fun par1 => par1.setBranch (removeChild par ℓ).br_own
                      (some (s.setBrOwn (removeChild par ℓ).br_own)))
                    = updateAt t (parentPath path)
                        (fun _ => s.setBrOwn ℓ2) := by
                  rw [hMbo, hbrown]
                  have hs1 : updateAt t (parentPath path)
                      (fun _ => removeChild par ℓ)
                      = updateAt t (parentPath (parentPath path))
                          (fun n => updateAt n [ℓ2]
                            (fun _ => removeChild par ℓ)) := by
                    conv_lhs => rw [hpeq2]
                    rw [updateAt_append]
                  have hs2 : updateAt t (parentPath path)
                      (fun _ => s.setBrOwn ℓ2)
                      = updateAt t (parentPath (parentPath path))
                          (fun n => updateAt n [ℓ2]
                            (fun _ => s.setBrOwn ℓ2)) := by
                    conv_lhs => rw [hpeq2]
                    rw [updateAt_append]
                  rw [hs1, updateAt_updateAt, hs2,
                    updateAt_congr (fun n => (updateAt n [ℓ2]
                      (fun _ => removeChild par ℓ)).setBranch ℓ2
                        (some (s.setBrOwn ℓ2))) hgp,
                    updateAt_congr (fun n => updateAt n [ℓ2]
                      (fun _ => s.setBrOwn ℓ2)) hgp]
                  congr 1
                  funext x
                  rw [updateAt_single hbgp, updateAt_single hbgp,
                    setBranch_setBranch]
                have hw3 : wfNode e true (updateAt t (parentPath path)
                    (fun _ => s.setBrOwn ℓ2)) = true :=
                  wf_updateAt hw hpar
                    (by rw [if_neg hppe]; exact wf_setBrOwn hswf)
                    (by rw [setBrOwn_qlen]
                        exact le_of_lt (wfN_branch hwparf hbk).1)
                    (by rw [setBrOwn_br_own, Nat.mod_eq_of_lt hl2_16]
                        exact hbrown.symm)
                    (by rw [setBrOwn_key]
                        exact (wfN_branch hwparf hbk).2.1)
                have hn3 : getN (updateAt t (parentPath path)
                    (fun _ => s.setBrOwn ℓ2)) (parentPath (parentPath path))
                    = some (gp.setBranch ℓ2 (some (s.setBrOwn ℓ2))) := by
                  have hs2 : updateAt t (parentPath path)
                      (fun _ => s.setBrOwn ℓ2)
                      = updateAt t (parentPath (parentPath path))
                          (fun n => updateAt n [ℓ2]
                            (fun _ => s.setBrOwn ℓ2)) := by
                    conv_lhs => rw [hpeq2]
                    rw [updateAt_append]
                  rw [hs2, getN_updateAt_some _ hgp, updateAt_single hbgp]
                by_cases hgpi : gp.item.isSome = true
                · -- the grandparent keeps its item: no re-borrowing
                  obtain ⟨g0, hg0⟩ : ∃ g0, gp.item = some g0 := by
                    cases hi : gp.item
                    · rw [hi] at hgpi; cases hgpi
                    · exact ⟨_, rfl⟩
                  have hg4f : ((gp.setBranch ℓ2
                      (some (s.setBrOwn ℓ2))).item = none) = False := by
                    simp [setBranch_item, hg0]
                  simp only [erase, hg, hleaf, hpe, ne_eq,
                    not_false_eq_true, and_true, true_and, and_self,
                    if_true, ht2, hn2, hMos, hit2, hppe, hMbr1s, hsplice,
                    hn3, hg4f, and_false, false_and, if_false,
                    Except.ok.injEq, Prod.mk.injEq] at hok
                  rw [← hok.1]
                  exact hw3
                · have hgpin : gp.item = none := by
                    cases hi : gp.item
                    · rfl
                    · rw [hi] at hgpi; simp at hgpi
                  by_cases hppe2 : parentPath (parentPath path) = []
                  · -- the grandparent is the root: no re-borrowing either
                    have hg4f : (parentPath (parentPath path) ≠ []) = False := by
                      simp [hppe2]
                    simp only [erase, hg, hleaf, hpe, ne_eq,
                      not_false_eq_true, and_true, true_and, and_self,
                      if_true, ht2, hn2, hMos, hit2, hppe, hMbr1s, hsplice,
                      hn3, hg4f, and_false, false_and, if_false,
                      Except.ok.injEq, Prod.mk.injEq] at hok
                    rw [← hok.1]
                    exact hw3
                  · -- re-borrow keys upward from the grandparent
                    have hn3wf : wfNode e false
                        (gp.setBranch ℓ2 (some (s.setBrOwn ℓ2))) = true := by
                      rcases getN_wf hw3 hn3 with ⟨hc, _⟩ | h2
                      · exact absurd hc hppe2
                      · exact h2
                    have hgocc : ℓ2 ∈ occSlots gp :=
                      occSlots_mem.mpr ⟨hl2_16, by rw [hbgp]; rfl⟩
                    have hgne : occSlots gp ≠ [] := fun hnil => by
                      rw [hnil] at hgocc; cases hgocc
                    have hn3leaf : (gp.setBranch ℓ2
                        (some (s.setBrOwn ℓ2))).is_leaf = false := by
                      cases hlf : (gp.setBranch ℓ2
                          (some (s.setBrOwn ℓ2))).is_leaf
                      · rfl
                      · exfalso
                        apply hgne
                        apply (wfN_leaf_iff hwgp).mp
                        simp only [Node.is_leaf, setBranch_br_1st,
                          setBranch_br_last] at hlf
                        simp only [Node.is_leaf]
                        exact hlf
                    have hn3item : (gp.setBranch ℓ2
                        (some (s.setBrOwn ℓ2))).item = none := by
                      rw [setBranch_item]; exact hgpin
                    obtain ⟨c4, hbr4⟩ := branch_of_not_leaf hn3wf hn3leaf
                    have hw4 := reborrow_at_wf hw3 hn3 hbr4
                    simp only [erase, hg, hleaf, hpe, ne_eq,
                      not_false_eq_true, and_true, true_and, and_self,
                      if_true, ht2, hn2, hMos, hit2, hppe, hMbr1s, hsplice,
                      hn3, hn3leaf, Bool.false_eq_true, hn3item, hppe2,
                      hbr4, Except.ok.injEq, Prod.mk.injEq] at hok
                    rw [← hok.1]
                    exact hw4
        · -- the erased node is interim: it keeps its children
          have hleaff : nod.is_leaf = false := by
            cases hlf : nod.is_leaf
            · rfl
            · exact absurd hlf hleaf
          have hoccn : occSlots nod ≠ [] := by
            intro hnil
            rw [(wfN_leaf_iff hwnod).mpr hnil] at hleaff
            cases hleaff
          have ht1c : updateAt t path (fun n => n.setItem none)
              = updateAt t path (fun _ => nod.setItem none) :=
            updateAt_congr _ hg
          have hn2 : getN (updateAt t path fun n => n.setItem none) path
              = some (nod.setItem none) := by
            rw [ht1c]; exact getN_updateAt_some _ hg
          have hit2m : (nod.setItem none).item = none := setItem_item nod none
          have hleaf2m : (nod.setItem none).is_leaf = false := by
            simp only [Node.is_leaf, setItem_br_1st, setItem_br_last]
            simp only [Node.is_leaf] at hleaff
            exact hleaff
          obtain ⟨s0, hbs0⟩ := branch_of_not_leaf hwnod hleaff
          have hbr1m : (nod.setItem none).branch
              (nod.setItem none).br_1st = some s0 := by
            rw [setItem_br_1st, setItem_branch]
            exact hbs0
          by_cases hone : (occSlots nod).length = 1
          · -- the erased interim node had an only son: splice it out
            have hos : nod.has_only_son = true :=
              (wfN_only_son_iff hwnod hoccn).mpr hone
            have hos2m : (nod.setItem none).has_only_son = true := by
              simp only [Node.has_only_son, setItem_br_1st, setItem_br_last]
              simp only [Node.has_only_son] at hos
              exact hos
            have hs0wf : wfNode e false s0 = true :=
              (wfN_branch hwnod hbs0).2.2.2.2
            have hsplice : updateAt (updateAt t path fun n => n.setItem none)
                (parentPath path)
                (fun par1 => par1.setBranch (nod.setItem none).br_own
                  (some (s0.setBrOwn (nod.setItem none).br_own)))
                = updateAt t path (fun _ => s0.setBrOwn ℓ) := by
              rw [setItem_br_own, hlown, ht1c]
              have hs1 : updateAt t path (fun _ => nod.setItem none)
                  = updateAt t (parentPath path)
                      (fun n => updateAt n [ℓ]
                        (fun _ => nod.setItem none)) := by
                conv_lhs => rw [hpeq]
                rw [updateAt_append]
              have hs2 : updateAt t path (fun _ => s0.setBrOwn ℓ)
                  = updateAt t (parentPath path)
                      (fun n => updateAt n [ℓ]
                        (fun _ => s0.setBrOwn ℓ)) := by
                conv_lhs => rw [hpeq]
                rw [updateAt_append]
              rw [hs1, updateAt_updateAt, hs2,
                updateAt_congr (fun n => (updateAt n [ℓ]
                  (fun _ => nod.setItem none)).setBranch ℓ
                    (some (s0.setBrOwn ℓ))) hpar,
                updateAt_congr (fun n => updateAt n [ℓ]
                  (fun _ => s0.setBrOwn ℓ)) hpar]
              congr 1
              funext x
              rw [updateAt_single hbr, updateAt_single hbr,
                setBranch_setBranch]
            have hw3 : wfNode e true (updateAt t path
                (fun _ => s0.setBrOwn ℓ)) = true :=
              wf_updateAt hw hg
                (by rw [if_neg hpe]; exact wf_setBrOwn hs0wf)
                (by rw [setBrOwn_qlen]
                    exact le_of_lt (wfN_branch hwnod hbs0).1)
                (by rw [setBrOwn_br_own, Nat.mod_eq_of_lt hl16]
                    exact hlown.symm)
                (by rw [setBrOwn_key]
                    exact (wfN_branch hwnod hbs0).2.1)
            have hn3 : getN (updateAt t path (fun _ => s0.setBrOwn ℓ))
                (parentPath path)
                = some (par.setBranch ℓ (some (s0.setBrOwn ℓ))) := by
              have hs2 : updateAt t path (fun _ => s0.setBrOwn ℓ)
                  = updateAt t (parentPath path)
                      (fun n => updateAt n [ℓ]
                        (fun _ => s0.setBrOwn ℓ)) := by
                conv_lhs => rw [hpeq]
                rw [updateAt_append]
              rw [hs2, getN_updateAt_some _ hpar, updateAt_single hbr]
            by_cases hpi : par.item.isSome = true
            · obtain ⟨p0, hp0⟩ : ∃ p0, par.item = some p0 := by
                cases hi : par.item
                · rw [hi] at hpi; cases hpi
                · exact ⟨_, rfl⟩
              have hg4f : ((par.setBranch ℓ
                  (some (s0.setBrOwn ℓ))).item = none) = False := by
                simp [setBranch_item, hp0]
              simp only [erase, hg, hleaff, Bool.false_eq_true, false_and,
                if_false, hn2, hos2m, hit2m, hpe, ne_eq, not_false_eq_true,
                and_true, true_and, and_self, if_true, hbr1m, hsplice,
                hn3, hg4f, and_false, Except.ok.injEq, Prod.mk.injEq] at hok
              rw [← hok.1]
              exact hw3
            · have hpin : par.item = none := by
                cases hi : par.item
                · rfl
                · rw [hi] at hpi; simp at hpi
              by_cases hppe : parentPath path = []
              · have hg4f : (parentPath path ≠ []) = False := by
                  simp [hppe]
                simp only [erase, hg, hleaff, Bool.false_eq_true, false_and,
                  if_false, hn2, hos2m, hit2m, hpe, ne_eq,
                  not_false_eq_true, and_true, true_and, and_self, if_true,
                  hbr1m, hsplice, hn3, hg4f, and_false,
                  Except.ok.injEq, Prod.mk.injEq] at hok
                rw [← hok.1]
                exact hw3
              · have hn3wf : wfNode e false
                    (par.setBranch ℓ (some (s0.setBrOwn ℓ))) = true := by
                  rcases getN_wf hw3 hn3 with ⟨hc, _⟩ | h2
                  · exact absurd hc hppe
                  · exact h2
                have hn3leaf : (par.setBranch ℓ
                    (some (s0.setBrOwn ℓ))).is_leaf = false := by
                  cases hlf : (par.setBranch ℓ
                      (some (s0.setBrOwn ℓ))).is_leaf
                  · rfl
                  · exfalso
                    apply hoccne
                    apply (wfN_leaf_iff hwpar).mp
                    simp only [Node.is_leaf, setBranch_br_1st,
                      setBranch_br_last] at hlf
                    simp only [Node.is_leaf]
                    exact hlf
                have hn3item : (par.setBranch ℓ
                    (some (s0.setBrOwn ℓ))).item = none := by
                  rw [setBranch_item]; exact hpin
                obtain ⟨c4, hbr4⟩ := branch_of_not_leaf hn3wf hn3leaf
                have hw4 := reborrow_at_wf hw3 hn3 hbr4
                simp only [erase, hg, hleaff, Bool.false_eq_true, false_and,
                  if_false, hn2, hos2m, hit2m, hpe, ne_eq,
                  not_false_eq_true, and_true, true_and, and_self, if_true,
                  hbr1m, hsplice, hn3, hn3leaf, hn3item, hppe, hbr4,
                  Except.ok.injEq, Prod.mk.injEq] at hok
                rw [← hok.1]
                exact hw4
          · -- the erased interim node keeps at least two children
            have hdeg2 : 2 ≤ (occSlots nod).length := by
              have hpos : 0 < (occSlots nod).length :=
                List.length_pos.mpr hoccn
              omega
            have hwm2f : wfNode e false (nod.setItem none) = true :=
              wf_setItem_none hwnod (Or.inr hdeg2)
            have hw1 : wfNode e true (updateAt t path
                (fun n => n.setItem none)) = true := by
              rw [ht1c]
              exact wf_updateAt hw hg
                (by rw [if_neg hpe]; exact hwm2f)
                (le_of_eq (setItem_qlen nod none).symm)
                (setItem_br_own nod none)
                (by rw [setItem_key]; exact nibAgree_refl _ _)
            have hosf : nod.has_only_son = false := by
              cases ho : nod.has_only_son
              · rfl
              · have := (wfN_only_son_iff hwnod hoccn).mp ho
                omega
            have hos2m : (nod.setItem none).has_only_son = false := by
              simp only [Node.has_only_son, setItem_br_1st, setItem_br_last]
              simp only [Node.has_only_son] at hosf
              exact hosf
            have hw4 := reborrow_at_wf hw1 hn2 hbr1m
            simp only [erase, hg, hleaff, Bool.false_eq_true, false_and,
              if_false, hn2, hos2m, hit2m, hpe, ne_eq, not_false_eq_true,
              and_true, true_and, and_self, if_true, hleaf2m, hbr1m,
              Except.ok.injEq, Prod.mk.injEq] at hok
            rw [← hok.1]
            exact hw4

theorem bytesOk_getD {k : List Nat} (h : bytesOk k = true) (i : Nat) :
    k.getD i 0 < 256 := by
  rcases Nat.lt_or_ge i k.length with hi | hi
  · have hmem : k.getD i 0 ∈ k := by
      rw [List.getD_eq_getElem _ _ hi]
      exact List.getElem_mem _
    rw [bytesOk, List.all_eq_true] at h
    simpa using h _ hmem
  · rw [List.getD_eq_default _ _ hi]
    omega

theorem parentPath_append (p : Path) (x : Nat) :
    parentPath (p ++ [x]) = p := by
  simp [parentPath]

theorem getN_snoc {t n c : Node} {p : Path} {j : Nat}
    (hg : getN t p = some n) (hb : n.branch j = some c) :
    getN t (p ++ [j]) = some c := by
  rw [getN_append, hg]
  simp [getN, hb]


/-! ### Single-step evaluation equations for the strict Phase A -/

theorem phaseA_step_e0 (byte i : Nat) (nod : Node) (path : Path)
    (hbch : nod.branch (byte / 16) = none) :
    phaseA false byte i nod path 0 false = .missAt path (2 * i) := by
  rw [phaseA_eq]
  simp only [show ((2:Nat) ≤ 0) = False from by simp,
    show ((0:Nat) = 1) = False from by simp, if_false, false_and,
    Nat.add_zero]
  rw [hbch]

theorem phaseA_step_d0 (byte i : Nat) (nod c1 : Node) (path : Path)
    (hbch : nod.branch (byte / 16) = some c1) :
    phaseA false byte i nod path 0 false
      = phaseA false byte i c1 (path ++ [byte / 16]) (c1.qlen - 2 * i)
          false := by
  rw [phaseA_eq]
  simp only [show ((2:Nat) ≤ 0) = False from by simp,
    show ((0:Nat) = 1) = False from by simp, if_false, false_and,
    show (false = true) = False from by simp]
  rw [hbch]
  rfl

theorem phaseA_step_e1h (byte i : Nat) (nod : Node) (path : Path)
    (hbch : nod.branch (byte % 16) = none)
    (hhi : (nod.key.getD i 0 ^^^ byte) >>> 4 = 0) :
    phaseA false byte i nod path 1 false = .missAt path (2 * i + 1) := by
  rw [phaseA_eq]
  simp only [show ((2:Nat) ≤ 1) = False from by simp,
    show ((1:Nat) = 1) = True from by simp, if_false, if_true, true_and]
  rw [hbch]
  rw [if_neg (by simpa using hhi)]

theorem phaseA_step_e1p (byte i : Nat) (nod : Node) (path : Path)
    (hbch : nod.branch (byte % 16) = none)
    (hhi : (nod.key.getD i 0 ^^^ byte) >>> 4 ≠ 0) :
    phaseA false byte i nod path 1 false
      = .missAt (parentPath path) (2 * i) := by
  rw [phaseA_eq]
  simp only [show ((2:Nat) ≤ 1) = False from by simp,
    show ((1:Nat) = 1) = True from by simp, if_false, if_true, true_and]
  rw [hbch]
  rw [if_pos hhi]

theorem phaseA_step_d1 (byte i : Nat) (nod c1 : Node) (path : Path)
    (hbch : nod.branch (byte % 16) = some c1) :
    phaseA false byte i nod path 1 false
      = phaseA false byte i c1 (path ++ [byte % 16]) (c1.qlen - 2 * i)
          true := by
  rw [phaseA_eq]
  simp only [show ((2:Nat) ≤ 1) = False from by simp,
    show ((1:Nat) = 1) = True from by simp, if_false, if_true, true_and,
    show (false = true) = False from by simp, false_and,
    show (0 < 1) = True from by simp, decide_true_eq_true]
  rw [hbch]

theorem phaseA_step_c (byte i qv : Nat) (nod : Node) (path : Path)
    (fwd : Bool) (h2 : 2 ≤ qv) :
    phaseA false byte i nod path qv fwd = .cont nod path qv fwd := by
  rw [phaseA_eq, if_pos h2]

/-- Strict Phase A of the byte-`i` walk step, started from the loop-top
state, either reports a miss satisfying the miss specification, or
continues into a node whose edge covers byte `i`, with the facts about its
parent chain needed for the Phase-B byte comparison. -/
theorem phaseA_strict_cases {e : Bool} {t : Node} {key : List Nat} {i : Nat}
    {nod : Node} {path : Path} {qv : Nat}
    (hw : wfNode e true t = true) (hbys : bytesOk key = true)
    (hilen : i < key.length)
    (hget : getN t path = some nod)
    (hqlen : nod.qlen = 2 * i + qv)
    (hagree : nibAgree key nod.key (2 * i) = true)
    (hpinv : path ≠ [] → ∃ P, getN t (parentPath path) = some P ∧
      P.qlen < 2 * i ∧ P.branch (get_qpos key P.qlen) = some nod)
    (hroot : path = [] → nod = t) :
    (∃ p q, phaseA false (key.getD i 0) i nod path qv false = .missAt p q ∧
      TraceMissOK t key p q) ∨
    (∃ nod' path' qv' fwd',
      phaseA false (key.getD i 0) i nod path qv false
        = .cont nod' path' qv' fwd' ∧
      getN t path' = some nod' ∧ nod'.qlen = 2 * i + qv' ∧ 2 ≤ qv' ∧
      nibAgree key nod'.key (2 * i) = true ∧ path' ≠ [] ∧
      (fwd' = false →
        ∃ P2, getN t (parentPath path') = some P2 ∧
          P2.branch (get_qpos key P2.qlen) = some nod' ∧
          (P2.qlen < 2 * i ∨ (P2.qlen = 2 * i ∧
            get_qpos key (2 * i) = get_qpos nod'.key (2 * i)))) ∧
      (fwd' = true →
        ∃ P3, getN t (parentPath path') = some P3 ∧ P3.qlen = 2 * i + 1 ∧
          P3.branch (get_qpos key (2 * i + 1)) = some nod' ∧
          nibAgree key P3.key (2 * i) = true ∧
          get_qpos key (2 * i + 1) = get_qpos nod'.key (2 * i + 1) ∧
          ((∃ G, getN t (parentPath (parentPath path')) = some G ∧
             G.qlen < 2 * i ∧ G.branch (get_qpos key G.qlen) = some P3) ∨
           get_qpos key (2 * i) = get_qpos nod'.key (2 * i)))) := by
  have hkb : key.getD i 0 < 256 := bytesOk_getD hbys i
  have hpne_of_pos : 0 < nod.qlen → path ≠ [] := by
    intro hq hpe
    have := hroot hpe
    subst this
    have := wfN_root_qlen hw
    omega
  by_cases h2 : 2 ≤ qv
  · -- the edge already covers byte i: continue at once
    right
    refine ⟨nod, path, qv, false, phaseA_step_c _ _ _ _ _ _ h2, hget, hqlen,
      h2, hagree, hpne_of_pos (by omega), ?_, ?_⟩
    · intro _
      obtain ⟨P, hP1, hP2, hP3⟩ := hpinv (hpne_of_pos (by omega))
      exact ⟨P, hP1, hP3, Or.inl hP2⟩
    · intro h; cases h
  · have hqv01 : qv = 0 ∨ qv = 1 := by omega
    rcases hqv01 with hqv | hqv
    · -- branching on the high nibble of byte i
      subst hqv
      have hslot : get_qpos key (2 * i) = key.getD i 0 / 16 :=
        get_qpos_even key i
      cases hbch : nod.branch (key.getD i 0 / 16) with
      | none =>
        left
        refine ⟨path, 2 * i, phaseA_step_e0 _ _ _ _ hbch, nod, hget,
          by rw [hqlen, Nat.add_zero]; exact hagree, Or.inl ?_⟩
        rw [hqlen, Nat.add_zero]
        exact ⟨rfl, by rw [hslot]; exact hbch, by omega⟩
      | some c1 =>
        have hwnod := getN_wf_flavor hw hget
        have hbf1 := wfN_branch hwnod hbch
        have hc1q : 2 * i < c1.qlen := by rw [← Nat.add_zero (2 * i), ← hqlen]
                                          exact hbf1.1
        have hget1 : getN t (path ++ [key.getD i 0 / 16]) = some c1 :=
          getN_snoc hget hbch
        have hv1 : get_qpos c1.key (2 * i) = get_qpos key (2 * i) := by
          rw [hslot]
          have := hbf1.2.2.1
          rw [hqlen, Nat.add_zero] at this
          exact this
        have hag1 : nibAgree key c1.key (2 * i) = true := by
          refine nibAgree_trans hagree (nibAgree_symm ?_)
          have := hbf1.2.1
          rw [hqlen, Nat.add_zero] at this
          exact this
        have hag1p : nibAgree key c1.key (2 * i + 1) = true :=
          nibAgree_succ hag1 hv1.symm
        have hstep1 := phaseA_step_d0 (key.getD i 0) i nod c1 path hbch
        by_cases hq1 : 2 ≤ c1.qlen - 2 * i
        · -- one step down; the child's edge covers byte i
          right
          refine ⟨c1, path ++ [key.getD i 0 / 16], c1.qlen - 2 * i, false,
            by rw [hstep1]; exact phaseA_step_c _ _ _ _ _ _ hq1, hget1,
            by omega, hq1, hag1, by simp, ?_, ?_⟩
          · intro _
            refine ⟨nod, ?_, ?_, Or.inr ⟨by omega, hv1.symm⟩⟩
            · rw [parentPath_append]; exact hget
            · rw [hqlen, Nat.add_zero, hslot]
              exact hbch
          · intro h; cases h
        · -- the child's edge ends on the low nibble of byte i
          have hq1e : c1.qlen = 2 * i + 1 := by omega
          have hslot2 : get_qpos key (2 * i + 1) = key.getD i 0 % 16 :=
            get_qpos_odd key i
          have hhiok : (c1.key.getD i 0 ^^^ key.getD i 0) >>> 4 = 0 := by
            rw [xor_shiftRight, Nat.xor_eq_zero, shiftRight4_eq_div,
              shiftRight4_eq_div]
            have h1 := hv1
            rw [get_qpos_even, get_qpos_even] at h1
            exact h1
          cases hbch2 : c1.branch (key.getD i 0 % 16) with
          | none =>
            left
            refine ⟨path ++ [key.getD i 0 / 16], 2 * i + 1, ?_, c1, hget1,
              by rw [hq1e]; exact hag1p, Or.inl ?_⟩
            · rw [hstep1, show c1.qlen - 2 * i = 1 from by omega]
              exact phaseA_step_e1h _ _ _ _ hbch2 hhiok
            · rw [hq1e]
              exact ⟨rfl, by rw [hslot2]; exact hbch2, by omega⟩
          | some c2 =>
            have hwc1 := getN_wf_flavor hw hget1
            have hbf2 := wfN_branch hwc1 hbch2
            have hq2 : 2 ≤ c2.qlen - 2 * i := by
              have := hbf2.1
              omega
            have hget2 : getN t ((path ++ [key.getD i 0 / 16])
                ++ [key.getD i 0 % 16]) = some c2 := getN_snoc hget1 hbch2
            have hv2 : get_qpos c2.key (2 * i + 1)
                = get_qpos key (2 * i + 1) := by
              rw [hslot2]
              have := hbf2.2.2.1
              rw [hq1e] at this
              exact this
            have hag2p : nibAgree key c2.key (2 * i + 1) = true := by
              refine nibAgree_trans hag1p (nibAgree_symm ?_)
              have := hbf2.2.1
              rw [hq1e] at this
              exact this
            have hv2e : get_qpos c2.key (2 * i) = get_qpos key (2 * i) :=
              ((nibAgree_iff.mp hag2p) (2 * i) (by omega)).symm
            right
            refine ⟨c2, (path ++ [key.getD i 0 / 16]) ++ [key.getD i 0 % 16],
              c2.qlen - 2 * i, true, ?_, hget2, by omega, hq2,
              nibAgree_mono (by omega) hag2p, by simp, ?_, ?_⟩
            · rw [hstep1, show c1.qlen - 2 * i = 1 from by omega,
                phaseA_step_d1 _ _ _ _ _ hbch2]
              exact phaseA_step_c _ _ _ _ _ _ hq2
            · intro h; cases h
            · intro _
              refine ⟨c1, ?_, hq1e, ?_, nibAgree_mono (by omega) hag1p,
                hv2.symm, Or.inr hv2e.symm⟩
              · rw [parentPath_append]; exact hget1
              · rw [hslot2]; exact hbch2
    · -- branching on the low nibble of byte i (the edge ends mid-byte)
      subst hqv
      have hpne : path ≠ [] := hpne_of_pos (by omega)
      obtain ⟨P, hP1, hP2, hP3⟩ := hpinv hpne
      have hslot2 : get_qpos key (2 * i + 1) = key.getD i 0 % 16 :=
        get_qpos_odd key i
      have hwP := getN_wf_flavor hw hP1
      have hbfP := wfN_branch hwP hP3
      have hagP : nibAgree key P.key P.qlen = true :=
        nibAgree_trans (nibAgree_mono (le_of_lt hP2) hagree) hbfP.2.1
      cases hbch : nod.branch (key.getD i 0 % 16) with
      | none =>
        by_cases hhi : (nod.key.getD i 0 ^^^ key.getD i 0) >>> 4 = 0
        · -- the high nibble agrees: miss at the current node
          left
          refine ⟨path, 2 * i + 1, phaseA_step_e1h _ _ _ _ hbch hhi, nod,
            hget, ?_, Or.inl ?_⟩
          · have hv : get_qpos nod.key (2 * i) = get_qpos key (2 * i) := by
              rw [get_qpos_even, get_qpos_even]
              rw [xor_shiftRight, Nat.xor_eq_zero, shiftRight4_eq_div,
                shiftRight4_eq_div] at hhi
              exact hhi
            rw [hqlen]
            exact nibAgree_succ hagree hv.symm
          · rw [hqlen]
            exact ⟨rfl, by rw [hslot2]; exact hbch, by omega⟩
        · -- the un-compared high nibble disagrees: miss at the parent
          left
          refine ⟨parentPath path, 2 * i,
            phaseA_step_e1p _ _ _ _ hbch hhi, P, hP1, hagP,
            Or.inr ⟨nod, hP3, hP2, by omega, hagree, by omega, ?_⟩⟩
          intro _
          rw [get_qpos_even, get_qpos_even]
          rw [xor_shiftRight, shiftRight4_eq_div, shiftRight4_eq_div] at hhi
          intro heq
          apply hhi
          rw [heq, Nat.xor_self]
      | some c1 =>
        have hwnod := getN_wf_flavor hw hget
        have hbf1 := wfN_branch hwnod hbch
        have hq1 : 2 ≤ c1.qlen - 2 * i := by
          have := hbf1.1
          omega
        have hget1 : getN t (path ++ [key.getD i 0 % 16]) = some c1 :=
          getN_snoc hget hbch
        have hv1 : get_qpos c1.key (2 * i + 1)
            = get_qpos key (2 * i + 1) := by
          rw [hslot2]
          have := hbf1.2.2.1
          rw [hqlen] at this
          exact this
        have hag1 : nibAgree key c1.key (2 * i) = true := by
          have h0 := hbf1.2.1
          rw [hqlen] at h0
          exact nibAgree_trans hagree
            (nibAgree_symm (nibAgree_mono (by omega) h0))
        right
        refine ⟨c1, path ++ [key.getD i 0 % 16], c1.qlen - 2 * i, true,
          ?_, hget1, by omega, hq1, hag1, by simp, ?_, ?_⟩
        · rw [phaseA_step_d1 _ _ _ _ _ hbch]
          exact phaseA_step_c _ _ _ _ _ _ hq1
        · intro h; cases h
        · intro _
          refine ⟨nod, ?_, by omega, ?_,
            nibAgree_mono (by omega) hagree, hv1.symm,
            Or.inl ⟨P, ?_, hP2, hP3⟩⟩
          · rw [parentPath_append]; exact hget
          · rw [hslot2]; exact hbch
          · rw [parentPath_append]; exact hP1

theorem traceGo_cont_step (len : Nat) (rest : List Nat) (byte i : Nat)
    (nod nod' : Node) (path path' : Path) (qv qv' : Nat) (fwd' : Bool)
    (hpA : phaseA false byte i nod path qv false
      = .cont nod' path' qv' fwd') :
    traceGo false len (byte :: rest) i nod path qv =
      if (nod'.key.getD i 0) ^^^ byte ≠ 0 then
        .miss (if fwd' then parentPath (parentPath path')
               else parentPath path')
          ((i <<< 1) +
            (if ((nod'.key.getD i 0) ^^^ byte) &&& 0xf0 = 0 then 1 else 0))
      else traceGo false len rest (i + 1) nod' path' (qv' - 2) := by
  simp only [traceGo]
  rw [hpA]

theorem traceGo_miss_step (len : Nat) (rest : List Nat) (byte i : Nat)
    (nod : Node) (path p0 : Path) (qv q0 : Nat)
    (hpA : phaseA false byte i nod path qv false = .missAt p0 q0) :
    traceGo false len (byte :: rest) i nod path qv = .miss p0 q0 := by
  simp only [traceGo]
  rw [hpA]

/-- The strict byte loop of `trie::trace`, started in a loop-top state,
ends in a position satisfying the hit specification or a miss satisfying
the miss specification. -/
theorem traceGo_strict_spec {e : Bool} {t : Node} {key : List Nat}
    (hw : wfNode e true t = true) (hbys : bytesOk key = true) :
    ∀ (rest : List Nat) (i : Nat) (nod : Node) (path : Path) (qv : Nat),
      (∀ j, rest.getD j 0 = key.getD (i + j) 0) →
      i + rest.length = key.length →
      getN t path = some nod →
      nod.qlen = 2 * i + qv →
      nibAgree key nod.key (2 * i) = true →
      (path ≠ [] → ∃ P, getN t (parentPath path) = some P ∧
        P.qlen < 2 * i ∧ P.branch (get_qpos key P.qlen) = some nod) →
      (path = [] → nod = t) →
      (∀ p q mtch, traceGo false key.length rest i nod path qv
          = .pos p q mtch → q = 2 * key.length ∧ TraceHitOK t key p mtch) ∧
      (∀ p q, traceGo false key.length rest i nod path qv = .miss p q →
        TraceMissOK t key p q) := by
  have hsh : ∀ n : Nat, n <<< 1 = 2 * n := by
    intro n
    rw [Nat.shiftLeft_eq]
    omega
  intro rest
  induction rest with
  | nil =>
    intro i nod path qv hrest hlen hget hqlen hagree hpinv hroot
    have hieq : i = key.length := by simpa using hlen
    by_cases hqv : qv = 0
    · subst hqv
      constructor
      · intro p q mtch heq
        simp only [traceGo, if_pos rfl] at heq
        cases heq
        refine ⟨hsh _, nod, hget, by omega, ?_, rfl⟩
        rw [← hieq]
        exact hagree
      · intro p q heq
        simp only [traceGo, if_pos rfl] at heq
        cases heq
    · constructor
      · intro p q mtch heq
        simp only [traceGo, if_neg hqv] at heq
        cases heq
      · intro p q heq
        simp only [traceGo, if_neg hqv] at heq
        cases heq
        have hpne : path ≠ [] := by
          intro hpe
          have := hroot hpe
          subst this
          have := wfN_root_qlen hw
          omega
        obtain ⟨P, hP1, hP2, hP3⟩ := hpinv hpne
        have hwP := getN_wf_flavor hw hP1
        have hbfP := wfN_branch hwP hP3
        have hD : nibAgree key nod.key (key.length <<< 1) = true := by
          rw [hsh, ← hieq]
          exact hagree
        have hB : P.qlen < key.length <<< 1 := by rw [hsh]; omega
        have hC : key.length <<< 1 < nod.qlen := by rw [hsh]; omega
        have hE : key.length <<< 1 ≤ 2 * key.length := by rw [hsh]
        have hFx : key.length <<< 1 < 2 * key.length →
            get_qpos key (key.length <<< 1)
              ≠ get_qpos nod.key (key.length <<< 1) := by
          intro hlt
          rw [hsh] at hlt
          exact absurd hlt (lt_irrefl _)
        exact ⟨P, hP1,
          nibAgree_trans (nibAgree_mono (le_of_lt hP2) hagree) hbfP.2.1,
          Or.inr ⟨nod, hP3, hB, hC, hD, hE, hFx⟩⟩
  | cons byte rest ih =>
    intro i nod path qv hrest hlen hget hqlen hagree hpinv hroot
    have hbyte : byte = key.getD i 0 := by
      have := hrest 0
      simpa using this
    subst hbyte
    have hilen : i < key.length := by
      simp only [List.length_cons] at hlen
      omega
    have hkb : key.getD i 0 < 256 := bytesOk_getD hbys i
    rcases phaseA_strict_cases hw hbys hilen hget hqlen hagree hpinv hroot
      with ⟨p0, q0, hpA, hmiss⟩ |
        ⟨nod', path', qv', fwd', hpA, hN, hQ, h2, hA, hPne, hF, hT⟩
    · -- Phase A reported the miss
      have htg : traceGo false key.length (key.getD i 0 :: rest) i nod path qv
          = .miss p0 q0 := traceGo_miss_step _ _ _ _ _ _ _ _ _ hpA
      constructor
      · intro p q mtch heq
        rw [htg] at heq
        cases heq
      · intro p q heq
        rw [htg] at heq
        cases heq
        exact hmiss
    · -- Phase A continued into a node whose edge covers byte i
      have hwnod' : ∃ r2, wfNode e r2 nod' = true := by
        rcases getN_wf hw hN with ⟨_, h2e⟩ | h2e
        · exact ⟨true, h2e ▸ hw⟩
        · exact ⟨false, h2e⟩
      obtain ⟨r2, hwn'⟩ := hwnod'
      have hnb : nod'.key.getD i 0 < 256 := bytesOk_getD (wfN_bytes hwn') i
      by_cases hmm : nod'.key.getD i 0 ^^^ key.getD i 0 = 0
      · -- byte i fully matches: continue the loop
        have hbeq : nod'.key.getD i 0 = key.getD i 0 := Nat.xor_eq_zero.mp hmm
        have htg : traceGo false key.length (key.getD i 0 :: rest) i nod path qv
            = traceGo false key.length rest (i + 1) nod' path' (qv' - 2) := by
          rw [traceGo_cont_step _ _ _ _ _ _ _ _ _ _ _ hpA]
          rw [if_neg (fun h => h hmm)]
        rw [htg]
        have hAsucc : nibAgree key nod'.key (2 * (i + 1)) = true := by
          have he : get_qpos key (2 * i) = get_qpos nod'.key (2 * i) := by
            rw [get_qpos_even, get_qpos_even, hbeq]
          have ho : get_qpos key (2 * i + 1) = get_qpos nod'.key (2 * i + 1) := by
            rw [get_qpos_odd, get_qpos_odd, hbeq]
          have h1 := nibAgree_succ hA he
          have h2' := nibAgree_succ h1 ho
          have : 2 * (i + 1) = 2 * i + 1 + 1 := by omega
          rw [this]
          exact h2'
        refine ih (i + 1) nod' path' (qv' - 2) ?_ ?_ hN (by omega) hAsucc ?_ ?_
        · intro j
          have := hrest (j + 1)
          simpa [Nat.add_assoc, Nat.add_comm 1 j] using this
        · simp only [List.length_cons] at hlen
          omega
        · intro _
          cases hfwd : fwd' with
          | false =>
            obtain ⟨P2, hg2, hb2, hd2⟩ := hF hfwd
            refine ⟨P2, hg2, ?_, hb2⟩
            rcases hd2 with h | ⟨h, _⟩ <;> omega
          | true =>
            obtain ⟨P3, hg3, hq3, hb3, _, _, _⟩ := hT hfwd
            refine ⟨P3, hg3, by omega, ?_⟩
            rw [hq3]
            exact hb3
        · intro h
          exact absurd h hPne
      · -- byte i mismatches: report the miss above the divergent edge
        have hand := and240_eq_zero_iff _ hnb _ hkb
        constructor
        · intro p q mtch heq
          rw [traceGo_cont_step _ _ _ _ _ _ _ _ _ _ _ hpA,
            if_pos hmm] at heq
          cases heq
        · intro p q heq
          rw [traceGo_cont_step _ _ _ _ _ _ _ _ _ _ _ hpA,
            if_pos hmm] at heq
          cases hfwd : fwd' with
          | false =>
            obtain ⟨P2, hg2, hb2, hd2⟩ := hF hfwd
            rw [hfwd] at heq
            have hwP2 := getN_wf_flavor hw hg2
            have hbf2 := wfN_branch hwP2 hb2
            have hagP2 : nibAgree key P2.key P2.qlen = true := by
              refine nibAgree_trans (nibAgree_mono ?_ hA) hbf2.2.1
              rcases hd2 with h | ⟨h, _⟩ <;> omega
            by_cases hhi : nod'.key.getD i 0 / 16 = key.getD i 0 / 16
            · -- high nibbles agree, so the bytes diverge at the low nibble
              rw [if_pos (hand.mpr hhi)] at heq
              cases heq
              have hlo : nod'.key.getD i 0 % 16 ≠ key.getD i 0 % 16 := by
                intro hleq
                exact hmm (by rw [byte_eq_of_nibs hhi hleq, Nat.xor_self])
              refine ⟨P2, hg2, hagP2, Or.inr ⟨nod', hb2, ?_, ?_, ?_, ?_, ?_⟩⟩
              · rw [hsh]
                rcases hd2 with h | ⟨h, _⟩ <;> omega
              · rw [hsh]; omega
              · rw [hsh]
                refine nibAgree_succ hA ?_
                rw [get_qpos_even, get_qpos_even, hhi]
              · rw [hsh]; omega
              · intro _
                rw [hsh, get_qpos_odd, get_qpos_odd]
                exact fun h => hlo h.symm
            · -- the bytes diverge at the high nibble
              rw [if_neg (fun h => hhi (hand.mp h))] at heq
              cases heq
              have hP2lt : P2.qlen < 2 * i := by
                rcases hd2 with h | ⟨_, hv⟩
                · exact h
                · exfalso
                  apply hhi
                  have := hv
                  rw [get_qpos_even, get_qpos_even] at this
                  exact this.symm
              refine ⟨P2, hg2, hagP2, Or.inr ⟨nod', hb2, ?_, ?_, ?_, ?_, ?_⟩⟩
              · rw [hsh]; omega
              · rw [hsh]; omega
              · rw [hsh]
                simpa using hA
              · rw [hsh]; omega
              · intro _
                rw [hsh]
                simp only [Nat.add_zero]
                rw [get_qpos_even, get_qpos_even]
                exact fun h => hhi h.symm
          | true =>
            obtain ⟨P3, hg3, hq3, hb3, ha3, hv3, hGor⟩ := hT hfwd
            rw [hfwd] at heq
            have hlo : nod'.key.getD i 0 % 16 = key.getD i 0 % 16 := by
              have := hv3
              rw [get_qpos_odd, get_qpos_odd] at this
              exact this.symm
            have hhi : nod'.key.getD i 0 / 16 ≠ key.getD i 0 / 16 := by
              intro hheq
              exact hmm (by rw [byte_eq_of_nibs hheq hlo, Nat.xor_self])
            obtain ⟨G, hGg, hGq, hGb⟩ : ∃ G,
                getN t (parentPath (parentPath path')) = some G ∧
                G.qlen < 2 * i ∧ G.branch (get_qpos key G.qlen) = some P3 := by
              rcases hGor with hg | hv
              · exact hg
              · exfalso
                apply hhi
                rw [get_qpos_even, get_qpos_even] at hv
                exact hv.symm
            rw [if_neg (fun h => hhi (hand.mp h))] at heq
            cases heq
            have hwG := getN_wf_flavor hw hGg
            have hbfG := wfN_branch hwG hGb
            have hwP3 := getN_wf_flavor hw hg3
            have hbf3 := wfN_branch hwP3 hb3
            have hpos3 : get_qpos nod'.key (2 * i) = get_qpos P3.key (2 * i) := by
              have := hbf3.2.1
              rw [hq3] at this
              exact nibAgree_iff.mp this (2 * i) (by omega)
            refine ⟨G, hGg, ?_, Or.inr ⟨P3, hGb, ?_, ?_, ?_, ?_, ?_⟩⟩
            · exact nibAgree_trans (nibAgree_mono (le_of_lt hGq) ha3)
                hbfG.2.1
            · rw [hsh]; omega
            · rw [hsh]; omega
            · rw [hsh]
              simpa using ha3
            · rw [hsh]; omega
            · intro _
              rw [hsh]
              simp only [Nat.add_zero]
              intro hcon
              apply hhi
              have h1 : get_qpos key (2 * i) = get_qpos nod'.key (2 * i) := by
                rw [hcon, ← hpos3]
              rw [get_qpos_even, get_qpos_even] at h1
              exact h1.symm

/-- `trie::trace` in strict mode, from the root: every outcome satisfies
the corresponding hit/miss specification. -/
theorem trace_strict_spec {e : Bool} {t : Node} {key : List Nat}
    (hw : wfNode e true t = true) (hbys : bytesOk key = true) :
    (∀ p q mtch, trace false t key = .pos p q mtch →
      q = 2 * key.length ∧ TraceHitOK t key p mtch) ∧
    (∀ p q, trace false t key = .miss p q → TraceMissOK t key p q) := by
  have h0 : nibAgree key t.key 0 = true := by
    rw [nibAgree_iff]
    intro j hj
    omega
  exact traceGo_strict_spec hw hbys key 0 t [] 0 (fun j => by simp)
    (by simp) rfl (by simpa using wfN_root_qlen hw) h0
    (fun h => absurd rfl h) (fun _ => rfl)

theorem get_qpos_lt16 {k : List Nat} (hb : bytesOk k = true) (pos : Nat) :
    get_qpos k pos < 16 := by
  have h := bytesOk_getD hb (pos / 2)
  simp only [get_qpos]
  split <;> omega

theorem emptyBranches_length : emptyBranches.length = 16 := by
  simp [emptyBranches]

theorem emptyBranches_getD (i : Nat) : emptyBranches.getD i none = none := by
  rcases Nat.lt_or_ge i 16 with h | h
  · rw [emptyBranches, List.getD_eq_getElem _ _ (by simpa using h)]
    rw [List.getElem_replicate]
  · rw [List.getD_eq_default]
    simpa [emptyBranches] using h

theorem mem_occSlots_setBranch_some {n : Node} {j i : Nat} {c : Node}
    (hlen : n.branches.length = 16) (hj : j < 16) :
    i ∈ occSlots (n.setBranch j (some c)) ↔ i ∈ occSlots n ∨ i = j := by
  rw [occSlots_mem, occSlots_mem]
  by_cases hij : i = j
  · subst hij
    rw [branch_setBranch_self (by omega) _]
    simp [hj]
  · rw [branch_setBranch_ne n (fun h => hij h) _]
    simp [hij]

/-- Installing the item into a node that matches it exactly (or, in
non-exact mode, at least as a prefix) keeps the node well-formed. -/
theorem wf_itemize {e r : Bool} {M : Node} {it : Item}
    (hwM : wfNode e r M = true) (hb : bytesOk it.key = true)
    (hagr : nibAgree it.key M.key M.qlen = true)
    (hq : M.qlen ≤ 2 * it.key.length)
    (hqe : e = true → M.qlen = 2 * it.key.length) :
    wfNode e r ((M.setItem (some it)).setKey it.key) = true := by
  rw [wfNode_iff] at hwM ⊢
  obtain ⟨g1, g2, g3, g4, g5, g6, g7, g8⟩ := hwM
  have hocc : occSlots ((M.setItem (some it)).setKey it.key) = occSlots M :=
    occSlots_ext (fun i => by rw [setKey_branch, setItem_branch])
  refine ⟨?_, ?_, ?_, ?_, ?_, ?_, ?_, ?_⟩
  · rw [setKey_branches, setItem_branches]; exact g1
  · intro it2 hi
    rw [setKey_item, setItem_item] at hi
    cases hi
    rw [setKey_key, setKey_qlen, setItem_qlen]
    exact ⟨rfl, hb, hq, hqe⟩
  · intro hi
    rw [setKey_item, setItem_item] at hi
    cases hi
  · intro hr
    rw [setKey_qlen, setItem_qlen]
    exact g4 hr
  · intro hoc
    rw [hocc] at hoc
    have := g5 hoc
    simp only [Node.is_leaf] at this ⊢
    rwa [setKey_br_1st, setItem_br_1st, setKey_br_last, setItem_br_last]
  · intro hoc
    rw [hocc] at hoc
    have := g6 hoc
    rw [hocc, setKey_br_1st, setItem_br_1st, setKey_br_last, setItem_br_last]
    exact this
  · rw [setKey_key]; exact hb
  · intro i c hbr
    rw [setKey_branch, setItem_branch] at hbr
    rw [setKey_qlen, setItem_qlen, setKey_key]
    have := g8 i c hbr
    exact ⟨this.1, nibAgree_trans this.2.1 (nibAgree_symm hagr),
      this.2.2.1, this.2.2.2⟩

theorem exists_two_of_two_le {l : List Nat} (hnd : l.Nodup)
    (h2 : 2 ≤ l.length) : ∃ a b, a ∈ l ∧ b ∈ l ∧ a ≠ b := by
  cases l with
  | nil => simp at h2
  | cons x l2 =>
    cases l2 with
    | nil => simp at h2
    | cons y l3 =>
      rw [List.nodup_cons] at hnd
      refine ⟨x, y, by simp, by simp, ?_⟩
      intro he
      exact hnd.1 (by rw [he]; simp)

theorem mem_occSlots_mk_single {it0 : Option Item} {k : List Nat}
    {q bo b1 bl j : Nat} {c : Node} (hj : j < 16) (i : Nat) :
    i ∈ occSlots (Node.mk it0 k q bo b1 bl
      (emptyBranches.set j (some c))) ↔ i = j := by
  rw [occSlots_mem]
  constructor
  · rintro ⟨hi16, hsome⟩
    by_contra hij
    have hb : (Node.mk it0 k q bo b1 bl
        (emptyBranches.set j (some c))).branch i = none := by
      show (emptyBranches.set j (some c)).getD i none = none
      rw [getD_set_ne hij _]
      exact emptyBranches_getD i
    rw [hb] at hsome
    cases hsome
  · rintro rfl
    refine ⟨hj, ?_⟩
    have hb : (Node.mk it0 k q bo b1 bl
        (emptyBranches.set i (some c))).branch i = some c := by
      show (emptyBranches.set i (some c)).getD i none = some c
      exact getD_set_self (by rw [emptyBranches_length]; exact hj) _
    rw [hb]
    rfl

theorem mem_occSlots_mk_double {it0 : Option Item} {k : List Nat}
    {q bo b1 bl j1 j2 : Nat} {c1 c2 : Node} (hj1 : j1 < 16) (hj2 : j2 < 16)
    (hne : j2 ≠ j1) (i : Nat) :
    i ∈ occSlots (Node.mk it0 k q bo b1 bl
      ((emptyBranches.set j1 (some c1)).set j2 (some c2))) ↔
      i = j1 ∨ i = j2 := by
  rw [occSlots_mem]
  have hlen1 : (emptyBranches.set j1 (some c1)).length = 16 := by
    rw [List.length_set, emptyBranches_length]
  constructor
  · rintro ⟨hi16, hsome⟩
    by_contra hij
    push_neg at hij
    have hb : (Node.mk it0 k q bo b1 bl
        ((emptyBranches.set j1 (some c1)).set j2 (some c2))).branch i
          = none := by
      show ((emptyBranches.set j1 (some c1)).set j2 (some c2)).getD i none
        = none
      rw [getD_set_ne hij.2 _, getD_set_ne hij.1 _]
      exact emptyBranches_getD i
    rw [hb] at hsome
    cases hsome
  · intro hor
    rcases hor with rfl | rfl
    · refine ⟨hj1, ?_⟩
      have hb : (Node.mk it0 k q bo b1 bl
          ((emptyBranches.set i (some c1)).set j2 (some c2))).branch i
            = some c1 := by
        show ((emptyBranches.set i (some c1)).set j2 (some c2)).getD i none
          = some c1
        rw [getD_set_ne (fun h => hne h.symm) _]
        exact getD_set_self (by rw [emptyBranches_length]; exact hj1) _
      rw [hb]
      rfl
    · refine ⟨hj2, ?_⟩
      have hb : (Node.mk it0 k q bo b1 bl
          ((emptyBranches.set j1 (some c1)).set i (some c2))).branch i
            = some c2 := by
        show ((emptyBranches.set j1 (some c1)).set i (some c2)).getD i none
          = some c2
        exact getD_set_self (by rw [hlen1]; exact hj2) _
      rw [hb]
      rfl

/-- The fresh leaf hung by `insert_node`, once `insert_item` has installed
the entry and re-pointed its key, is a well-formed item node. -/
theorem wf_freshLeaf {e : Bool} {it : Item} {j : Nat}
    (hb : bytesOk it.key = true) :
    wfNode e false (((Node.mk none [] (it.key.length <<< 1) j 1 0
      emptyBranches).setItem (some it)).setKey it.key) = true := by
  have hsh : it.key.length <<< 1 = 2 * it.key.length := by
    rw [Nat.shiftLeft_eq]
    omega
  rw [wfNode_iff]
  have hocc : occSlots (((Node.mk none [] (it.key.length <<< 1) j 1 0
      emptyBranches).setItem (some it)).setKey it.key) = [] := by
    rw [List.eq_nil_iff_forall_not_mem]
    intro i hi
    rw [occSlots_mem] at hi
    have hbch : (((Node.mk none [] (it.key.length <<< 1) j 1 0
        emptyBranches).setItem (some it)).setKey it.key).branch i
          = none := by
      show emptyBranches.getD i none = none
      exact emptyBranches_getD i
    rw [hbch] at hi
    cases hi.2
  refine ⟨?_, ?_, ?_, ?_, ?_, ?_, ?_, ?_⟩
  · show emptyBranches.length = 16
    exact emptyBranches_length
  · intro it2 hi
    cases hi
    refine ⟨rfl, hb, ?_, fun _ => ?_⟩
    · show it.key.length <<< 1 ≤ 2 * it.key.length
      rw [hsh]
    · show it.key.length <<< 1 = 2 * it.key.length
      exact hsh
  · intro hi
    cases hi
  · intro hr
    cases hr
  · intro _
    rfl
  · intro hne
    exact absurd hocc hne
  · exact hb
  · intro i c hbch
    exfalso
    have : (((Node.mk none [] (it.key.length <<< 1) j 1 0
        emptyBranches).setItem (some it)).setKey it.key).branch i
          = none := by
      show emptyBranches.getD i none = none
      exact emptyBranches_getD i
    rw [this] at hbch
    cases hbch

theorem addLeafTo_item (n : Node) (j len : Nat) :
    (addLeafTo n j len).item = n.item := by
  unfold addLeafTo
  rw [setBranch_item]
  split
  · rw [br_set_item]
  · split <;> dsimp only <;> split
    · rw [setBrLast_item, setBr1st_item]
    · rw [setBr1st_item]
    · rw [setBrLast_item]
    · rfl

theorem addLeafTo_key (n : Node) (j len : Nat) :
    (addLeafTo n j len).key = n.key := by
  unfold addLeafTo
  rw [setBranch_key]
  split
  · rw [br_set_key]
  · split <;> dsimp only <;> split
    · rw [setBrLast_key, setBr1st_key]
    · rw [setBr1st_key]
    · rw [setBrLast_key]
    · rfl

theorem addLeafTo_qlen (n : Node) (j len : Nat) :
    (addLeafTo n j len).qlen = n.qlen := by
  unfold addLeafTo
  rw [setBranch_qlen]
  split
  · rw [br_set_qlen]
  · split <;> dsimp only <;> split
    · rw [setBrLast_qlen, setBr1st_qlen]
    · rw [setBr1st_qlen]
    · rw [setBrLast_qlen]
    · rfl

theorem addLeafTo_br_own (n : Node) (j len : Nat) :
    (addLeafTo n j len).br_own = n.br_own := by
  unfold addLeafTo
  rw [setBranch_br_own]
  split
  · rw [br_set_br_own]
  · split <;> dsimp only <;> split
    · rw [setBrLast_br_own, setBr1st_br_own]
    · rw [setBr1st_br_own]
    · rw [setBrLast_br_own]
    · rfl

theorem addLeafTo_branches (n : Node) (j len : Nat) :
    (addLeafTo n j len).branches = n.branches.set j
      (some (Node.mk none [] (len <<< 1) j 1 0 emptyBranches)) := by
  unfold addLeafTo
  rw [setBranch_branches]
  split
  · rw [br_set_branches]
  · split <;> dsimp only <;> split
    · rw [setBrLast_branches, setBr1st_branches]
    · rw [setBr1st_branches]
    · rw [setBrLast_branches]
    · rfl

theorem addLeafTo_cache {n : Node} {j : Nat} (hj : j < 16) (len : Nat) :
    (n.is_leaf = true → (addLeafTo n j len).br_1st = j ∧
      (addLeafTo n j len).br_last = j) ∧
    (n.is_leaf = false →
      (addLeafTo n j len).br_1st = min j n.br_1st ∧
      (addLeafTo n j len).br_last = max j n.br_last) := by
  constructor
  · intro hl
    unfold addLeafTo
    rw [setBranch_br_1st, setBranch_br_last]
    rw [if_pos hl]
    rw [br_set_br_1st, br_set_br_last, Nat.mod_eq_of_lt hj]
    exact ⟨rfl, rfl⟩
  · intro hl
    unfold addLeafTo
    rw [setBranch_br_1st, setBranch_br_last]
    rw [if_neg (by rw [hl]; simp)]
    dsimp only
    by_cases h1 : j < n.br_1st
    · rw [if_pos h1]
      have hb1 : (n.setBr1st j).br_1st = j := by
        rw [setBr1st_br_1st, Nat.mod_eq_of_lt hj]
      have hbl : (n.setBr1st j).br_last = n.br_last := setBr1st_br_last n j
      by_cases h2 : (n.setBr1st j).br_last < j
      · rw [if_pos h2]
        rw [setBrLast_br_1st, setBrLast_br_last, hb1, Nat.mod_eq_of_lt hj]
        rw [hbl] at h2
        constructor
        · omega
        · omega
      · rw [if_neg h2]
        rw [hb1, hbl]
        rw [hbl] at h2
        constructor
        · omega
        · omega
    · rw [if_neg h1]
      by_cases h2 : n.br_last < j
      · rw [if_pos h2]
        rw [setBrLast_br_1st, setBrLast_br_last, Nat.mod_eq_of_lt hj]
        constructor
        · omega
        · omega
      · rw [if_neg h2]
        constructor
        · omega
        · omega

/-- Replacing the occupant of a branch slot by a deeper node satisfying
the same slot conditions preserves well-formedness (the outer step of
`insert_node`'s split). -/
theorem child_replace_wf {e r : Bool} {m C X : Node} {j : Nat}
    (hwm : wfNode e r m = true) (hbch : m.branch j = some C)
    (hwX : wfNode e false X = true) (hq : m.qlen < X.qlen)
    (hagr : nibAgree X.key m.key m.qlen = true)
    (hqpos : get_qpos X.key m.qlen = j) (hbo : X.br_own = j) :
    wfNode e r (m.setBranch j (some X)) = true := by
  rw [wfNode_iff] at hwm ⊢
  obtain ⟨g1, g2, g3, g4, g5, g6, g7, g8⟩ := hwm
  have hlt : j < m.branches.length := getD_some_lt hbch
  have hocc : occSlots (m.setBranch j (some X)) = occSlots m :=
    occSlots_setBranch_some hbch
  refine ⟨?_, ?_, ?_, ?_, ?_, ?_, ?_, ?_⟩
  · rw [setBranch_branches, List.length_set]; exact g1
  · intro it hi
    rw [setBranch_item] at hi
    have := g2 it hi
    rw [setBranch_key, setBranch_qlen]
    exact this
  · intro hi
    rw [setBranch_item] at hi
    rw [hocc]
    exact g3 hi
  · intro hr
    rw [setBranch_qlen]
    exact g4 hr
  · intro hoc
    rw [hocc] at hoc
    have := g5 hoc
    simp only [Node.is_leaf] at this ⊢
    rwa [setBranch_br_1st, setBranch_br_last]
  · intro hoc
    rw [hocc] at hoc
    rw [hocc, setBranch_br_1st, setBranch_br_last]
    exact g6 hoc
  · rw [setBranch_key]; exact g7
  · intro i c hbi
    rw [setBranch_qlen, setBranch_key]
    by_cases hij : i = j
    · subst hij
      rw [branch_setBranch_self hlt _] at hbi
      cases hbi
      exact ⟨hq, hagr, hqpos, hbo, hwX⟩
    · rw [branch_setBranch_ne m (fun h => hij h) _] at hbi
      exact g8 i c hbi

/-- The interim node created by `insert_node`'s split when the divergence
depth equals the full query length: it adopts the moved occupant as only
son and carries the new entry itself. -/
theorem split_interim_item_wf {e : Bool} {C : Node} {key : List Nat}
    {q br_ix : Nat} {it : Item}
    (hwC : wfNode e false C = true) (hkey : it.key = key)
    (hb : bytesOk key = true) (hq : q < C.qlen)
    (hagrC : nibAgree key C.key q = true)
    (hqe : q = 2 * key.length) :
    wfNode e false (((Node.mk none C.key q br_ix (get_qpos C.key q)
      (get_qpos C.key q) (emptyBranches.set (get_qpos C.key q)
        (some (C.setBrOwn (get_qpos C.key q))))).setItem
          (some it)).setKey it.key) = true := by
  have hbC : bytesOk C.key = true := wfN_bytes hwC
  have hi1 : get_qpos C.key q < 16 := get_qpos_lt16 hbC q
  show wfNode e false (Node.mk (some it) it.key q br_ix
    (get_qpos C.key q) (get_qpos C.key q)
    (emptyBranches.set (get_qpos C.key q)
      (some (C.setBrOwn (get_qpos C.key q))))) = true
  have hmem := fun i => @mem_occSlots_mk_single (some it) it.key q br_ix
    (get_qpos C.key q) (get_qpos C.key q) (get_qpos C.key q)
    (C.setBrOwn (get_qpos C.key q)) hi1 i
  rw [wfNode_iff]
  refine ⟨?_, ?_, ?_, ?_, ?_, ?_, ?_, ?_⟩
  · show (emptyBranches.set (get_qpos C.key q)
      (some (C.setBrOwn (get_qpos C.key q)))).length = 16
    rw [List.length_set, emptyBranches_length]
  · intro it2 hi
    cases hi
    refine ⟨rfl, by rw [hkey]; exact hb, ?_, fun _ => ?_⟩
    · show q ≤ 2 * it.key.length
      rw [hkey]
      omega
    · show q = 2 * it.key.length
      rw [hkey]
      exact hqe
  · intro hi
    cases hi
  · intro hr
    cases hr
  · intro hoc
    exfalso
    have : get_qpos C.key q ∈ ([] : List Nat) := by
      rw [← hoc]
      exact (hmem _).mpr rfl
    cases this
  · intro _
    have h1st : (Node.mk (some it) it.key q br_ix
        (get_qpos C.key q) (get_qpos C.key q)
        (emptyBranches.set (get_qpos C.key q)
          (some (C.setBrOwn (get_qpos C.key q))))).br_1st
          = get_qpos C.key q := by
      show get_qpos C.key q % 16 = get_qpos C.key q
      exact Nat.mod_eq_of_lt hi1
    have hlast : (Node.mk (some it) it.key q br_ix
        (get_qpos C.key q) (get_qpos C.key q)
        (emptyBranches.set (get_qpos C.key q)
          (some (C.setBrOwn (get_qpos C.key q))))).br_last
          = get_qpos C.key q := by
      show get_qpos C.key q % 16 = get_qpos C.key q
      exact Nat.mod_eq_of_lt hi1
    rw [h1st, hlast]
    refine ⟨(hmem _).mpr rfl, (hmem _).mpr rfl, ?_⟩
    intro x hx
    have := (hmem x).mp hx
    omega
  · show bytesOk it.key = true
    rw [hkey]
    exact hb
  · intro i c hbi
    show q < c.qlen ∧ nibAgree c.key it.key q = true ∧
      get_qpos c.key q = i ∧ c.br_own = i ∧ wfNode e false c = true
    by_cases hii : i = get_qpos C.key q
    · subst hii
      have : (Node.mk (some it) it.key q br_ix
          (get_qpos C.key q) (get_qpos C.key q)
          (emptyBranches.set (get_qpos C.key q)
            (some (C.setBrOwn (get_qpos C.key q))))).branch
              (get_qpos C.key q)
            = some (C.setBrOwn (get_qpos C.key q)) := by
        show (emptyBranches.set (get_qpos C.key q)
          (some (C.setBrOwn (get_qpos C.key q)))).getD
            (get_qpos C.key q) none = _
        exact getD_set_self (by rw [emptyBranches_length]; exact hi1) _
      rw [this] at hbi
      cases hbi
      refine ⟨?_, ?_, ?_, ?_, wf_setBrOwn hwC⟩
      · rw [setBrOwn_qlen]; exact hq
      · rw [setBrOwn_key, hkey]
        exact nibAgree_symm hagrC
      · rw [setBrOwn_key]
      · rw [setBrOwn_br_own]
        exact Nat.mod_eq_of_lt hi1
    · exfalso
      have : (Node.mk (some it) it.key q br_ix
          (get_qpos C.key q) (get_qpos C.key q)
          (emptyBranches.set (get_qpos C.key q)
            (some (C.setBrOwn (get_qpos C.key q))))).branch i = none := by
        show (emptyBranches.set (get_qpos C.key q)
          (some (C.setBrOwn (get_qpos C.key q)))).getD i none = none
        rw [getD_set_ne hii _]
        exact emptyBranches_getD i
      rw [this] at hbi
      cases hbi

/-- The interim node created by `insert_node`'s split when the divergence
depth lies strictly inside the query: it adopts the moved occupant and a
fresh leaf (which receives the entry) in two distinct slots. -/
theorem split_interim_leaf_wf {e : Bool} {C : Node} {key : List Nat}
    {q br_ix : Nat} {it : Item}
    (hwC : wfNode e false C = true) (hkey : it.key = key)
    (hb : bytesOk key = true) (hq : q < C.qlen)
    (hagrC : nibAgree key C.key q = true)
    (hdiv : get_qpos key q ≠ get_qpos C.key q)
    (hql : q < 2 * key.length) :
    wfNode e false (updateAt (addLeafTo (Node.mk none C.key q br_ix
      (get_qpos C.key q) (get_qpos C.key q)
      (emptyBranches.set (get_qpos C.key q)
        (some (C.setBrOwn (get_qpos C.key q)))))
      (get_qpos key q) key.length) [get_qpos key q]
      (fun x => (x.setItem (some it)).setKey it.key)) = true := by
  have hbC : bytesOk C.key = true := wfN_bytes hwC
  have hi1 : get_qpos C.key q < 16 := get_qpos_lt16 hbC q
  have hj2 : get_qpos key q < 16 := get_qpos_lt16 hb q
  have hsh : key.length <<< 1 = 2 * key.length := by
    rw [Nat.shiftLeft_eq]
    omega
  have hALbrs : (addLeafTo (Node.mk none C.key q br_ix
      (get_qpos C.key q) (get_qpos C.key q)
      (emptyBranches.set (get_qpos C.key q)
        (some (C.setBrOwn (get_qpos C.key q)))))
      (get_qpos key q) key.length).branches
      = (emptyBranches.set (get_qpos C.key q)
          (some (C.setBrOwn (get_qpos C.key q)))).set (get_qpos key q)
          (some (Node.mk none [] (key.length <<< 1) (get_qpos key q) 1 0
            emptyBranches)) := addLeafTo_branches _ _ _
  have hALlen : (addLeafTo (Node.mk none C.key q br_ix
      (get_qpos C.key q) (get_qpos C.key q)
      (emptyBranches.set (get_qpos C.key q)
        (some (C.setBrOwn (get_qpos C.key q)))))
      (get_qpos key q) key.length).branches.length = 16 := by
    rw [hALbrs, List.length_set, List.length_set, emptyBranches_length]
  have hALbr2 : (addLeafTo (Node.mk none C.key q br_ix
      (get_qpos C.key q) (get_qpos C.key q)
      (emptyBranches.set (get_qpos C.key q)
        (some (C.setBrOwn (get_qpos C.key q)))))
      (get_qpos key q) key.length).branch (get_qpos key q)
      = some (Node.mk none [] (key.length <<< 1) (get_qpos key q) 1 0
          emptyBranches) := by
    rw [branch_eq_getD, hALbrs]
    exact getD_set_self (by
      rw [List.length_set, emptyBranches_length]; exact hj2) _
  rw [updateAt_single hALbr2]
  have hIN_leaf : (Node.mk none C.key q br_ix
      (get_qpos C.key q) (get_qpos C.key q)
      (emptyBranches.set (get_qpos C.key q)
        (some (C.setBrOwn (get_qpos C.key q))))).is_leaf = false := by
    show decide (get_qpos C.key q % 16 < get_qpos C.key q % 16) = false
    simp
  have hcache := (addLeafTo_cache (n := Node.mk none C.key q br_ix
      (get_qpos C.key q) (get_qpos C.key q)
      (emptyBranches.set (get_qpos C.key q)
        (some (C.setBrOwn (get_qpos C.key q))))) hj2 key.length).2 hIN_leaf
  have hIN1st : (Node.mk none C.key q br_ix
      (get_qpos C.key q) (get_qpos C.key q)
      (emptyBranches.set (get_qpos C.key q)
        (some (C.setBrOwn (get_qpos C.key q))))).br_1st
      = get_qpos C.key q := by
    show get_qpos C.key q % 16 = get_qpos C.key q
    exact Nat.mod_eq_of_lt hi1
  have hINlast : (Node.mk none C.key q br_ix
      (get_qpos C.key q) (get_qpos C.key q)
      (emptyBranches.set (get_qpos C.key q)
        (some (C.setBrOwn (get_qpos C.key q))))).br_last
      = get_qpos C.key q := by
    show get_qpos C.key q % 16 = get_qpos C.key q
    exact Nat.mod_eq_of_lt hi1
  rw [hIN1st] at hcache
  rw [hINlast] at hcache
  -- the three-way branch characterisation of the finished node
  have hFb2 : ((addLeafTo (Node.mk none C.key q br_ix
      (get_qpos C.key q) (get_qpos C.key q)
      (emptyBranches.set (get_qpos C.key q)
        (some (C.setBrOwn (get_qpos C.key q)))))
      (get_qpos key q) key.length).setBranch (get_qpos key q)
      (some (((Node.mk none [] (key.length <<< 1) (get_qpos key q) 1 0
        emptyBranches).setItem (some it)).setKey it.key))).branch
        (get_qpos key q)
      = some (((Node.mk none [] (key.length <<< 1) (get_qpos key q) 1 0
        emptyBranches).setItem (some it)).setKey it.key) :=
    branch_setBranch_self (by rw [hALlen]; exact hj2) _
  have hFb1 : ((addLeafTo (Node.mk none C.key q br_ix
      (get_qpos C.key q) (get_qpos C.key q)
      (emptyBranches.set (get_qpos C.key q)
        (some (C.setBrOwn (get_qpos C.key q)))))
      (get_qpos key q) key.length).setBranch (get_qpos key q)
      (some (((Node.mk none [] (key.length <<< 1) (get_qpos key q) 1 0
        emptyBranches).setItem (some it)).setKey it.key))).branch
        (get_qpos C.key q)
      = some (C.setBrOwn (get_qpos C.key q)) := by
    rw [branch_setBranch_ne _ (fun h => hdiv h.symm) _]
    rw [branch_eq_getD, hALbrs]
    rw [getD_set_ne (fun h => hdiv h.symm) _]
    exact getD_set_self (by rw [emptyBranches_length]; exact hi1) _
  have hFb0 : ∀ i, i ≠ get_qpos C.key q → i ≠ get_qpos key q →
      ((addLeafTo (Node.mk none C.key q br_ix
        (get_qpos C.key q) (get_qpos C.key q)
        (emptyBranches.set (get_qpos C.key q)
          (some (C.setBrOwn (get_qpos C.key q)))))
        (get_qpos key q) key.length).setBranch (get_qpos key q)
        (some (((Node.mk none [] (key.length <<< 1) (get_qpos key q) 1 0
          emptyBranches).setItem (some it)).setKey it.key))).branch i
        = none := by
    intro i h1 h2
    rw [branch_setBranch_ne _ (fun h => h2 h) _]
    rw [branch_eq_getD, hALbrs]
    rw [getD_set_ne (fun h => h2 h) _, getD_set_ne (fun h => h1 h) _]
    exact emptyBranches_getD i
  have hmem : ∀ i, i ∈ occSlots ((addLeafTo (Node.mk none C.key q br_ix
      (get_qpos C.key q) (get_qpos C.key q)
      (emptyBranches.set (get_qpos C.key q)
        (some (C.setBrOwn (get_qpos C.key q)))))
      (get_qpos key q) key.length).setBranch (get_qpos key q)
      (some (((Node.mk none [] (key.length <<< 1) (get_qpos key q) 1 0
        emptyBranches).setItem (some it)).setKey it.key))) ↔
      i = get_qpos C.key q ∨ i = get_qpos key q := by
    intro i
    rw [occSlots_mem]
    constructor
    · rintro ⟨hi16, hsome⟩
      by_contra hcon
      push_neg at hcon
      rw [hFb0 i hcon.1 hcon.2] at hsome
      cases hsome
    · intro hor
      rcases hor with rfl | rfl
      · exact ⟨hi1, by rw [hFb1]; rfl⟩
      · exact ⟨hj2, by rw [hFb2]; rfl⟩
  have hwFL : wfNode e false (((Node.mk none []
      (key.length <<< 1) (get_qpos key q) 1 0
      emptyBranches).setItem (some it)).setKey it.key) = true := by
    have hkl : key.length = it.key.length := by rw [hkey]
    rw [hkl]
    exact wf_freshLeaf (by rw [hkey]; exact hb)
  rw [wfNode_iff]
  refine ⟨?_, ?_, ?_, ?_, ?_, ?_, ?_, ?_⟩
  · rw [setBranch_branches, List.length_set]
    exact hALlen
  · intro it2 hi
    rw [setBranch_item, addLeafTo_item] at hi
    cases hi
  · intro _
    right
    exact two_le_length_of_ne ((hmem _).mpr (Or.inl rfl))
      ((hmem _).mpr (Or.inr rfl)) (fun h => hdiv h.symm)
  · intro hr
    cases hr
  · intro hoc
    exfalso
    have := (hmem (get_qpos C.key q)).mpr (Or.inl rfl)
    rw [hoc] at this
    cases this
  · intro _
    rw [setBranch_br_1st, setBranch_br_last, hcache.1, hcache.2]
    refine ⟨?_, ?_, ?_⟩
    · rcases Nat.le_total (get_qpos key q) (get_qpos C.key q) with h | h
      · rw [Nat.min_eq_left h]
        exact (hmem _).mpr (Or.inr rfl)
      · rw [Nat.min_eq_right h]
        exact (hmem _).mpr (Or.inl rfl)
    · rcases Nat.le_total (get_qpos key q) (get_qpos C.key q) with h | h
      · rw [Nat.max_eq_right h]
        exact (hmem _).mpr (Or.inl rfl)
      · rw [Nat.max_eq_left h]
        exact (hmem _).mpr (Or.inr rfl)
    · intro x hx
      have := (hmem x).mp hx
      rcases this with rfl | rfl
      · constructor
        · exact le_trans (Nat.min_le_right _ _) (le_refl _)
        · exact Nat.le_max_right _ _
      · constructor
        · exact Nat.min_le_left _ _
        · exact Nat.le_max_left _ _
  · rw [setBranch_key, addLeafTo_key]
    show bytesOk C.key = true
    exact hbC
  · intro i c hbi
    rw [setBranch_qlen, addLeafTo_qlen, setBranch_key, addLeafTo_key]
    show q < c.qlen ∧ nibAgree c.key C.key q = true ∧
      get_qpos c.key q = i ∧ c.br_own = i ∧ wfNode e false c = true
    by_cases h2i : i = get_qpos key q
    · subst h2i
      rw [hFb2] at hbi
      cases hbi
      refine ⟨?_, ?_, ?_, ?_, hwFL⟩
      · show q < key.length <<< 1
        omega
      · show nibAgree it.key C.key q = true
        rw [hkey]
        exact hagrC
      · show get_qpos it.key q = get_qpos key q
        rw [hkey]
      · show get_qpos key q % 16 = get_qpos key q
        exact Nat.mod_eq_of_lt hj2
    · by_cases h1i : i = get_qpos C.key q
      · subst h1i
        rw [hFb1] at hbi
        cases hbi
        refine ⟨?_, ?_, ?_, ?_, wf_setBrOwn hwC⟩
        · rw [setBrOwn_qlen]; exact hq
        · rw [setBrOwn_key]
          exact nibAgree_refl _ _
        · rw [setBrOwn_key]
        · rw [setBrOwn_br_own]
          exact Nat.mod_eq_of_lt hi1
      · rw [hFb0 i h1i h2i] at hbi
        cases hbi

/-- `insert_node` on an empty branch slot, followed by `insert_item` on
the fresh leaf, keeps the node at the miss position well-formed. -/
theorem addLeaf_item_wf {e r : Bool} {n : Node} {it : Item}
    (hw : wfNode e r n = true) (hb : bytesOk it.key = true)
    (hmiss : n.branch (get_qpos it.key n.qlen) = none)
    (hagr : nibAgree it.key n.key n.qlen = true)
    (hq : n.qlen < 2 * it.key.length) :
    wfNode e r (updateAt (addLeafTo n (get_qpos it.key n.qlen)
      it.key.length) [get_qpos it.key n.qlen]
      (fun x => (x.setItem (some it)).setKey it.key)) = true := by
  have hlen := wfN_len hw
  have hj : get_qpos it.key n.qlen < 16 := get_qpos_lt16 hb _
  have hsh : it.key.length <<< 1 = 2 * it.key.length := by
    rw [Nat.shiftLeft_eq]
    omega
  have hALbrs := addLeafTo_branches n (get_qpos it.key n.qlen) it.key.length
  have hALlen : (addLeafTo n (get_qpos it.key n.qlen)
      it.key.length).branches.length = 16 := by
    rw [hALbrs, List.length_set, hlen]
  have hALbr : (addLeafTo n (get_qpos it.key n.qlen) it.key.length).branch
      (get_qpos it.key n.qlen)
      = some (Node.mk none [] (it.key.length <<< 1)
          (get_qpos it.key n.qlen) 1 0 emptyBranches) := by
    rw [branch_eq_getD, hALbrs]
    exact getD_set_self (by rw [hlen]; exact hj) _
  rw [updateAt_single hALbr]
  have hFbj : (((addLeafTo n (get_qpos it.key n.qlen)
      it.key.length)).setBranch (get_qpos it.key n.qlen)
      (some (((Node.mk none [] (it.key.length <<< 1)
        (get_qpos it.key n.qlen) 1 0 emptyBranches).setItem
        (some it)).setKey it.key))).branch (get_qpos it.key n.qlen)
      = some (((Node.mk none [] (it.key.length <<< 1)
        (get_qpos it.key n.qlen) 1 0 emptyBranches).setItem
        (some it)).setKey it.key) :=
    branch_setBranch_self (by rw [hALlen]; exact hj) _
  have hFbne : ∀ i, i ≠ get_qpos it.key n.qlen →
      (((addLeafTo n (get_qpos it.key n.qlen)
        it.key.length)).setBranch (get_qpos it.key n.qlen)
        (some (((Node.mk none [] (it.key.length <<< 1)
          (get_qpos it.key n.qlen) 1 0 emptyBranches).setItem
          (some it)).setKey it.key))).branch i = n.branch i := by
    intro i hij
    rw [branch_setBranch_ne _ (fun h => hij h) _]
    rw [branch_eq_getD, hALbrs, getD_set_ne (fun h => hij h) _,
      ← branch_eq_getD]
  have hmem : ∀ i, i ∈ occSlots (((addLeafTo n (get_qpos it.key n.qlen)
      it.key.length)).setBranch (get_qpos it.key n.qlen)
      (some (((Node.mk none [] (it.key.length <<< 1)
        (get_qpos it.key n.qlen) 1 0 emptyBranches).setItem
        (some it)).setKey it.key))) ↔
      i ∈ occSlots n ∨ i = get_qpos it.key n.qlen := by
    intro i
    rw [occSlots_mem, occSlots_mem]
    by_cases hij : i = get_qpos it.key n.qlen
    · subst hij
      rw [hFbj]
      simp [hj]
    · rw [hFbne i hij]
      simp [hij]
  have hwOld := wfNode_iff.mp hw
  obtain ⟨g1, g2, g3, g4, g5, g6, g7, g8⟩ := hwOld
  rw [wfNode_iff]
  refine ⟨?_, ?_, ?_, ?_, ?_, ?_, ?_, ?_⟩
  · rw [setBranch_branches, List.length_set]
    exact hALlen
  · intro it2 hi
    rw [setBranch_item, addLeafTo_item] at hi
    rw [setBranch_key, addLeafTo_key, setBranch_qlen, addLeafTo_qlen]
    exact g2 it2 hi
  · intro hi
    rw [setBranch_item, addLeafTo_item] at hi
    rcases g3 hi with hr | h2
    · exact Or.inl hr
    · right
      obtain ⟨a, b2, ha, hb2, hab⟩ :=
        exists_two_of_two_le (occSlots_nodup n) h2
      exact two_le_length_of_ne ((hmem a).mpr (Or.inl ha))
        ((hmem b2).mpr (Or.inl hb2)) hab
  · intro hr
    rw [setBranch_qlen, addLeafTo_qlen]
    exact g4 hr
  · intro hoc
    exfalso
    have := (hmem (get_qpos it.key n.qlen)).mpr (Or.inr rfl)
    rw [hoc] at this
    cases this
  · intro _
    rw [setBranch_br_1st, setBranch_br_last]
    rcases hlf : n.is_leaf with _ | _
    · -- n has other children: cache becomes min/max of old and new slot
      have hocc : occSlots n ≠ [] := by
        intro hnil
        rw [(wfN_leaf_iff hw).mpr hnil] at hlf
        cases hlf
      have hC := g6 hocc
      have hcc := (addLeafTo_cache hj it.key.length).2 hlf
      rw [hcc.1, hcc.2]
      refine ⟨?_, ?_, ?_⟩
      · rcases Nat.le_total (get_qpos it.key n.qlen) n.br_1st with h | h
        · rw [Nat.min_eq_left h]
          exact (hmem _).mpr (Or.inr rfl)
        · rw [Nat.min_eq_right h]
          exact (hmem _).mpr (Or.inl hC.1)
      · rcases Nat.le_total (get_qpos it.key n.qlen) n.br_last with h | h
        · rw [Nat.max_eq_right h]
          exact (hmem _).mpr (Or.inl hC.2.1)
        · rw [Nat.max_eq_left h]
          exact (hmem _).mpr (Or.inr rfl)
      · intro x hx
        rcases (hmem x).mp hx with hxo | rfl
        · have := hC.2.2 x hxo
          constructor
          · exact le_trans (Nat.min_le_right _ _) this.1
          · exact le_trans this.2 (Nat.le_max_right _ _)
        · exact ⟨Nat.min_le_left _ _, Nat.le_max_left _ _⟩
    · -- n was a leaf: the new slot is the sole child
      have hocc : occSlots n = [] := (wfN_leaf_iff hw).mp hlf
      have hcc := (addLeafTo_cache (n := n) hj it.key.length).1 hlf
      rw [hcc.1, hcc.2]
      have hjmem := (hmem (get_qpos it.key n.qlen)).mpr (Or.inr rfl)
      refine ⟨hjmem, hjmem, ?_⟩
      intro x hx
      rcases (hmem x).mp hx with hxo | rfl
      · rw [hocc] at hxo
        cases hxo
      · exact ⟨le_refl _, le_refl _⟩
  · rw [setBranch_key, addLeafTo_key]
    exact g7
  · intro i c hbi
    rw [setBranch_qlen, addLeafTo_qlen, setBranch_key, addLeafTo_key]
    by_cases hij : i = get_qpos it.key n.qlen
    · subst hij
      rw [hFbj] at hbi
      cases hbi
      refine ⟨?_, ?_, ?_, ?_, wf_freshLeaf hb⟩
      · show n.qlen < it.key.length <<< 1
        omega
      · show nibAgree it.key n.key n.qlen = true
        exact hagr
      · show get_qpos it.key n.qlen = get_qpos it.key n.qlen
        rfl
      · show get_qpos it.key n.qlen % 16 = get_qpos it.key n.qlen
        exact Nat.mod_eq_of_lt hj
    · rw [hFbne i hij] at hbi
      exact g8 i c hbi

/-- `updateAt` along a non-empty path touches only a branch slot, leaving
the top node's scalar fields intact. -/
theorem updateAt_cons_fields (t : Node) (i : Nat) (p : Path)
    (f : Node → Node) :
    (updateAt t (i :: p) f).item = t.item ∧
    (updateAt t (i :: p) f).key = t.key ∧
    (updateAt t (i :: p) f).qlen = t.qlen ∧
    (updateAt t (i :: p) f).br_own = t.br_own := by
  cases h : t.branch i with
  | none => simp [updateAt, h]
  | some c =>
    simp [updateAt, h, setBranch_item, setBranch_key, setBranch_qlen,
      setBranch_br_own]

/-- `insert_node` at a strict-trace miss node, followed by `insert_item`
at the returned relative position, keeps the subtree well-formed and
leaves the root node's key, depth and own slot index unchanged. -/
theorem insertNodeAt_item_wf {e r : Bool} {m : Node} {it : Item} {q : Nat}
    (hwm : wfNode e r m = true) (hb : bytesOk it.key = true)
    (hagr : nibAgree it.key m.key m.qlen = true)
    (hcase :
      (q = m.qlen ∧ m.branch (get_qpos it.key m.qlen) = none ∧
        m.qlen < 2 * it.key.length) ∨
      (∃ C, m.branch (get_qpos it.key m.qlen) = some C ∧ m.qlen < q ∧
        q < C.qlen ∧ nibAgree it.key C.key q = true ∧
        q ≤ 2 * it.key.length ∧
        (q < 2 * it.key.length →
          get_qpos it.key q ≠ get_qpos C.key q))) :
    wfNode e r (updateAt (insertNodeAt it.key it.key.length m q).1
      (insertNodeAt it.key it.key.length m q).2
      (fun x => (x.setItem (some it)).setKey it.key)) = true ∧
    (updateAt (insertNodeAt it.key it.key.length m q).1
      (insertNodeAt it.key it.key.length m q).2
      (fun x => (x.setItem (some it)).setKey it.key)).qlen = m.qlen ∧
    (updateAt (insertNodeAt it.key it.key.length m q).1
      (insertNodeAt it.key it.key.length m q).2
      (fun x => (x.setItem (some it)).setKey it.key)).key = m.key ∧
    (updateAt (insertNodeAt it.key it.key.length m q).1
      (insertNodeAt it.key it.key.length m q).2
      (fun x => (x.setItem (some it)).setKey it.key)).br_own = m.br_own
    := by
  have hlen := wfN_len hwm
  have hbrix : get_qpos it.key m.qlen < 16 := get_qpos_lt16 hb _
  have hsh : it.key.length <<< 1 = 2 * it.key.length := by
    rw [Nat.shiftLeft_eq]
    omega
  rcases hcase with ⟨hqq, hnone, hlt⟩ |
    ⟨C, hsome, hmq, hqC, hagrC, hqle, hdiv⟩
  · -- empty slot: hang a fresh leaf and give it the item
    have hred : insertNodeAt it.key it.key.length m q
        = (addLeafTo m (get_qpos it.key m.qlen) it.key.length,
           [get_qpos it.key m.qlen]) := by
      simp only [insertNodeAt]
      rw [hnone]
    rw [hred]
    refine ⟨addLeaf_item_wf hwm hb hnone hagr hlt, ?_, ?_, ?_⟩
    · rw [(updateAt_cons_fields _ _ _ _).2.2.1, addLeafTo_qlen]
    · rw [(updateAt_cons_fields _ _ _ _).2.1, addLeafTo_key]
    · rw [(updateAt_cons_fields _ _ _ _).2.2.2, addLeafTo_br_own]
  · have hwC : wfNode e false C = true := (wfN_branch hwm hsome).2.2.2.2
    by_cases hq2 : q = it.key.length <<< 1
    · -- split at the query's full depth: the interim node takes the item
      have hred : insertNodeAt it.key it.key.length m q
          = (m.setBranch (get_qpos it.key m.qlen)
              (some (Node.mk none C.key q (get_qpos it.key m.qlen)
                (get_qpos C.key q) (get_qpos C.key q)
                (emptyBranches.set (get_qpos C.key q)
                  (some (C.setBrOwn (get_qpos C.key q)))))),
             [get_qpos it.key m.qlen]) := by
        simp only [insertNodeAt]
        rw [hsome]
        simp only [if_pos hq2]
      rw [hred]
      have hb1 : (m.setBranch (get_qpos it.key m.qlen)
          (some (Node.mk none C.key q (get_qpos it.key m.qlen)
            (get_qpos C.key q) (get_qpos C.key q)
            (emptyBranches.set (get_qpos C.key q)
              (some (C.setBrOwn (get_qpos C.key q))))))).branch
          (get_qpos it.key m.qlen)
          = some (Node.mk none C.key q (get_qpos it.key m.qlen)
              (get_qpos C.key q) (get_qpos C.key q)
              (emptyBranches.set (get_qpos C.key q)
                (some (C.setBrOwn (get_qpos C.key q))))) :=
        branch_setBranch_self (by rw [hlen]; exact hbrix) _
      refine ⟨?_, ?_, ?_, ?_⟩
      · rw [updateAt_single hb1, setBranch_setBranch]
        refine child_replace_wf hwm hsome
          (split_interim_item_wf hwC rfl hb hqC hagrC (by omega))
          ?_ ?_ ?_ ?_
        · rw [setKey_qlen, setItem_qlen]
          exact hmq
        · rw [setKey_key]
          exact hagr
        · rw [setKey_key]
        · rw [setKey_br_own, setItem_br_own]
          show get_qpos it.key m.qlen % 16 = get_qpos it.key m.qlen
          exact Nat.mod_eq_of_lt hbrix
      · rw [(updateAt_cons_fields _ _ _ _).2.2.1, setBranch_qlen]
      · rw [(updateAt_cons_fields _ _ _ _).2.1, setBranch_key]
      · rw [(updateAt_cons_fields _ _ _ _).2.2.2, setBranch_br_own]
    · -- split inside the key: interim node over occupant and fresh leaf
      have hne2 : q ≠ 2 * it.key.length := by
        rw [← hsh]
        exact hq2
      have hql : q < 2 * it.key.length := by omega
      have hred : insertNodeAt it.key it.key.length m q
          = (m.setBranch (get_qpos it.key m.qlen)
              (some (addLeafTo (Node.mk none C.key q
                (get_qpos it.key m.qlen)
                (get_qpos C.key q) (get_qpos C.key q)
                (emptyBranches.set (get_qpos C.key q)
                  (some (C.setBrOwn (get_qpos C.key q)))))
                (get_qpos it.key q) it.key.length)),
             [get_qpos it.key m.qlen, get_qpos it.key q]) := by
        simp only [insertNodeAt]
        rw [hsome]
        simp only [if_neg hq2]
      rw [hred]
      have hb1 : (m.setBranch (get_qpos it.key m.qlen)
          (some (addLeafTo (Node.mk none C.key q
            (get_qpos it.key m.qlen)
            (get_qpos C.key q) (get_qpos C.key q)
            (emptyBranches.set (get_qpos C.key q)
              (some (C.setBrOwn (get_qpos C.key q)))))
            (get_qpos it.key q) it.key.length))).branch
          (get_qpos it.key m.qlen)
          = some (addLeafTo (Node.mk none C.key q
              (get_qpos it.key m.qlen)
              (get_qpos C.key q) (get_qpos C.key q)
              (emptyBranches.set (get_qpos C.key q)
                (some (C.setBrOwn (get_qpos C.key q)))))
              (get_qpos it.key q) it.key.length) :=
        branch_setBranch_self (by rw [hlen]; exact hbrix) _
      refine ⟨?_, ?_, ?_, ?_⟩
      · have hsp : ([get_qpos it.key m.qlen, get_qpos it.key q] : Path)
            = [get_qpos it.key m.qlen] ++ [get_qpos it.key q] := rfl
        rw [hsp, updateAt_append, updateAt_single hb1,
          setBranch_setBranch]
        refine child_replace_wf hwm hsome
          (split_interim_leaf_wf hwC rfl hb hqC hagrC (hdiv hql) hql)
          ?_ ?_ ?_ ?_
        · rw [(updateAt_cons_fields _ _ _ _).2.2.1, addLeafTo_qlen]
          exact hmq
        · rw [(updateAt_cons_fields _ _ _ _).2.1, addLeafTo_key]
          exact (wfN_branch hwm hsome).2.1
        · rw [(updateAt_cons_fields _ _ _ _).2.1, addLeafTo_key]
          exact (wfN_branch hwm hsome).2.2.1
        · rw [(updateAt_cons_fields _ _ _ _).2.2.2, addLeafTo_br_own]
          show get_qpos it.key m.qlen % 16 = get_qpos it.key m.qlen
          exact Nat.mod_eq_of_lt hbrix
      · rw [(updateAt_cons_fields _ _ _ _).2.2.1, setBranch_qlen]
      · rw [(updateAt_cons_fields _ _ _ _).2.1, setBranch_key]
      · rw [(updateAt_cons_fields _ _ _ _).2.2.2, setBranch_br_own]

/-- Installing an item with `insert_item` at a node whose path agrees with
the key keeps the tree well-formed (in exact mode the node must sit at the
key's full depth). -/
theorem insert_item_wf {e : Bool} {t : Node} {it : Item} {p : Path}
    {m : Node}
    (hw : wfNode e true t = true) (hb : bytesOk it.key = true)
    (hg : getN t p = some m)
    (hagr : nibAgree it.key m.key m.qlen = true)
    (hql : m.qlen ≤ 2 * it.key.length)
    (hqe : e = true → m.qlen = 2 * it.key.length) :
    wfNode e true (insert_item t p it) = true := by
  unfold insert_item
  rw [updateAt_congr _ hg]
  exact wf_updateAt hw hg
    (wf_itemize (getN_wf_flavor hw hg) hb hagr hql hqe)
    (le_of_eq (by rw [setKey_qlen, setItem_qlen]))
    (by rw [setKey_br_own, setItem_br_own])
    (by rw [setKey_key]; exact hagr)

/-- The miss handler of `trie::insert` — `insert_node` followed by
`insert_item` at the reported position — keeps the tree well-formed. -/
theorem insert_node_item_wf {e : Bool} {t : Node} {it : Item} {p : Path}
    {q : Nat}
    (hwt : wfNode e true t = true) (hb : bytesOk it.key = true)
    (hmiss : TraceMissOK t it.key p q) :
    wfNode e true (insert_item (insert_node it.key it.key.length t p q).1
      (insert_node it.key it.key.length t p q).2 it) = true := by
  obtain ⟨m, hg, hagr, hcase⟩ := hmiss
  have hred : insert_node it.key it.key.length t p q
      = (updateAt t p (fun _ => (insertNodeAt it.key it.key.length m q).1),
         p ++ (insertNodeAt it.key it.key.length m q).2) := by
    simp only [insert_node, hg]
  rw [hred]
  unfold insert_item
  rw [updateAt_append, updateAt_updateAt]
  have hins := insertNodeAt_item_wf (r := if p = [] then true else false)
    (getN_wf_flavor hwt hg) hb hagr hcase
  exact wf_updateAt hwt hg hins.1 (le_of_eq hins.2.1.symm) hins.2.2.2
    (by rw [hins.2.2.1]; exact nibAgree_refl _ _)

/-- `trie::insert(item)` preserves well-formedness. -/
theorem insert_wf {e : Bool} {t : Node} {it : Item}
    (hw : wfNode e true t = true) (hb : bytesOk it.key = true) :
    wfNode e true (insert t it).1 = true := by
  cases htr : trace false t it.key with
  | pos p q2 mtch =>
    rcases (trace_strict_spec hw hb).1 p q2 mtch htr with
      ⟨hq2, M, hg, hMq, hagrM, hmtch⟩
    cases mtch with
    | true =>
      simp only [insert, htr, if_true]
      exact hw
    | false =>
      simp only [insert, htr, Bool.false_eq_true, if_false]
      exact insert_item_wf hw hb hg (by rw [hMq]; exact hagrM)
        (le_of_eq hMq) (fun _ => hMq)
  | miss p q =>
    simp only [insert]
    rw [htr]
    exact insert_node_item_wf hw hb ((trace_strict_spec hw hb).2 p q htr)

/-- `trie::insert(item, pos)` at the position reported by `lower_bound`
for the item's own key preserves weak well-formedness (the equal-depth
skip path may store a key longer than its node's depth, which is exactly
what `wwf` permits). -/
theorem insertAtPos_lb_wwf {t t' : Node} {it : Item} {p : Path}
    (hw : wfNode false true t = true) (hb : bytesOk it.key = true)
    (hok : insertAtPos t it (lower_bound t it.key) = .ok (t', p)) :
    wfNode false true t' = true := by
  cases htr : trace false t it.key with
  | pos p0 q2 mtch =>
    have hlb : lower_bound t it.key = ⟨p0, q2, mtch⟩ := by
      unfold lower_bound
      rw [htr]
      rfl
    rw [hlb] at hok
    rcases (trace_strict_spec hw hb).1 p0 q2 mtch htr with
      ⟨hq2, M, hg, hMq, hagrM, hmtch⟩
    cases mtch with
    | true => simp [insertAtPos] at hok
    | false =>
      have heq : q2 = M.qlen := by rw [hq2, hMq]
      have hred : insertAtPos t it ⟨p0, q2, false⟩
          = .ok (insert_item t p0 it, p0) := by
        simp [insertAtPos, hg, heq]
      rw [hred] at hok
      simp only [Except.ok.injEq, Prod.mk.injEq] at hok
      rw [← hok.1]
      exact insert_item_wf hw hb hg (by rw [hMq]; exact hagrM)
        (le_of_eq hMq) (fun h => absurd h (by decide))
  | miss p0 q =>
    have hlb : lower_bound t it.key = ⟨p0, q, false⟩ := by
      unfold lower_bound
      rw [htr]
      rfl
    rw [hlb] at hok
    rcases (trace_strict_spec hw hb).2 p0 q htr with ⟨m, hg, hagr, hc⟩
    rcases hc with ⟨hqq, hnone, hlt⟩ |
      ⟨C, hsome, hmq, hqC, hagrC, hqle, hdiv⟩
    · -- the held depth equals the node's: the item lands right here
      have hred : insertAtPos t it ⟨p0, q, false⟩
          = .ok (insert_item t p0 it, p0) := by
        simp [insertAtPos, hg, hqq]
      rw [hred] at hok
      simp only [Except.ok.injEq, Prod.mk.injEq] at hok
      rw [← hok.1]
      exact insert_item_wf hw hb hg hagr (by omega)
        (fun h => absurd h (by decide))
    · -- differing depth: this is the ordinary insert_node path
      have hqne : q ≠ m.qlen := by omega
      have hred : insertAtPos t it ⟨p0, q, false⟩
          = .ok (insert_item (insert_node it.key it.key.length t p0 q).1
              (insert_node it.key it.key.length t p0 q).2 it,
              (insert_node it.key it.key.length t p0 q).2) := by
        simp [insertAtPos, hg, hqne]
      rw [hred] at hok
      simp only [Except.ok.injEq, Prod.mk.injEq] at hok
      rw [← hok.1]
      exact insert_node_item_wf hw hb
        ⟨m, hg, hagr, Or.inr ⟨C, hsome, hmq, hqC, hagrC, hqle, hdiv⟩⟩

/-- The fresh trie is well-formed. -/
theorem wf_emptyTrie : wf emptyTrie = true := by decide

/-- Every state reachable by `insert`/`erase` is well-formed. -/
theorem reachable_wf {t : Node} (h : Reachable t) : wf t = true := by
  induction h with
  | empty => exact wf_emptyTrie
  | insert t it h hb ih => exact insert_wf ih hb
  | erase t iter t' it' h hok ih => exact erase_wf ih hok

/-- Every state reachable by the full mutator set (including `insert_at`
on a `lower_bound` position) is weakly well-formed. -/
theorem reachableX_wwf {t : Node} (h : ReachableX t) : wwf t = true := by
  induction h with
  | empty => exact (by decide : wwf emptyTrie = true)
  | insert t it h hb ih => exact insert_wf ih hb
  | insertAt t it t' p h hb hok ih => exact insertAtPos_lb_wwf ih hb hok
  | erase t iter t' it' h hok ih => exact erase_wf ih hok

/-- A non-empty entry list below any occupied branch slot. -/
theorem entriesBr_ne_nil {c : Node} (hc : entriesOf c ≠ []) :
    ∀ (l : List (Option Node)) (i : Nat), l.getD i none = some c →
      entriesBr l ≠ [] := by
  intro l
  induction l with
  | nil => intro i hg; simp [List.getD] at hg
  | cons a l ih =>
    intro i hg
    cases i with
    | zero =>
      simp only [List.getD_cons_zero] at hg
      subst hg
      show entriesOf c ++ entriesBr l ≠ []
      simp [hc]
    | succ i' =>
      simp only [List.getD_cons_succ] at hg
      cases a with
      | none => exact ih i' hg
      | some b =>
        show entriesOf b ++ entriesBr l ≠ []
        have := ih i' hg
        intro hnil
        rw [List.append_eq_nil] at hnil
        exact this hnil.2

/-- A node with an occupied branch slot has entries. -/
theorem entriesOf_ne_nil_of_occ {e r : Bool} {n : Node} {i : Nat} {c : Node}
    (hw : wfNode e r n = true) (hb : n.branch i = some c) :
    entriesOf n ≠ [] := by
  have hwc : wfNode e false c = true := (wfN_branch hw hb).2.2.2.2
  have hc : entriesOf c ≠ [] := entries_nonempty c.size c (le_refl _) hwc
  have hbr : entriesBr n.branches ≠ [] := entriesBr_ne_nil hc n.branches i hb
  cases n with
  | mk it k q bo b1 bl br =>
    show (match (Node.mk it k q bo b1 bl br).item with
      | some it2 => [it2] | none => []) ++ entriesBr br ≠ []
    intro hnil
    rw [List.append_eq_nil] at hnil
    exact hbr hnil.2

/-- An entry-less well-formed tree has no occupied branch slot at all and
carries the leaf encoding. -/
theorem empty_entries_all_branches_none {e r : Bool} {t : Node}
    (hw : wfNode e r t = true) (hnil : entriesOf t = []) :
    (∀ i, t.branch i = none) ∧ t.br_last < t.br_1st := by
  have hnone : ∀ i, t.branch i = none := by
    intro i
    cases hb : t.branch i with
    | none => rfl
    | some c => exact absurd hnil (entriesOf_ne_nil_of_occ hw hb)
  have hocc : occSlots t = [] := by
    rw [List.eq_nil_iff_forall_not_mem]
    intro i hi
    rw [occSlots_mem] at hi
    rw [hnone i] at hi
    cases hi.2
  have hl := (wfN_leaf_iff hw).mpr hocc
  simp only [Node.is_leaf, decide_eq_true_eq] at hl
  exact ⟨hnone, hl⟩

/-- The high nibble of byte `i`. -/
theorem get_qpos_hi (k : List Nat) (i : Nat) :
    get_qpos k (2 * i) = k.getD i 0 / 16 := by
  simp only [get_qpos]
  rw [if_neg (by omega)]
  rw [show 2 * i / 2 = i from by omega]

/-- The low nibble of byte `i`. -/
theorem get_qpos_lo (k : List Nat) (i : Nat) :
    get_qpos k (2 * i + 1) = k.getD i 0 % 16 := by
  simp only [get_qpos]
  rw [if_pos (by omega)]
  rw [show (2 * i + 1) / 2 = i from by omega]

/-- Two byte strings of equal length that agree on every nibble are
equal. -/
theorem nibAgree_full_eq {k1 k2 : List Nat} (hb1 : bytesOk k1 = true)
    (hb2 : bytesOk k2 = true) (hlen : k1.length = k2.length)
    (ha : nibAgree k1 k2 (2 * k1.length) = true) : k1 = k2 := by
  rw [nibAgree_iff] at ha
  apply List.ext_getElem hlen
  intro i h1 h2
  have hd := ha (2 * i) (by omega)
  have hm := ha (2 * i + 1) (by omega)
  rw [get_qpos_hi, get_qpos_hi] at hd
  rw [get_qpos_lo, get_qpos_lo] at hm
  rw [List.getD_eq_getElem _ _ h1, List.getD_eq_getElem _ _ h2] at hd hm
  omega

/-- The node reached by a non-empty relative path lies strictly deeper
than the subtree root, agrees with it on the root's nibble prefix, and is
reached through the branch slot its own key selects at the root's
depth. -/
theorem getN_chain {e : Bool} :
    ∀ {rel : Path} {n M : Node} {r : Bool}, wfNode e r n = true →
      getN n rel = some M →
      nibAgree M.key n.key n.qlen = true ∧ n.qlen ≤ M.qlen ∧
      (∀ i rel', rel = i :: rel' →
        i = get_qpos M.key n.qlen ∧ n.qlen < M.qlen ∧
        ∃ c, n.branch i = some c ∧ wfNode e false c = true ∧
          getN c rel' = some M) := by
  intro rel
  induction rel with
  | nil =>
    intro n M r hw hg
    simp only [getN] at hg
    cases hg
    exact ⟨nibAgree_refl _ _, le_refl _, fun i rel' h => by cases h⟩
  | cons i rel ih =>
    intro n M r hw hg
    simp only [getN] at hg
    cases hb : n.branch i with
    | none => rw [hb] at hg; cases hg
    | some c =>
      rw [hb] at hg
      have hfacts := wfN_branch hw hb
      have hwc := hfacts.2.2.2.2
      have hrec := ih hwc hg
      have hqnc : n.qlen < c.qlen := hfacts.1
      have haMn : nibAgree M.key n.key n.qlen = true :=
        nibAgree_trans (nibAgree_mono (le_of_lt hqnc) hrec.1) hfacts.2.1
      have hslot : i = get_qpos M.key n.qlen := by
        rw [← hfacts.2.2.1]
        exact ((nibAgree_iff.mp hrec.1) n.qlen hqnc).symm
      have hq : n.qlen ≤ M.qlen := by
        have := hrec.2.1
        omega
      refine ⟨haMn, hq, ?_⟩
      intro i2 rel2 he
      cases he
      refine ⟨hslot, by have := hrec.2.1; omega, c, hb, hwc, hg⟩

/-- In a well-formed subtree the node matching a key prefix at a given
depth is unique, path included: two nodes of equal depth whose keys both
agree with `k` on their whole depth coincide. -/
theorem chain_unique {e : Bool} {k : List Nat} :
    ∀ {r1 r2 : Path} {n m1 m2 : Node} {rb : Bool},
      wfNode e rb n = true →
      getN n r1 = some m1 → getN n r2 = some m2 →
      nibAgree k m1.key m1.qlen = true →
      nibAgree k m2.key m2.qlen = true →
      m1.qlen = m2.qlen →
      r1 = r2 ∧ m1 = m2 := by
  intro r1
  induction r1 with
  | nil =>
    intro r2 n m1 m2 rb hw hg1 hg2 ha1 ha2 hq
    simp only [getN] at hg1
    cases hg1
    cases r2 with
    | nil =>
      simp only [getN] at hg2
      cases hg2
      exact ⟨rfl, rfl⟩
    | cons j r2' =>
      exfalso
      have h2 := ((getN_chain hw hg2).2.2 j r2' rfl).2.1
      omega
  | cons i r1' ih =>
    intro r2 n m1 m2 rb hw hg1 hg2 ha1 ha2 hq
    cases r2 with
    | nil =>
      exfalso
      simp only [getN] at hg2
      cases hg2
      have h1 := ((getN_chain hw hg1).2.2 i r1' rfl).2.1
      omega
    | cons j r2' =>
      obtain ⟨hi, hlt1, c1, hb1, hwc1, hgc1⟩ :=
        (getN_chain hw hg1).2.2 i r1' rfl
      obtain ⟨hj, hlt2, c2, hb2, hwc2, hgc2⟩ :=
        (getN_chain hw hg2).2.2 j r2' rfl
      have hik : i = get_qpos k n.qlen := by
        rw [hi]
        exact ((nibAgree_iff.mp ha1) n.qlen (by omega)).symm
      have hjk : j = get_qpos k n.qlen := by
        rw [hj]
        exact ((nibAgree_iff.mp ha2) n.qlen (by omega)).symm
      have hij : j = i := by rw [hik, hjk]
      subst hij
      rw [hb1] at hb2
      cases hb2
      have := ih hwc1 hgc1 hgc2 ha1 ha2 hq
      exact ⟨by rw [this.1], this.2⟩

/-- A strict-trace miss is impossible for a key that has a full-depth
node in the tree: the miss node would have to be a proper ancestor of
that node along the key's own slot chain, where neither an empty slot nor
a diverging occupant can occur. -/
theorem present_no_miss {e : Bool} {k : List Nat} :
    ∀ {p1 p2 : Path} {n m M : Node} {rb : Bool} {q : Nat},
      wfNode e rb n = true →
      getN n p1 = some m → getN n p2 = some M →
      M.key = k → M.qlen = 2 * k.length →
      nibAgree k m.key m.qlen = true →
      ((q = m.qlen ∧ m.branch (get_qpos k m.qlen) = none ∧
        m.qlen < 2 * k.length) ∨
       (∃ C, m.branch (get_qpos k m.qlen) = some C ∧ m.qlen < q ∧
         q < C.qlen ∧ nibAgree k C.key q = true ∧ q ≤ 2 * k.length ∧
         (q < 2 * k.length → get_qpos k q ≠ get_qpos C.key q))) →
      False := by
  intro p1
  induction p1 with
  | nil =>
    intro p2 n m M rb q hw hg1 hg2 hMk hMq ham hmiss
    simp only [getN] at hg1
    cases hg1
    cases p2 with
    | nil =>
      simp only [getN] at hg2
      cases hg2
      rcases hmiss with ⟨h1, h2, h3⟩ | ⟨C, h1, h2, h3, h4, h5, h6⟩
      · omega
      · omega
    | cons j p2' =>
      obtain ⟨hj, hlt, c, hbc, hwc, hgc⟩ :=
        (getN_chain hw hg2).2.2 j p2' rfl
      rw [hMk] at hj
      rcases hmiss with ⟨h1, hnone, h3⟩ | ⟨C, hC, h2, h3, h4, h5, h6⟩
      · rw [← hj, hbc] at hnone
        cases hnone
      · rw [← hj, hbc] at hC
        cases hC
        have hch := getN_chain hwc hgc
        have hcq : c.qlen ≤ M.qlen := hch.2.1
        have hq2 : q < 2 * k.length := by omega
        refine h6 hq2 ?_
        have := nibAgree_iff.mp hch.1 q (by omega)
        rw [hMk] at this
        exact this
  | cons i p1' ih =>
    intro p2 n m M rb q hw hg1 hg2 hMk hMq ham hmiss
    obtain ⟨hi, hlt1, c1, hb1, hwc1, hgc1⟩ :=
      (getN_chain hw hg1).2.2 i p1' rfl
    cases p2 with
    | nil =>
      simp only [getN] at hg2
      cases hg2
      rcases hmiss with ⟨h1, h2, h3⟩ | ⟨C, h1, h2, h3, h4, h5, h6⟩
      · omega
      · omega
    | cons j p2' =>
      obtain ⟨hj, hlt2, c2, hb2, hwc2, hgc2⟩ :=
        (getN_chain hw hg2).2.2 j p2' rfl
      have hik : i = get_qpos k n.qlen := by
        rw [hi]
        exact ((nibAgree_iff.mp ham) n.qlen (by omega)).symm
      have hjk : j = get_qpos k n.qlen := by
        rw [hj, hMk]
      have hij : j = i := by rw [hik, hjk]
      subst hij
      rw [hb1] at hb2
      cases hb2
      exact ih hwc1 hgc1 hgc2 hMk hMq ham hmiss

/-- Strict-trace completeness: a key stored at its full depth is found,
at its own node, with the match flag set. -/
theorem find_present {e : Bool} {t M : Node} {pM : Path} {it : Item}
    (hw : wfNode e true t = true) (hb : bytesOk it.key = true)
    (hg : getN t pM = some M) (hit : M.item = some it)
    (hqM : M.qlen = 2 * it.key.length) :
    ∃ p, trace false t it.key = .pos p (2 * it.key.length) true ∧
      getN t p = some M := by
  have hwM := getN_wf_flavor hw hg
  have hMk : M.key = it.key := (wfN_item hwM hit).1
  cases htr : trace false t it.key with
  | miss p q =>
    exfalso
    obtain ⟨m, hgm, ham, hcase⟩ := (trace_strict_spec hw hb).2 p q htr
    exact present_no_miss hw hgm hg hMk hqM ham hcase
  | pos p q2 mtch =>
    obtain ⟨hq2, M2, hg2, hM2q, haM2, hm2⟩ :=
      (trace_strict_spec hw hb).1 p q2 mtch htr
    have hanM : nibAgree it.key M.key M.qlen = true := by
      rw [hMk]
      exact nibAgree_refl _ _
    have haM2' : nibAgree it.key M2.key M2.qlen = true := by
      rw [hM2q]
      exact haM2
    obtain ⟨hpp, hMM⟩ := chain_unique hw hg2 hg haM2' hanM (by omega)
    subst hMM
    have hmt : mtch = true := by
      rw [hm2, hit]
      rfl
    subst hmt
    exact ⟨p, by rw [hq2], hg2⟩

/-- `find` (strict) on a key stored at full depth returns the iterator at
that entry's node. -/
theorem find_hits {e : Bool} {t M : Node} {pM : Path} {it : Item}
    (hw : wfNode e true t = true) (hb : bytesOk it.key = true)
    (hg : getN t pM = some M) (hit : M.item = some it)
    (hqM : M.qlen = 2 * it.key.length) :
    ∃ p, find false t it.key = some p ∧ getN t p = some M := by
  obtain ⟨p, htr, hgp⟩ := find_present hw hb hg hit hqM
  refine ⟨p, ?_, hgp⟩
  unfold find
  rw [htr]
  rfl

/-- Soundness of a strict `find` success on an exactly well-formed tree:
the returned iterator points at a node holding an entry whose key is the
query key. -/
theorem find_some_present {t : Node} {k : List Nat} {p : Path}
    (hw : wfNode true true t = true) (hb : bytesOk k = true)
    (hf : find false t k = some p) :
    ∃ M it, getN t p = some M ∧ M.item = some it ∧ it.key = k ∧
      M.qlen = 2 * k.length := by
  cases htr : trace false t k with
  | miss p0 q =>
    exfalso
    unfold find at hf
    rw [htr] at hf
    cases hf
  | pos p0 q2 mtch =>
    obtain ⟨hq2, M, hg, hMq, haM, hm⟩ :=
      (trace_strict_spec hw hb).1 p0 q2 mtch htr
    unfold find at hf
    rw [htr] at hf
    cases mtch with
    | false => cases hf
    | true =>
      have hp : p0 = p := by
        simpa [searchPos] using hf
      subst hp
      have hsome : M.item.isSome = true := hm.symm
      obtain ⟨it, hit⟩ := Option.isSome_iff_exists.mp hsome
      have hwM := getN_wf_flavor hw hg
      have hMk : M.key = it.key := (wfN_item hwM hit).1
      have hqit : M.qlen = 2 * it.key.length :=
        (wfN_item hwM hit).2.2.2 rfl
      have hbit : bytesOk it.key = true := (wfN_item hwM hit).2.1
      have hkeq : it.key = k := by
        have hlen : k.length = it.key.length := by omega
        have ha2 : nibAgree k it.key (2 * k.length) = true := by
          rw [← hMk]
          exact haM
        exact (nibAgree_full_eq hb hbit hlen ha2).symm
      exact ⟨M, it, hg, hit, hkeq, hMq⟩

/-- Updating along a path rewrites exactly the addressed node. -/
theorem getN_updateAt_point : ∀ {p : Path} {t n : Node} (f : Node → Node),
    getN t p = some n → getN (updateAt t p f) p = some (f n) := by
  intro p
  induction p with
  | nil =>
    intro t n f hg
    simp only [getN] at hg
    cases hg
    rfl
  | cons i p' ih =>
    intro t n f hg
    simp only [getN] at hg
    cases hb : t.branch i with
    | none => rw [hb] at hg; cases hg
    | some c =>
      rw [hb] at hg
      have hilt : i < t.branches.length := by
        by_contra hge
        rw [Node.branch, List.getD_eq_default _ _ (by omega)] at hb
        cases hb
      have hb2 : (t.setBranch i (some (updateAt c p' f))).branch i
          = some (updateAt c p' f) := branch_setBranch_self hilt _
      simp only [updateAt, hb, getN, hb2]
      exact ih f hg

/-- The node `insert_node` designates for the item sits at the full
depth of the key. -/
theorem insertNodeAt_target {e r : Bool} {m : Node} {it : Item} {q : Nat}
    (hwm : wfNode e r m = true) (hb : bytesOk it.key = true)
    (hcase :
      (q = m.qlen ∧ m.branch (get_qpos it.key m.qlen) = none ∧
        m.qlen < 2 * it.key.length) ∨
      (∃ C, m.branch (get_qpos it.key m.qlen) = some C ∧ m.qlen < q ∧
        q < C.qlen ∧ nibAgree it.key C.key q = true ∧
        q ≤ 2 * it.key.length ∧
        (q < 2 * it.key.length →
          get_qpos it.key q ≠ get_qpos C.key q))) :
    ∃ X, getN (insertNodeAt it.key it.key.length m q).1
        (insertNodeAt it.key it.key.length m q).2 = some X ∧
      X.qlen = 2 * it.key.length := by
  have hlen := wfN_len hwm
  have hbrix : get_qpos it.key m.qlen < 16 := get_qpos_lt16 hb _
  have hsh : it.key.length <<< 1 = 2 * it.key.length := by
    rw [Nat.shiftLeft_eq]
    omega
  rcases hcase with ⟨hqq, hnone, hlt⟩ |
    ⟨C, hsome, hmq, hqC, hagrC, hqle, hdiv⟩
  · have hred : insertNodeAt it.key it.key.length m q
        = (addLeafTo m (get_qpos it.key m.qlen) it.key.length,
           [get_qpos it.key m.qlen]) := by
      simp only [insertNodeAt]
      rw [hnone]
    rw [hred]
    have hALbr : (addLeafTo m (get_qpos it.key m.qlen)
        it.key.length).branch (get_qpos it.key m.qlen)
        = some (Node.mk none [] (it.key.length <<< 1)
            (get_qpos it.key m.qlen) 1 0 emptyBranches) := by
      rw [branch_eq_getD, addLeafTo_branches]
      exact getD_set_self (by rw [hlen]; exact hbrix) _
    refine ⟨Node.mk none [] (it.key.length <<< 1)
      (get_qpos it.key m.qlen) 1 0 emptyBranches, ?_, ?_⟩
    · simp only [getN, hALbr]
    · show it.key.length <<< 1 = 2 * it.key.length
      exact hsh
  · by_cases hq2 : q = it.key.length <<< 1
    · have hred : insertNodeAt it.key it.key.length m q
          = (m.setBranch (get_qpos it.key m.qlen)
              (some (Node.mk none C.key q (get_qpos it.key m.qlen)
                (get_qpos C.key q) (get_qpos C.key q)
                (emptyBranches.set (get_qpos C.key q)
                  (some (C.setBrOwn (get_qpos C.key q)))))),
             [get_qpos it.key m.qlen]) := by
        simp only [insertNodeAt]
        rw [hsome]
        simp only [if_pos hq2]
      rw [hred]
      have g1 : (m.setBranch (get_qpos it.key m.qlen)
          (some (Node.mk none C.key q (get_qpos it.key m.qlen)
            (get_qpos C.key q) (get_qpos C.key q)
            (emptyBranches.set (get_qpos C.key q)
              (some (C.setBrOwn (get_qpos C.key q))))))).branch
            (get_qpos it.key m.qlen)
          = some (Node.mk none C.key q (get_qpos it.key m.qlen)
              (get_qpos C.key q) (get_qpos C.key q)
              (emptyBranches.set (get_qpos C.key q)
                (some (C.setBrOwn (get_qpos C.key q))))) :=
        branch_setBranch_self (by rw [hlen]; exact hbrix) _
      refine ⟨Node.mk none C.key q (get_qpos it.key m.qlen)
        (get_qpos C.key q) (get_qpos C.key q)
        (emptyBranches.set (get_qpos C.key q)
          (some (C.setBrOwn (get_qpos C.key q)))), ?_, ?_⟩
      · simp only [getN, g1]
      · show q = 2 * it.key.length
        omega
    · have hred : insertNodeAt it.key it.key.length m q
          = (m.setBranch (get_qpos it.key m.qlen)
              (some (addLeafTo (Node.mk none C.key q
                (get_qpos it.key m.qlen)
                (get_qpos C.key q) (get_qpos C.key q)
                (emptyBranches.set (get_qpos C.key q)
                  (some (C.setBrOwn (get_qpos C.key q)))))
                (get_qpos it.key q) it.key.length)),
             [get_qpos it.key m.qlen, get_qpos it.key q]) := by
        simp only [insertNodeAt]
        rw [hsome]
        simp only [if_neg hq2]
      rw [hred]
      have hj2 : get_qpos it.key q < 16 := get_qpos_lt16 hb q
      have g1 : (m.setBranch (get_qpos it.key m.qlen)
          (some (addLeafTo (Node.mk none C.key q
            (get_qpos it.key m.qlen)
            (get_qpos C.key q) (get_qpos C.key q)
            (emptyBranches.set (get_qpos C.key q)
              (some (C.setBrOwn (get_qpos C.key q)))))
            (get_qpos it.key q) it.key.length))).branch
            (get_qpos it.key m.qlen)
          = some (addLeafTo (Node.mk none C.key q
              (get_qpos it.key m.qlen)
              (get_qpos C.key q) (get_qpos C.key q)
              (emptyBranches.set (get_qpos C.key q)
                (some (C.setBrOwn (get_qpos C.key q)))))
              (get_qpos it.key q) it.key.length) :=
        branch_setBranch_self (by rw [hlen]; exact hbrix) _
      have g2 : (addLeafTo (Node.mk none C.key q
          (get_qpos it.key m.qlen)
          (get_qpos C.key q) (get_qpos C.key q)
          (emptyBranches.set (get_qpos C.key q)
            (some (C.setBrOwn (get_qpos C.key q)))))
          (get_qpos it.key q) it.key.length).branch (get_qpos it.key q)
          = some (Node.mk none [] (it.key.length <<< 1)
              (get_qpos it.key q) 1 0 emptyBranches) := by
        rw [branch_eq_getD, addLeafTo_branches]
        exact getD_set_self (by
          show get_qpos it.key q <
            (emptyBranches.set (get_qpos C.key q)
              (some (C.setBrOwn (get_qpos C.key q)))).length
          rw [List.length_set, emptyBranches_length]
          exact hj2) _
      refine ⟨Node.mk none [] (it.key.length <<< 1)
        (get_qpos it.key q) 1 0 emptyBranches, ?_, ?_⟩
      · simp only [getN, g1, g2]
      · show it.key.length <<< 1 = 2 * it.key.length
        exact hsh

/-- After `insert`, either the tree was unchanged (existing match) or the
inserted entry is stored at a full-depth node. -/
theorem insert_self_present {e : Bool} {t : Node} {it : Item}
    (hw : wfNode e true t = true) (hb : bytesOk it.key = true) :
    (insert t it).1 = t ∨
    (∃ P X, getN (insert t it).1 P = some X ∧ X.item = some it ∧
      X.qlen = 2 * it.key.length) := by
  cases htr : trace false t it.key with
  | pos p q2 mtch =>
    rcases (trace_strict_spec hw hb).1 p q2 mtch htr with
      ⟨hq2, M, hg, hMq, haM, hm⟩
    cases mtch with
    | true =>
      left
      simp only [insert, htr, if_true]
    | false =>
      right
      have hred : (insert t it).1 = insert_item t p it := by
        simp only [insert, htr, Bool.false_eq_true, if_false]
      rw [hred]
      refine ⟨p, (M.setItem (some it)).setKey it.key, ?_, ?_, ?_⟩
      · unfold insert_item
        exact getN_updateAt_point _ hg
      · rw [setKey_item, setItem_item]
      · rw [setKey_qlen, setItem_qlen]
        exact hMq
  | miss p q =>
    right
    obtain ⟨m, hg, hagr, hcase⟩ := (trace_strict_spec hw hb).2 p q htr
    have hredN : insert_node it.key it.key.length t p q
        = (updateAt t p (fun _ => (insertNodeAt it.key it.key.length m q).1),
           p ++ (insertNodeAt it.key it.key.length m q).2) := by
      simp only [insert_node, hg]
    have hred : (insert t it).1
        = insert_item (insert_node it.key it.key.length t p q).1
            (insert_node it.key it.key.length t p q).2 it := by
      simp only [insert]
      rw [htr]
    rw [hred, hredN]
    obtain ⟨X, hgX, hXq⟩ := insertNodeAt_target
      (r := if p = [] then true else false) (getN_wf_flavor hw hg) hb hcase
    have h1 : getN (updateAt t p
        (fun _ => (insertNodeAt it.key it.key.length m q).1))
        (p ++ (insertNodeAt it.key it.key.length m q).2) = some X := by
      rw [getN_append]
      rw [getN_updateAt_point _ hg]
      exact hgX
    refine ⟨p ++ (insertNodeAt it.key it.key.length m q).2,
      (X.setItem (some it)).setKey it.key, ?_, ?_, ?_⟩
    · unfold insert_item
      exact getN_updateAt_point _ h1
    · rw [setKey_item, setItem_item]
    · rw [setKey_qlen, setItem_qlen]
      exact hXq

/-- `deref` on a non-end iterator observes the path. -/
theorem deref_eq_obs (t : Node) (p : Path) : deref t (some p) = obs t p := rfl

theorem obs_cons {t sub : Node} {j : Nat} (hb : t.branch j = some sub)
    (rest : Path) : obs t (j :: rest) = obs sub rest := by
  unfold obs
  simp only [getN, hb]

theorem obs_cons_none {t : Node} {j : Nat} (hb : t.branch j = none)
    (rest : Path) : obs t (j :: rest) = none := by
  unfold obs
  simp only [getN, hb]

theorem obs_append {t n : Node} {p : Path} (hg : getN t p = some n)
    (rel : Path) : obs t (p ++ rel) = obs n rel := by
  unfold obs
  rw [getN_append, hg]
  rfl

/-- Nodes that agree on item, key, depth and every branch slot observe
identically on every path. -/
theorem obs_congr {n m : Node} (hi : n.item = m.item) (hk : n.key = m.key)
    (hq : n.qlen = m.qlen) (hb : ∀ i, n.branch i = m.branch i) :
    ∀ rest, obs n rest = obs m rest := by
  intro rest
  cases rest with
  | nil =>
    unfold obs
    simp only [getN, hi, hk, hq]
  | cons j rest' =>
    cases hbj : m.branch j with
    | none => rw [obs_cons_none (by rw [hb j, hbj]) _, obs_cons_none hbj]
    | some sub => rw [obs_cons (by rw [hb j, hbj]) _, obs_cons hbj]

/-- At the empty path, only the node's own scalar fields matter. -/
theorem obs_congr_nil {n m : Node} (hi : n.item = m.item)
    (hk : n.key = m.key) (hq : n.qlen = m.qlen) :
    obs n [] = obs m [] := by
  unfold obs
  simp only [getN, hi, hk, hq]

/-- On a path that descends into slot `j`, only that slot matters. -/
theorem obs_congr_branch1 {n m : Node} {j : Nat}
    (hb : n.branch j = m.branch j) (rest : Path) :
    obs n (j :: rest) = obs m (j :: rest) := by
  cases hbj : m.branch j with
  | none => rw [obs_cons_none (by rw [hb, hbj]) _, obs_cons_none hbj]
  | some sub => rw [obs_cons (by rw [hb, hbj]) _, obs_cons hbj]

theorem getN_updateAt_below {t n : Node} {p : Path} (f : Node → Node)
    (hg : getN t p = some n) (rel : Path) :
    getN (updateAt t p f) (p ++ rel) = getN (f n) rel := by
  rw [getN_append, getN_updateAt_point f hg]
  rfl

/-- `updateAt` does not disturb the observation at any path the update
path is not a prefix of. -/
theorem obs_updateAt_off {f : Node → Node} :
    ∀ {p : Path} {t : Node} {p2 : Path}, ¬ p <+: p2 →
      obs (updateAt t p f) p2 = obs t p2 := by
  intro p
  induction p with
  | nil => intro t p2 hpre; exact absurd (List.nil_prefix) hpre
  | cons i p' ih =>
    intro t p2 hpre
    cases hb : t.branch i with
    | none =>
      show obs (match t.branch i with
        | some c => t.setBranch i (some (updateAt c p' f))
        | none => t) p2 = obs t p2
      rw [hb]
    | some c =>
      have hred : updateAt t (i :: p') f
          = t.setBranch i (some (updateAt c p' f)) := by
        show (match t.branch i with
          | some c => t.setBranch i (some (updateAt c p' f))
          | none => t) = _
        rw [hb]
      rw [hred]
      cases p2 with
      | nil =>
        unfold obs
        simp only [getN]
        rw [setBranch_item, setBranch_key, setBranch_qlen]
      | cons j p2' =>
        by_cases hij : j = i
        · subst hij
          have hnp : ¬ p' <+: p2' := by
            intro hcon
            exact hpre (List.cons_prefix_cons.mpr ⟨rfl, hcon⟩)
          by_cases hlt : j < t.branches.length
          · rw [obs_cons (branch_setBranch_self hlt _) _, obs_cons hb]
            exact ih hnp
          · rw [setBranch_branch_of_ge (by omega) _]
        · exact obs_congr_branch1
            (branch_setBranch_ne _ (fun h => hij h) _) p2'

/-- Clearing the item at a node clears exactly that observation. -/
theorem obs_updateAt_setItem_none {t n : Node} {p : Path}
    (hg : getN t p = some n) :
    ∀ p2, obs (updateAt t p (fun m => m.setItem none)) p2
      = if p2 = p then none else obs t p2 := by
  intro p2
  by_cases hp2 : p2 = p
  · subst hp2
    rw [if_pos rfl]
    unfold obs
    rw [getN_updateAt_point (fun m => m.setItem none) hg]
    simp only [setItem_item]
  · rw [if_neg hp2]
    by_cases hpre : p <+: p2
    · obtain ⟨rel, hrel⟩ := hpre
      subst hrel
      cases rel with
      | nil => simp at hp2
      | cons r rel' =>
        rw [obs_append (getN_updateAt_point (fun m => m.setItem none) hg) _,
          obs_append hg]
        exact obs_congr_branch1 (setItem_branch n none r) rel'
    · exact obs_updateAt_off hpre

/-- Re-pointing the borrowed key of an item-less node changes no
observation. -/
theorem obs_updateAt_setKey {t n : Node} {p : Path} {k : List Nat}
    (hg : getN t p = some n) (hni : n.item = none) :
    ∀ p2, obs (updateAt t p (fun m => m.setKey k)) p2 = obs t p2 := by
  intro p2
  by_cases hpre : p <+: p2
  · obtain ⟨rel, hrel⟩ := hpre
    subst hrel
    rw [obs_append (getN_updateAt_point (fun m => m.setKey k) hg) _,
      obs_append hg]
    cases rel with
    | nil =>
      unfold obs
      simp only [getN, setKey_item, hni]
    | cons r rel' =>
      exact obs_congr_branch1 (setKey_branch n k r) rel'
  · exact obs_updateAt_off hpre

/-- The re-borrowing walk changes no observation. -/
theorem obs_reborrowGoF (key : List Nat) :
    ∀ (fuel : Nat) (t : Node) (p p2 : Path),
      obs (reborrowGoF key fuel t p) p2 = obs t p2 := by
  intro fuel
  induction fuel with
  | zero => intro t p p2; rfl
  | succ fuel ih =>
    intro t p p2
    by_cases hp : p = []
    · show obs (if p = [] then t else _) p2 = obs t p2
      rw [if_pos hp]
    · cases hg : getN t p with
      | none =>
        show obs (if p = [] then t else match getN t p with
          | none => t
          | some nod => if nod.item.isSome then t
              else reborrowGoF key fuel
                (updateAt t p (fun n => n.setKey key)) (parentPath p)) p2
          = obs t p2
        rw [if_neg hp, hg]
      | some nod =>
        have hred : reborrowGoF key (fuel + 1) t p
            = if nod.item.isSome then t
              else reborrowGoF key fuel
                (updateAt t p (fun n => n.setKey key)) (parentPath p) := by
          show (if p = [] then t else match getN t p with
            | none => t
            | some nod => if nod.item.isSome then t
                else reborrowGoF key fuel
                  (updateAt t p (fun n => n.setKey key)) (parentPath p))
            = _
          rw [if_neg hp, hg]
        rw [hred]
        by_cases hni : nod.item.isSome = true
        · rw [if_pos hni]
        · rw [if_neg hni]
          rw [ih]
          exact obs_updateAt_setKey hg
            (Option.not_isSome_iff_eq_none.mp hni) p2

theorem obs_reborrowGo (t : Node) (p : Path) (key : List Nat) (p2 : Path) :
    obs (reborrowGo t p key) p2 = obs t p2 :=
  obs_reborrowGoF key _ t p p2

/-- Emptying a branch slot, cache restoration included: observations
under the freed slot disappear, everything else is untouched. -/
theorem obs_removeChild_stage {t par : Node} {P : Path} {j : Nat}
    (hg : getN t P = some par) :
    ∀ p2, obs (updateAt t P (fun m => removeChild m j)) p2
      = if (P ++ [j]) <+: p2 then none else obs t p2 := by
  intro p2
  by_cases hpre : P <+: p2
  · obtain ⟨rel, hrel⟩ := hpre
    subst hrel
    rw [obs_append (getN_updateAt_point (fun m => removeChild m j) hg) _,
      obs_append hg]
    cases rel with
    | nil =>
      rw [if_neg (by
        intro hcon
        have := hcon.length_le
        simp at this)]
      exact obs_congr_nil (removeChild_item par j) (removeChild_key par j)
        (removeChild_qlen par j)
    | cons j2 rest =>
      have hrc := removeChild_branch par j
      by_cases hj2 : j2 = j
      · subst hj2
        rw [if_pos (by
          rw [List.prefix_append_right_inj]
          exact List.cons_prefix_cons.mpr ⟨rfl, List.nil_prefix⟩)]
        have hbn : (removeChild par j2).branch j2 = none := by
          rw [hrc j2]
          by_cases hlt : j2 < par.branches.length
          · rw [branch_eq_getD, setBranch_branches]
            exact getD_set_self (by simpa using hlt) _
          · rw [setBranch_branch_of_ge (by omega) _]
            rw [branch_eq_getD, List.getD_eq_default]
            omega
        rw [obs_cons_none hbn]
      · rw [if_neg (by
          intro hcon
          rw [List.prefix_append_right_inj] at hcon
          exact hj2 (List.cons_prefix_cons.mp hcon).1.symm)]
        exact obs_congr_branch1 (by
          rw [hrc j2]
          exact branch_setBranch_ne _ (fun h => hj2 h) _) rest
  · rw [if_neg (fun hcon => hpre ((List.prefix_append _ _).trans hcon))]
    exact obs_updateAt_off hpre

/-- `setBrOwn` changes no observation. -/
theorem obs_setBrOwn (c : Node) (bo : Nat) :
    ∀ rest, obs (c.setBrOwn bo) rest = obs c rest :=
  obs_congr (setBrOwn_item c bo) (setBrOwn_key c bo) (setBrOwn_qlen c bo)
    (fun i => setBrOwn_branch c bo i)

/-- The splice: the sole grandchild takes its parent's place; paths under
the spliced slot lose one step, everything else is untouched. -/
theorem obs_splice_stage {t par c : Node} {P2 : Path} {bo : Nat}
    (hg : getN t P2 = some par) (hlen : par.branches.length = 16)
    (hbo : bo < 16) :
    ∀ p2, obs (updateAt t P2
        (fun m => m.setBranch bo (some (c.setBrOwn bo)))) p2
      = if (P2 ++ [bo]) <+: p2
        then obs c (p2.drop (P2.length + 1))
        else obs t p2 := by
  intro p2
  by_cases hpre : P2 <+: p2
  · obtain ⟨rel, hrel⟩ := hpre
    subst hrel
    rw [obs_append (getN_updateAt_point
      (fun m => m.setBranch bo (some (c.setBrOwn bo))) hg) _]
    cases rel with
    | nil =>
      rw [if_neg (by
        intro hcon
        have := hcon.length_le
        simp at this)]
      rw [obs_append hg]
      unfold obs
      simp only [getN, setBranch_item, setBranch_key, setBranch_qlen]
    | cons j2 rest =>
      by_cases hj2 : j2 = bo
      · subst hj2
        rw [if_pos (by
          rw [List.prefix_append_right_inj]
          exact List.cons_prefix_cons.mpr ⟨rfl, List.nil_prefix⟩)]
        rw [obs_cons (branch_setBranch_self (by omega) _) _]
        rw [obs_setBrOwn]
        congr 1
        rw [show P2 ++ j2 :: rest = (P2 ++ [j2]) ++ rest by simp]
        rw [show P2.length + 1 = (P2 ++ [j2]).length by simp]
        rw [List.drop_left]
      · rw [if_neg (by
          intro hcon
          rw [List.prefix_append_right_inj] at hcon
          exact hj2 (List.cons_prefix_cons.mp hcon).1.symm)]
        rw [obs_append hg]
        exact obs_congr_branch1
          (branch_setBranch_ne _ (fun h => hj2 h) _) rest
  · rw [if_neg (fun hcon => hpre ((List.prefix_append _ _).trans hcon))]
    exact obs_updateAt_off hpre

theorem getD_append_self {l l2 : List Nat} {x : Nat} :
    (l ++ x :: l2).getD l.length 0 = x := by
  induction l with
  | nil => rfl
  | cons a as ih => simpa using ih

/-- A resolving path resolves at every prefix. -/
theorem getN_prefix {t n : Node} {a b : Path}
    (hg : getN t (a ++ b) = some n) : ∃ m, getN t a = some m := by
  rw [getN_append] at hg
  cases hga : getN t a with
  | none => rw [hga] at hg; cases hg
  | some m => exact ⟨m, rfl⟩

/-- A well-formed leaf has no occupied branch slot. -/
theorem leaf_branches_none {e r : Bool} {nod : Node}
    (hw : wfNode e r nod = true) (hleaf : nod.is_leaf = true) :
    ∀ i, nod.branch i = none := by
  intro i
  cases hb : nod.branch i with
  | none => rfl
  | some c =>
    exfalso
    have hocc := (wfN_leaf_iff hw).mp hleaf
    have hi16 : i < 16 := by
      by_contra hge
      rw [branch_none_of_ge (wfN_len hw) (by omega)] at hb
      cases hb
    have : i ∈ occSlots nod := occSlots_mem.mpr ⟨hi16, by rw [hb]; rfl⟩
    rw [hocc] at this
    cases this

theorem mem_len1 {l : List Nat} {a x : Nat} (hlen : l.length = 1)
    (ha : a ∈ l) (hx : x ∈ l) : x = a := by
  cases l with
  | nil => cases ha
  | cons y l2 =>
    cases l2 with
    | nil =>
      rw [List.mem_singleton] at ha hx
      rw [hx, ha]
    | cons z l3 => simp at hlen

theorem mem_len2 {l : List Nat} {a b x : Nat} (hnd : l.Nodup)
    (hlen : l.length = 2) (ha : a ∈ l) (hb : b ∈ l) (hab : a ≠ b)
    (hx : x ∈ l) : x = a ∨ x = b := by
  cases l with
  | nil => cases ha
  | cons y l2 =>
    cases l2 with
    | nil => simp at hlen
    | cons z l3 =>
      cases l3 with
      | nil =>
        simp only [List.mem_cons, List.mem_singleton, List.not_mem_nil,
          or_false] at ha hb hx
        rcases ha with rfl | rfl <;> rcases hb with rfl | rfl <;>
          rcases hx with rfl | rfl <;> simp_all
      | cons w l4 => simp at hlen

/-- Every node sits in the branch slot recorded in its `br_own`. -/
theorem br_own_eq_last {e : Bool} {t n : Node} {a : Path} {i : Nat}
    (hw : wfNode e true t = true) (hg : getN t (a ++ [i]) = some n) :
    n.br_own = i := by
  obtain ⟨m, hm⟩ := getN_prefix hg
  rw [getN_append, hm] at hg
  have hwm := getN_wf_flavor hw hm
  simp only [Option.bind] at hg
  cases hb : m.branch i with
  | none =>
    exfalso
    simp only [getN, hb] at hg
    cases hg
  | some c =>
    simp only [getN, hb] at hg
    cases hg
    exact (wfN_branch hwm hb).2.2.2.1

/-- `descend` yields a non-empty relative path starting at or after the
scan slot. -/
theorem descendF_head : ∀ {fuel : Nat} {nod : Node} {br_ix : Nat}
    {rel : Path}, descendF fuel nod br_ix = some rel →
    ∃ h rest2, rel = h :: rest2 ∧ br_ix ≤ h := by
  intro fuel
  induction fuel with
  | zero => intro nod br_ix rel h; cases h
  | succ fuel ih =>
    intro nod br_ix rel h
    by_cases hle : br_ix ≤ nod.br_last
    · rw [show descendF (fuel + 1) nod br_ix
          = if br_ix ≤ nod.br_last then
              match nod.branch br_ix with
              | none => descendF fuel nod (br_ix + 1)
              | some c =>
                if c.item.isSome then some [br_ix]
                else
                  match descendF fuel c c.br_1st with
                  | some rel => some (br_ix :: rel)
                  | none => descendF fuel nod (br_ix + 1)
            else none from rfl, if_pos hle] at h
      cases hb : nod.branch br_ix with
      | none =>
        simp only [hb] at h
        obtain ⟨h2, r2, he, hge⟩ := ih h
        exact ⟨h2, r2, he, by omega⟩
      | some c =>
        simp only [hb] at h
        by_cases hit : c.item.isSome = true
        · rw [if_pos hit] at h
          cases h
          exact ⟨br_ix, [], rfl, le_refl _⟩
        · rw [if_neg hit] at h
          cases hd : descendF fuel c c.br_1st with
          | some rel2 =>
            simp only [hd] at h
            cases h
            exact ⟨br_ix, rel2, rfl, le_refl _⟩
          | none =>
            simp only [hd] at h
            obtain ⟨h2, r2, he, hge⟩ := ih h
            exact ⟨h2, r2, he, by omega⟩
    · rw [show descendF (fuel + 1) nod br_ix
          = if br_ix ≤ nod.br_last then
              match nod.branch br_ix with
              | none => descendF fuel nod (br_ix + 1)
              | some c =>
                if c.item.isSome then some [br_ix]
                else
                  match descendF fuel c c.br_1st with
                  | some rel => some (br_ix :: rel)
                  | none => descendF fuel nod (br_ix + 1)
            else none from rfl, if_neg hle] at h
      cases h

/-- `descend` yields a path that resolves inside the subtree. -/
theorem descendF_resolves : ∀ {fuel : Nat} {nod : Node} {br_ix : Nat}
    {rel : Path}, descendF fuel nod br_ix = some rel →
    ∃ m, getN nod rel = some m := by
  intro fuel
  induction fuel with
  | zero => intro nod br_ix rel h; cases h
  | succ fuel ih =>
    intro nod br_ix rel h
    by_cases hle : br_ix ≤ nod.br_last
    · rw [show descendF (fuel + 1) nod br_ix
          = if br_ix ≤ nod.br_last then
              match nod.branch br_ix with
              | none => descendF fuel nod (br_ix + 1)
              | some c =>
                if c.item.isSome then some [br_ix]
                else
                  match descendF fuel c c.br_1st with
                  | some rel => some (br_ix :: rel)
                  | none => descendF fuel nod (br_ix + 1)
            else none from rfl, if_pos hle] at h
      cases hb : nod.branch br_ix with
      | none =>
        simp only [hb] at h
        exact ih h
      | some c =>
        simp only [hb] at h
        by_cases hit : c.item.isSome = true
        · rw [if_pos hit] at h
          cases h
          exact ⟨c, by simp [getN, hb]⟩
        · rw [if_neg hit] at h
          cases hd : descendF fuel c c.br_1st with
          | some rel2 =>
            simp only [hd] at h
            cases h
            obtain ⟨m, hm⟩ := ih hd
            exact ⟨m, by simp [getN, hb, hm]⟩
          | none =>
            simp only [hd] at h
            exact ih h
    · rw [show descendF (fuel + 1) nod br_ix
          = if br_ix ≤ nod.br_last then
              match nod.branch br_ix with
              | none => descendF fuel nod (br_ix + 1)
              | some c =>
                if c.item.isSome then some [br_ix]
                else
                  match descendF fuel c c.br_1st with
                  | some rel => some (br_ix :: rel)
                  | none => descendF fuel nod (br_ix + 1)
            else none from rfl, if_neg hle] at h
      cases h

/-- The ascend loop only returns resolvable paths, of the shape
`q0 ++ rel` for a prefix `q0` of the start with a strictly larger slot
where they diverge from the erased path. -/
theorem nextUpF_shape {e : Bool} {t : Node} {path : Path}
    (hw : wfNode e true t = true) :
    ∀ {fuel : Nat} {q0 : Path} {j : Nat} {q : Path},
      nextUpF t fuel q0 j = some q →
      q0 <+: path → q0.length < path.length →
      path.getD q0.length 0 < j →
      (∃ m, getN t q = some m) ∧
      ∃ q1 rel, q1 <+: path ∧ q1.length < path.length ∧ rel ≠ [] ∧
        q = q1 ++ rel ∧ path.getD q1.length 0 < rel.headD 0 := by
  intro fuel
  induction fuel with
  | zero => intro q0 j q h; cases h
  | succ fuel ih =>
    intro q0 j q h hpre hlen hslot
    rw [show nextUpF t (fuel + 1) q0 j
        = match getN t q0 with
          | none => none
          | some nod =>
            match descend nod j with
            | some rel => some (q0 ++ rel)
            | none =>
              if q0 = [] then none
              else nextUpF t fuel (parentPath q0) (nod.br_own + 1)
          from rfl] at h
    cases hg0 : getN t q0 with
    | none => simp [hg0] at h
    | some n0 =>
      simp only [hg0] at h
      cases hd : descend n0 j with
      | some rel =>
        simp only [hd] at h
        cases h
        obtain ⟨hh, hr2, hrel, hge⟩ := descendF_head hd
        obtain ⟨m, hm⟩ := descendF_resolves hd
        refine ⟨⟨m, by rw [getN_append, hg0]; exact hm⟩,
          q0, rel, hpre, hlen, by rw [hrel]; simp, rfl, ?_⟩
        rw [hrel]
        show path.getD q0.length 0 < hh
        omega
      | none =>
        simp only [hd] at h
        by_cases hq0 : q0 = []
        · rw [if_pos hq0] at h
          cases h
        · rw [if_neg hq0] at h
          obtain ⟨q0', i0, hq0eq⟩ : ∃ q0' i0, q0 = q0' ++ [i0] := by
            refine ⟨q0.dropLast, q0.getLast hq0, ?_⟩
            exact (List.dropLast_append_getLast hq0).symm
          have hpp : parentPath q0 = q0' := by
            rw [hq0eq]
            show (q0' ++ [i0]).dropLast = q0'
            rw [List.dropLast_append_cons]
            simp
          have hbo : n0.br_own = i0 := by
            apply br_own_eq_last hw
            rw [← hq0eq]
            exact hg0
          have hpre' : q0' <+: path := by
            refine List.IsPrefix.trans ?_ hpre
            rw [hq0eq]
            exact ⟨[i0], rfl⟩
          have hlen' : q0'.length < path.length := by
            have : q0'.length < q0.length := by rw [hq0eq]; simp
            omega
          have hslot' : path.getD q0'.length 0 < n0.br_own + 1 := by
            rw [hbo]
            have : path.getD q0'.length 0 = i0 := by
              obtain ⟨s, hs⟩ := hpre
              rw [← hs, hq0eq]
              rw [show q0' ++ [i0] ++ s = q0' ++ (i0 :: s) by simp]
              exact getD_append_self
            omega
          rw [hpp] at h
          exact ih h hpre' hlen' hslot'

/-- The in-order successor of a node resolves in the tree, and lies
either strictly inside the node's subtree or on a strictly later branch
of a proper ancestor. -/
theorem next_shape {e : Bool} {t nod : Node} {path q : Path}
    (hw : wfNode e true t = true) (hg : getN t path = some nod)
    (hq : next t path = some q) :
    (∃ m, getN t q = some m) ∧
    ((∃ rel, rel ≠ [] ∧ q = path ++ rel ∧
        (∃ m, getN nod rel = some m)) ∨
     (∃ q1 rel, q1 <+: path ∧ q1.length < path.length ∧ rel ≠ [] ∧
       q = q1 ++ rel ∧ path.getD q1.length 0 < rel.headD 0)) := by
  unfold next at hq
  simp only [hg] at hq
  unfold nextUp at hq
  rw [show nextUpF t (path.length + 1) path nod.br_1st
      = match getN t path with
        | none => none
        | some nod2 =>
          match descend nod2 nod.br_1st with
          | some rel => some (path ++ rel)
          | none =>
            if path = [] then none
            else nextUpF t path.length (parentPath path) (nod2.br_own + 1)
        from rfl] at hq
  simp only [hg] at hq
  cases hd : descend nod nod.br_1st with
  | some rel =>
    simp only [hd] at hq
    cases hq
    obtain ⟨m, hm⟩ := descendF_resolves hd
    obtain ⟨hh, hr2, hrel, _⟩ := descendF_head hd
    exact ⟨⟨m, by rw [getN_append, hg]; exact hm⟩,
      Or.inl ⟨rel, by rw [hrel]; simp, rfl, m, hm⟩⟩
  | none =>
    simp only [hd] at hq
    by_cases hpe : path = []
    · rw [if_pos hpe] at hq
      cases hq
    · rw [if_neg hpe] at hq
      obtain ⟨q0', i0, hq0eq⟩ : ∃ q0' i0, path = q0' ++ [i0] := by
        refine ⟨path.dropLast, path.getLast hpe, ?_⟩
        exact (List.dropLast_append_getLast hpe).symm
      have hpp : parentPath path = q0' := by
        rw [hq0eq]
        show (q0' ++ [i0]).dropLast = q0'
        rw [List.dropLast_append_cons]
        simp
      have hbo : nod.br_own = i0 := by
        apply br_own_eq_last hw
        rw [← hq0eq]
        exact hg
      have hpre' : q0' <+: path := by
        rw [hq0eq]
        exact ⟨[i0], rfl⟩
      have hlen' : q0'.length < path.length := by
        rw [hq0eq]
        simp
      have hslot' : path.getD q0'.length 0 < nod.br_own + 1 := by
        rw [hbo]
        have : path.getD q0'.length 0 = i0 := by
          rw [hq0eq]
          exact getD_append_self
        omega
      rw [hpp] at hq
      obtain ⟨hres, hshape⟩ := nextUpF_shape hw hq hpre' hlen' hslot'
      exact ⟨hres, Or.inr hshape⟩

/-- The in-order successor is a different node pointer. -/
theorem next_ne {e : Bool} {t nod : Node} {path q : Path}
    (hw : wfNode e true t = true) (hg : getN t path = some nod)
    (hq : next t path = some q) : q ≠ path := by
  rcases (next_shape hw hg hq).2 with ⟨rel, hne, hqe, _⟩ |
    ⟨q1, rel, hpre, hlen, hne, hqe, hslot⟩
  · intro hcon
    rw [hcon] at hqe
    have : path.length = (path ++ rel).length := by rw [← hqe]
    rw [List.length_append] at this
    cases rel with
    | nil => exact hne rfl
    | cons a as => simp at this
  · intro hcon
    subst hcon
    obtain ⟨s, hs⟩ := hpre
    cases rel with
    | nil => exact hne rfl
    | cons a as =>
      have : (q1 ++ a :: as).getD q1.length 0 = a := getD_append_self
      rw [hqe] at hslot
      rw [this] at hslot
      simp only [List.headD] at hslot
      omega

/-- Replacing the node at `P` wholesale: observations under `P` come from
the replacement, everything else is untouched. -/
theorem obs_replace_stage {t n : Node} {P : Path} (hgP : getN t P = some n)
    (X : Node) : ∀ p2, obs (updateAt t P (fun _ => X)) p2
      = if P <+: p2 then obs X (p2.drop P.length) else obs t p2 := by
  intro p2
  by_cases hpre : P <+: p2
  · rw [if_pos hpre]
    obtain ⟨rel, hrel⟩ := hpre
    subst hrel
    rw [obs_append (getN_updateAt_point (fun _ => X) hgP) _]
    rw [List.drop_left]
  · rw [if_neg hpre]
    exact obs_updateAt_off hpre

theorem getD_append_left {l l2 : List Nat} {i : Nat} (hi : i < l.length) :
    (l ++ l2).getD i 0 = l.getD i 0 := by
  induction l generalizing i with
  | nil => simp at hi
  | cons a as ih =>
    cases i with
    | zero => rfl
    | succ i2 => simpa using ih (by simpa using hi)

theorem prefix_eq_of_len {p1 p2 l : List Nat} (h1 : p1 <+: l)
    (h2 : p2 <+: l) (hlen : p1.length = p2.length) : p1 = p2 := by
  obtain ⟨s1, hs1⟩ := h1
  obtain ⟨s2, hs2⟩ := h2
  have e1 : p1 = l.take p1.length := by
    rw [← hs1]
    simp [List.take_left]
  have e2 : p2 = l.take p2.length := by
    rw [← hs2]
    simp [List.take_left]
  rw [e1, e2, hlen]

/-- The in-order successor never lands on a proper ancestor prefix of the
start path. -/
theorem next_not_ancestor {e : Bool} {t nod : Node} {path q P : Path}
    (hw : wfNode e true t = true) (hg : getN t path = some nod)
    (hq : next t path = some q)
    (hPpre : P <+: path) (hPlen : P.length < path.length)
    (hqP : q = P) : False := by
  rcases (next_shape hw hg hq).2 with ⟨rel, hne, hqe, _⟩ |
    ⟨q1, rel, hpre1, hlen1, hne, hqe, hslot⟩
  · rw [hqP] at hqe
    have : P.length = path.length + rel.length := by
      rw [hqe, List.length_append]
    cases rel with
    | nil => exact hne rfl
    | cons a as => simp at this; omega
  · rw [hqP] at hqe
    rcases Nat.lt_trichotomy q1.length P.length with hlt | heq | hgt
    · cases rel with
      | nil => exact hne rfl
      | cons a as =>
        have h1 : P.getD q1.length 0 = a := by
          rw [hqe]
          exact getD_append_self
        have h2 : path.getD q1.length 0 = P.getD q1.length 0 := by
          obtain ⟨s, hs⟩ := hPpre
          rw [← hs]
          exact getD_append_left hlt
        simp only [List.headD] at hslot
        omega
    · have hq1P : q1 = P := prefix_eq_of_len hpre1 hPpre heq
      rw [hq1P] at hqe
      have : rel = [] := by
        have := congrArg List.length hqe
        rw [List.length_append] at this
        cases rel with
        | nil => rfl
        | cons a as => simp at this
      exact hne this
    · have := congrArg List.length hqe
      rw [List.length_append] at this
      cases rel with
      | nil => exact hne rfl
      | cons a as => simp at this; omega

theorem append_cons_ne {P : List Nat} {a b : Nat} {r1 r2 : List Nat}
    (hne : a ≠ b) : P ++ a :: r1 ≠ P ++ b :: r2 := by
  intro h
  have h2 := List.append_cancel_left h
  simp only [List.cons.injEq] at h2
  exact hne h2.1

/-- How `trie::erase` relocates observations: there is a path translation
`g` such that the new tree observes at `p2` exactly what the old tree
observed at `g p2` — except the erased path, whose observation is gone —
and the returned iterator is the pre-computed in-order successor,
translated by the same `g`. -/
theorem erase_obs {t : Node} {path : Path} {t' : Node} {adv' : Iter}
    (hw : wfNode true true t = true)
    (hok : erase t (some path) = .ok (t', adv')) :
    ∃ g : Path → Path,
      (∀ p2, obs t' p2 = if g p2 = path then none else obs t (g p2)) ∧
      (next t path = none → adv' = none) ∧
      (∀ q, next t path = some q → ∃ q', adv' = some q' ∧ g q' = q) := by
  cases hg : getN t path with
  | none =>
    simp only [erase, hg, Except.ok.injEq, Prod.mk.injEq] at hok
    obtain ⟨ht, ha⟩ := hok
    refine ⟨fun x => x, ?_, ?_, ?_⟩
    · intro p2
      rw [← ht]
      by_cases hp2 : p2 = path
      · rw [if_pos hp2, hp2]
        unfold obs
        rw [hg]
      · rw [if_neg hp2]
    · intro hn
      rw [← ha, hn]
    · intro q hq
      exact ⟨q, by rw [← ha, hq], rfl⟩
  | some nod =>
    by_cases hpe : path = []
    · -- erase at the root: only the item is removed
      subst hpe
      have hg0 : some t = some nod := hg
      cases hg0
      simp only [erase, hg, ne_eq, not_true_eq_false, and_false,
        if_false, getN, updateAt, Except.ok.injEq, Prod.mk.injEq] at hok
      obtain ⟨ht, ha⟩ := hok
      refine ⟨fun x => x, ?_, ?_, ?_⟩
      · intro p2
        have h1 : obs t' p2
            = obs (updateAt t [] (fun m => m.setItem none)) p2 := by
          rw [← ht]
          rfl
        rw [h1, obs_updateAt_setItem_none hg p2]
      · intro hn
        rw [hn] at ha
        exact ha.symm
      · intro q hq
        rw [hq] at ha
        exact ⟨q, ha.symm, rfl⟩
    · obtain ⟨par, ℓ, hpeq, hpar, hbr⟩ := getN_parent hg hpe
      have hwpar := getN_wf_flavor hw hpar
      have hbf := wfN_branch hwpar hbr
      have hwnod : wfNode true false nod = true := hbf.2.2.2.2
      have hlown : nod.br_own = ℓ := hbf.2.2.2.1
      have hl16 : ℓ < 16 := by
        rw [← hlown]; exact br_own_lt16 nod
      have hparlen : par.branches.length = 16 := wfN_len hwpar
      have hlocc : ℓ ∈ occSlots par :=
        occSlots_mem.mpr ⟨hl16, by rw [hbr]; rfl⟩
      have hoccne : occSlots par ≠ [] := fun hnil => by
        rw [hnil] at hlocc; cases hlocc
      by_cases hleaf : nod.is_leaf = true
      · -- the erased node is a leaf: it is pruned from its parent
        have ht2 : updateAt (updateAt t path fun n => n.setItem none)
            (parentPath path) (fun par1 => removeChild par1 nod.br_own)
            = updateAt t (parentPath path)
                (fun _ => removeChild par ℓ) := by
          rw [updateAt_congr _ hg, hlown]
          have hs1 : updateAt t path (fun _ => nod.setItem none)
              = updateAt t (parentPath path)
                  (fun n => updateAt n [ℓ] (fun _ => nod.setItem none)) := by
            conv_lhs => rw [hpeq]
            rw [updateAt_append]
          rw [hs1, updateAt_updateAt,
            updateAt_congr
              (fun n => removeChild
                (updateAt n [ℓ] fun _ => nod.setItem none) ℓ) hpar]
          congr 1
          funext x
          rw [updateAt_single hbr, removeChild_setBranch]
        have hn2 : getN (updateAt t (parentPath path)
            (fun _ => removeChild par ℓ)) (parentPath path)
            = some (removeChild par ℓ) := getN_updateAt_some _ hpar
        have hMitem : (removeChild par ℓ).item = par.item :=
          removeChild_item par ℓ
        -- the id-translation observation formula shared by the
        -- prune-without-splice leaves
        have hobs2 : ∀ p2,
            obs (updateAt t (parentPath path)
              (fun _ => removeChild par ℓ)) p2
            = if p2 = path then none else obs t p2 := by
          intro p2
          rw [← updateAt_congr (fun m => removeChild m ℓ) hpar,
            obs_removeChild_stage hpar p2]
          rw [← hpeq]
          by_cases hpp : path <+: p2
          · rw [if_pos hpp]
            by_cases hp2 : p2 = path
            · rw [if_pos hp2]
            · rw [if_neg hp2]
              obtain ⟨ext, hext⟩ := hpp
              subst hext
              cases ext with
              | nil => simp at hp2
              | cons x xs =>
                rw [obs_append hg,
                  obs_cons_none (leaf_branches_none hwnod hleaf x)]
          · rw [if_neg hpp, if_neg (by
              intro hp2
              rw [hp2] at hpp
              exact hpp (List.prefix_refl _))]
        by_cases hitem : par.item.isSome = true
        · -- parent keeps its item: prune only
          obtain ⟨it0, hit0⟩ : ∃ it0, par.item = some it0 := by
            cases hi : par.item
            · rw [hi] at hitem; cases hitem
            · exact ⟨_, rfl⟩
          have hg3f : ((removeChild par ℓ).item = none) = False := by
            simp [hMitem, hit0]
          simp only [erase, hg, hleaf, hpe, ne_eq, not_false_eq_true,
            and_true, true_and, and_self, if_true, ht2, hn2, hg3f,
            and_false, false_and, if_false,
            Except.ok.injEq, Prod.mk.injEq] at hok
          obtain ⟨hok1, hok2⟩ := hok
          refine ⟨fun x => x, ?_, ?_, ?_⟩
          · intro p2
            rw [← hok1]
            exact hobs2 p2
          · intro hn
            rw [hn] at hok2
            exact hok2.symm
          · intro q hq
            rw [hq] at hok2
            exact ⟨q, hok2.symm, rfl⟩
        · have hitemn : par.item = none := by
            cases hi : par.item
            · rfl
            · rw [hi] at hitem; simp at hitem
          by_cases hppe : parentPath path = []
          · -- parent is the root: prune only
            have hg3f : (parentPath path ≠ []) = False := by
              simp [hppe]
            simp only [erase, hg, hleaf, hpe, ne_eq, not_false_eq_true,
              and_true, true_and, and_self, if_true, ht2, hn2, hg3f,
              and_false, false_and, if_false,
              Except.ok.injEq, Prod.mk.injEq] at hok
            obtain ⟨hok1, hok2⟩ := hok
            refine ⟨fun x => x, ?_, ?_, ?_⟩
            · intro p2
              rw [← hok1]
              exact hobs2 p2
            · intro hn
              rw [hn] at hok2
              exact hok2.symm
            · intro q hq
              rw [hq] at hok2
              exact ⟨q, hok2.symm, rfl⟩
          · have hwparf : wfNode true false par = true := by
              rw [if_neg hppe] at hwpar; exact hwpar
            have hdeg : 2 ≤ (occSlots par).length := by
              rcases (wfNode_iff.mp hwparf).2.2.1 hitemn with hcl | hcl
              · cases hcl
              · exact hcl
            by_cases hbig : 3 ≤ (occSlots par).length
            · -- parent keeps enough sons: prune, then re-borrow keys
              have hwrc := removeChild_wf hwpar hbr (Or.inr (Or.inr hbig))
              have hw2 : wfNode true true (updateAt t (parentPath path)
                  (fun _ => removeChild par ℓ)) = true :=
                wf_updateAt hw hpar hwrc
                  (le_of_eq (removeChild_qlen par ℓ).symm)
                  (removeChild_br_own par ℓ)
                  (by rw [removeChild_key]; exact nibAgree_refl _ _)
              have hwrcf : wfNode true false (removeChild par ℓ) = true := by
                rw [if_neg hppe] at hwrc; exact hwrc
              have hM2 : 2 ≤ (occSlots (removeChild par ℓ)).length := by
                have := length_occSlots_setBranch_none hparlen hlocc
                rw [occSlots_removeChild]
                omega
              have hMne : occSlots (removeChild par ℓ) ≠ [] := by
                intro hnil
                rw [hnil] at hM2
                simp at hM2
              have hos2f : (removeChild par ℓ).has_only_son = false := by
                cases ho : (removeChild par ℓ).has_only_son
                · rfl
                · have := (wfN_only_son_iff hwrcf hMne).mp ho
                  omega
              have hleaf2 : (removeChild par ℓ).is_leaf = false := by
                cases hlf : (removeChild par ℓ).is_leaf
                · rfl
                · exact absurd ((wfN_leaf_iff hwrcf).mp hlf) hMne
              have hit2 : (removeChild par ℓ).item = none := by
                rw [hMitem]; exact hitemn
              obtain ⟨c3, hbr1⟩ := branch_of_not_leaf hwrcf hleaf2
              simp only [erase, hg, hleaf, hpe, ne_eq, not_false_eq_true,
                and_true, true_and, and_self, if_true, ht2, hn2, hos2f,
                Bool.false_eq_true, false_and, if_false, hleaf2, hit2,
                hppe, hbr1, Except.ok.injEq, Prod.mk.injEq] at hok
              obtain ⟨hok1, hok2⟩ := hok
              refine ⟨fun x => x, ?_, ?_, ?_⟩
              · intro p2
                rw [← hok1, obs_reborrowGo]
                exact hobs2 p2
              · intro hn
                rw [hn] at hok2
                exact hok2.symm
              · intro q hq
                rw [hq] at hok2
                exact ⟨q, hok2.symm, rfl⟩
            · -- parent had exactly two sons: prune, then splice it out
              have h2eq : (occSlots par).length = 2 := by omega
              obtain ⟨k, s, hkne, hk16, hbk, hMos, hMb1, hMbk, hMit,
                hMkey, hMql, hMbo, hMrest⟩ := removeChild_two hwpar hbr h2eq
              obtain ⟨gp, ℓ2, hpeq2, hgp, hbgp⟩ := getN_parent hpar hppe
              have hwgp := getN_wf_flavor hw hgp
              have hbfg := wfN_branch hwgp hbgp
              have hbrown : par.br_own = ℓ2 := hbfg.2.2.2.1
              have hl2_16 : ℓ2 < 16 := by
                rw [← hbrown]; exact br_own_lt16 par
              have hswf : wfNode true false s = true :=
                (wfN_branch hwparf hbk).2.2.2.2
              have hit2 : (removeChild par ℓ).item = none := by
                rw [hMit]; exact hitemn
              have hMbr1s : (removeChild par ℓ).branch
                  (removeChild par ℓ).br_1st = some s := by
                rw [hMb1]; exact hMbk
              have hsplice : updateAt (updateAt t (parentPath path)
                    (fun _ => removeChild par ℓ))
                  (parentPath (parentPath path))
                  (fun par1 => par1.setBranch (removeChild par ℓ).br_own
                    (some (s.setBrOwn (removeChild par ℓ).br_own)))
                  = updateAt t (parentPath path)
                      (fun _ => s.setBrOwn ℓ2) := by
                rw [hMbo, hbrown]
                have hs1 : updateAt t (parentPath path)
                    (fun _ => removeChild par ℓ)
                    = updateAt t (parentPath (parentPath path))
                        (fun n => updateAt n [ℓ2]
                          (fun _ => removeChild par ℓ)) := by
                  conv_lhs => rw [hpeq2]
                  rw [updateAt_append]
                have hs2 : updateAt t (parentPath path)
                    (fun _ => s.setBrOwn ℓ2)
                    = updateAt t (parentPath (parentPath path))
                        (fun n => updateAt n [ℓ2]
                          (fun _ => s.setBrOwn ℓ2)) := by
                  conv_lhs => rw [hpeq2]
                  rw [updateAt_append]
                rw [hs1, updateAt_updateAt, hs2,
                  updateAt_congr (fun n => (updateAt n [ℓ2]
                    (fun _ => removeChild par ℓ)).setBranch ℓ2
                      (some (s.setBrOwn ℓ2))) hgp,
                  updateAt_congr (fun n => updateAt n [ℓ2]
                    (fun _ => s.setBrOwn ℓ2)) hgp]
                congr 1
                funext x
                rw [updateAt_single hbgp, updateAt_single hbgp,
                  setBranch_setBranch]
              have hn3 : getN (updateAt t (parentPath path)
                  (fun _ => s.setBrOwn ℓ2)) (parentPath (parentPath path))
                  = some (gp.setBranch ℓ2 (some (s.setBrOwn ℓ2))) := by
                have hs2 : updateAt t (parentPath path)
                    (fun _ => s.setBrOwn ℓ2)
                    = updateAt t (parentPath (parentPath path))
                        (fun n => updateAt n [ℓ2]
                          (fun _ => s.setBrOwn ℓ2)) := by
                  conv_lhs => rw [hpeq2]
                  rw [updateAt_append]
                rw [hs2, getN_updateAt_some _ hgp, updateAt_single hbgp]
              have hgs : getN t (parentPath path ++ [k]) = some s := by
                rw [getN_append, hpar]
                show getN par [k] = some s
                simp [getN, hbk]
              -- splice-leaf translation and observation formula
              have hobs3 : ∀ p2,
                  obs (updateAt t (parentPath path)
                    (fun _ => s.setBrOwn ℓ2)) p2
                  = if parentPath path <+: p2
                    then obs t ((parentPath path ++ [k])
                      ++ (p2.drop (parentPath path).length))
                    else obs t p2 := by
                intro p2
                rw [obs_replace_stage hpar (s.setBrOwn ℓ2) p2]
                by_cases hpre : parentPath path <+: p2
                · rw [if_pos hpre, if_pos hpre, obs_setBrOwn,
                    obs_append hgs]
                · rw [if_neg hpre, if_neg hpre]
              have hgdef : ∀ p2,
                  (if parentPath path <+: p2
                    then (parentPath path ++ [k])
                      ++ (p2.drop (parentPath path).length)
                    else p2) = path
                  → False := by
                intro p2 hcon
                by_cases hpre : parentPath path <+: p2
                · rw [if_pos hpre] at hcon
                  exact append_cons_ne hkne
                    ((List.append_assoc _ _ _).symm.trans
                      (hcon.trans hpeq))
                · rw [if_neg hpre] at hcon
                  exact hpre (by rw [hcon]; exact ⟨[ℓ], hpeq.symm⟩)
              have hobsm : ∀ (T2 : Node),
                  (∀ p2, obs T2 p2
                    = obs (updateAt t (parentPath path)
                        (fun _ => s.setBrOwn ℓ2)) p2) →
                  ∀ p2, obs T2 p2
                    = if (if parentPath path <+: p2
                        then (parentPath path ++ [k])
                          ++ (p2.drop (parentPath path).length)
                        else p2) = path
                      then none
                      else obs t (if parentPath path <+: p2
                        then (parentPath path ++ [k])
                          ++ (p2.drop (parentPath path).length)
                        else p2) := by
                intro T2 hT2 p2
                rw [hT2 p2, hobs3 p2,
                  if_neg (fun hcon => hgdef p2 hcon)]
                by_cases hpre : parentPath path <+: p2
                · simp only [if_pos hpre]
                · simp only [if_neg hpre]
              -- the iterator translation for the splice leaves
              have hadv : ∀ (A : Iter),
                  (match next t path,
                    some (parentPath path ++ [(removeChild par ℓ).br_1st],
                      parentPath (parentPath path)
                        ++ [(removeChild par ℓ).br_own]) with
                  | some q, some (oldPre, newPre) =>
                    if oldPre.isPrefixOf q
                    then some (newPre ++ q.drop oldPre.length)
                    else some q
                  | _, _ => next t path) = A →
                  (next t path = none → A = none) ∧
                  (∀ q, next t path = some q → ∃ q', A = some q' ∧
                    (if parentPath path <+: q'
                      then (parentPath path ++ [k])
                        ++ (q'.drop (parentPath path).length)
                      else q') = q) := by
                intro A hA
                rw [hMb1, hMbo, hbrown, ← hpeq2] at hA
                constructor
                · intro hn
                  rw [hn] at hA
                  exact hA.symm
                · intro q hq
                  simp only [hq] at hA
                  by_cases hpref : (parentPath path ++ [k]).isPrefixOf q
                  · rw [if_pos hpref] at hA
                    obtain ⟨rest, hrest⟩ :=
                      List.isPrefixOf_iff_prefix.mp hpref
                    refine ⟨parentPath path
                      ++ q.drop (parentPath path ++ [k]).length,
                      hA.symm, ?_⟩
                    rw [if_pos (List.prefix_append _ _)]
                    rw [List.drop_left]
                    rw [← hrest, List.drop_left]
                  · rw [if_neg hpref] at hA
                    refine ⟨q, hA.symm, ?_⟩
                    rw [if_neg ?_]
                    intro hpre
                    obtain ⟨rel, hrel⟩ := hpre
                    cases rel with
                    | nil =>
                      rw [List.append_nil] at hrel
                      refine next_not_ancestor hw hg hq
                        ⟨[ℓ], hpeq.symm⟩ ?_ hrel.symm
                      have h5 : path.length
                          = (parentPath path).length + 1 := by
                        conv_lhs => rw [hpeq]
                        simp
                      omega
                    | cons j rest =>
                      obtain ⟨m, hm⟩ := (next_shape hw hg hq).1
                      have hm0 := hm
                      rw [← hrel, getN_append, hpar] at hm
                      have hbj : ∃ c2, par.branch j = some c2 := by
                        cases hbj0 : par.branch j with
                        | none =>
                          exfalso
                          simp only [Option.bind, getN, hbj0] at hm
                          cases hm
                        | some c2 => exact ⟨c2, rfl⟩
                      obtain ⟨c2, hbj⟩ := hbj
                      have hj16 : j < 16 := by
                        by_contra hge
                        rw [branch_none_of_ge hparlen (by omega)] at hbj
                        cases hbj
                      have hjocc : j ∈ occSlots par :=
                        occSlots_mem.mpr ⟨hj16, by rw [hbj]; rfl⟩
                      have hkocc : k ∈ occSlots par :=
                        occSlots_mem.mpr ⟨hk16, by rw [hbk]; rfl⟩
                      rcases mem_len2 (occSlots_nodup par) h2eq hlocc
                        hkocc (fun hc => hkne hc.symm) hjocc with rfl | rfl
                      · -- under the pruned (erased leaf) slot
                        cases rest with
                        | nil =>
                          exact next_ne hw hg hq
                            (hrel.symm.trans hpeq.symm)
                        | cons x xs =>
                          have hqe2 : q = path ++ x :: xs := by
                            rw [hpeq, ← hrel]
                            simp
                          have hm2 : getN t (path ++ x :: xs) = some m := by
                            rw [← hqe2]
                            exact hm0
                          rw [getN_append, hg] at hm2
                          simp only [Option.bind, getN,
                            leaf_branches_none hwnod hleaf x] at hm2
                          cases hm2
                      · -- under the surviving sibling: contradicts the
                        -- failed prefix test
                        exact absurd (List.isPrefixOf_iff_prefix.mpr
                          (by exact ⟨rest, by rw [← hrel]; simp⟩)) hpref
              by_cases hgpi : gp.item.isSome = true
              · obtain ⟨g0, hg0⟩ : ∃ g0, gp.item = some g0 := by
                  cases hi : gp.item
                  · rw [hi] at hgpi; cases hgpi
                  · exact ⟨_, rfl⟩
                have hg4f : ((gp.setBranch ℓ2
                    (some (s.setBrOwn ℓ2))).item = none) = False := by
                  simp [setBranch_item, hg0]
                simp only [erase, hg, hleaf, hpe, ne_eq,
                  not_false_eq_true, and_true, true_and, and_self,
                  if_true, ht2, hn2, hMos, hit2, hppe, hMbr1s, hsplice,
                  hn3, hg4f, and_false, false_and, if_false,
                  Except.ok.injEq, Prod.mk.injEq] at hok
                obtain ⟨hok1, hok2⟩ := hok
                refine ⟨fun p2 => if parentPath path <+: p2
                  then (parentPath path ++ [k])
                    ++ (p2.drop (parentPath path).length)
                  else p2,
                  hobsm t' (fun p2 => by rw [← hok1]),
                  (hadv adv' hok2).1, (hadv adv' hok2).2⟩
              · have hgpin : gp.item = none := by
                  cases hi : gp.item
                  · rfl
                  · rw [hi] at hgpi; simp at hgpi
                by_cases hppe2 : parentPath (parentPath path) = []
                · have hg4f : (parentPath (parentPath path) ≠ [])
                      = False := by
                    simp [hppe2]
                  simp only [erase, hg, hleaf, hpe, ne_eq,
                    not_false_eq_true, and_true, true_and, and_self,
                    if_true, ht2, hn2, hMos, hit2, hppe, hMbr1s, hsplice,
                    hn3, hg4f, and_false, false_and, if_false,
                    Except.ok.injEq, Prod.mk.injEq] at hok
                  obtain ⟨hok1, hok2⟩ := hok
                  refine ⟨fun p2 => if parentPath path <+: p2
                    then (parentPath path ++ [k])
                      ++ (p2.drop (parentPath path).length)
                    else p2,
                    hobsm t' (fun p2 => by rw [← hok1]),
                    (hadv adv' hok2).1, (hadv adv' hok2).2⟩
                · have hw3 : wfNode true true (updateAt t (parentPath path)
                      (fun _ => s.setBrOwn ℓ2)) = true :=
                    wf_updateAt hw hpar
                      (by rw [if_neg hppe]; exact wf_setBrOwn hswf)
                      (by rw [setBrOwn_qlen]
                          exact le_of_lt (wfN_branch hwparf hbk).1)
                      (by rw [setBrOwn_br_own, Nat.mod_eq_of_lt hl2_16]
                          exact hbrown.symm)
                      (by rw [setBrOwn_key]
                          exact (wfN_branch hwparf hbk).2.1)
                  have hn3wf : wfNode true false
                      (gp.setBranch ℓ2 (some (s.setBrOwn ℓ2))) = true := by
                    rcases getN_wf hw3 hn3 with ⟨hc, _⟩ | h2
                    · exact absurd hc hppe2
                    · exact h2
                  have hgocc : ℓ2 ∈ occSlots gp :=
                    occSlots_mem.mpr ⟨hl2_16, by rw [hbgp]; rfl⟩
                  have hgne : occSlots gp ≠ [] := fun hnil => by
                    rw [hnil] at hgocc; cases hgocc
                  have hn3leaf : (gp.setBranch ℓ2
                      (some (s.setBrOwn ℓ2))).is_leaf = false := by
                    cases hlf : (gp.setBranch ℓ2
                        (some (s.setBrOwn ℓ2))).is_leaf
                    · rfl
                    · exfalso
                      apply hgne
                      apply (wfN_leaf_iff hwgp).mp
                      simp only [Node.is_leaf, setBranch_br_1st,
                        setBranch_br_last] at hlf
                      simp only [Node.is_leaf]
                      exact hlf
                  have hn3item : (gp.setBranch ℓ2
                      (some (s.setBrOwn ℓ2))).item = none := by
                    rw [setBranch_item]; exact hgpin
                  obtain ⟨c4, hbr4⟩ := branch_of_not_leaf hn3wf hn3leaf
                  simp only [erase, hg, hleaf, hpe, ne_eq,
                    not_false_eq_true, and_true, true_and, and_self,
                    if_true, ht2, hn2, hMos, hit2, hppe, hMbr1s, hsplice,
                    hn3, hn3leaf, Bool.false_eq_true, hn3item, hppe2,
                    hbr4, Except.ok.injEq, Prod.mk.injEq] at hok
                  obtain ⟨hok1, hok2⟩ := hok
                  refine ⟨fun p2 => if parentPath path <+: p2
                    then (parentPath path ++ [k])
                      ++ (p2.drop (parentPath path).length)
                    else p2,
                    hobsm t' (fun p2 => by rw [← hok1, obs_reborrowGo]),
                    (hadv adv' hok2).1, (hadv adv' hok2).2⟩
      · -- the erased node is interim: it keeps its children
        have hleaff : nod.is_leaf = false := by
          cases hlf : nod.is_leaf
          · rfl
          · exact absurd hlf hleaf
        have hoccn : occSlots nod ≠ [] := by
          intro hnil
          rw [(wfN_leaf_iff hwnod).mpr hnil] at hleaff
          cases hleaff
        have ht1c : updateAt t path (fun n => n.setItem none)
            = updateAt t path (fun _ => nod.setItem none) :=
          updateAt_congr _ hg
        have hn2 : getN (updateAt t path fun n => n.setItem none) path
            = some (nod.setItem none) := by
          rw [ht1c]; exact getN_updateAt_some _ hg
        have hit2m : (nod.setItem none).item = none := setItem_item nod none
        have hleaf2m : (nod.setItem none).is_leaf = false := by
          simp only [Node.is_leaf, setItem_br_1st, setItem_br_last]
          simp only [Node.is_leaf] at hleaff
          exact hleaff
        obtain ⟨s0, hbs0⟩ := branch_of_not_leaf hwnod hleaff
        have hbr1m : (nod.setItem none).branch
            (nod.setItem none).br_1st = some s0 := by
          rw [setItem_br_1st, setItem_branch]
          exact hbs0
        have hb1occ : nod.br_1st ∈ occSlots nod := by
          rcases wfN_cache hwnod with ⟨hnil, _⟩ | ⟨_, hmem, _⟩
          · exact absurd hnil hoccn
          · exact hmem
        -- the id-translation formula for the no-splice interim leaf
        have hobs1 : ∀ p2,
            obs (updateAt t path (fun n => n.setItem none)) p2
            = if p2 = path then none else obs t p2 := by
          intro p2
          rw [ht1c, ← updateAt_congr (fun m => m.setItem none) hg]
          exact obs_updateAt_setItem_none hg p2
        by_cases hone : (occSlots nod).length = 1
        · -- the erased interim node had an only son: splice it out
          have hos : nod.has_only_son = true :=
            (wfN_only_son_iff hwnod hoccn).mpr hone
          have hos2m : (nod.setItem none).has_only_son = true := by
            simp only [Node.has_only_son, setItem_br_1st, setItem_br_last]
            simp only [Node.has_only_son] at hos
            exact hos
          have hs0wf : wfNode true false s0 = true :=
            (wfN_branch hwnod hbs0).2.2.2.2
          have hsplice : updateAt (updateAt t path fun n => n.setItem none)
              (parentPath path)
              (fun par1 => par1.setBranch (nod.setItem none).br_own
                (some (s0.setBrOwn (nod.setItem none).br_own)))
              = updateAt t path (fun _ => s0.setBrOwn ℓ) := by
            rw [setItem_br_own, hlown, ht1c]
            have hs1 : updateAt t path (fun _ => nod.setItem none)
                = updateAt t (parentPath path)
                    (fun n => updateAt n [ℓ]
                      (fun _ => nod.setItem none)) := by
              conv_lhs => rw [hpeq]
              rw [updateAt_append]
            have hs2 : updateAt t path (fun _ => s0.setBrOwn ℓ)
                = updateAt t (parentPath path)
                    (fun n => updateAt n [ℓ]
                      (fun _ => s0.setBrOwn ℓ)) := by
              conv_lhs => rw [hpeq]
              rw [updateAt_append]
            rw [hs1, updateAt_updateAt, hs2,
              updateAt_congr (fun n => (updateAt n [ℓ]
                (fun _ => nod.setItem none)).setBranch ℓ
                  (some (s0.setBrOwn ℓ))) hpar,
              updateAt_congr (fun n => updateAt n [ℓ]
                (fun _ => s0.setBrOwn ℓ)) hpar]
            congr 1
            funext x
            rw [updateAt_single hbr, updateAt_single hbr,
              setBranch_setBranch]
          have hw3 : wfNode true true (updateAt t path
              (fun _ => s0.setBrOwn ℓ)) = true :=
            wf_updateAt hw hg
              (by rw [if_neg hpe]; exact wf_setBrOwn hs0wf)
              (by rw [setBrOwn_qlen]
                  exact le_of_lt (wfN_branch hwnod hbs0).1)
              (by rw [setBrOwn_br_own, Nat.mod_eq_of_lt hl16]
                  exact hlown.symm)
              (by rw [setBrOwn_key]
                  exact (wfN_branch hwnod hbs0).2.1)
          have hn3 : getN (updateAt t path (fun _ => s0.setBrOwn ℓ))
              (parentPath path)
              = some (par.setBranch ℓ (some (s0.setBrOwn ℓ))) := by
            have hs2 : updateAt t path (fun _ => s0.setBrOwn ℓ)
                = updateAt t (parentPath path)
                    (fun n => updateAt n [ℓ]
                      (fun _ => s0.setBrOwn ℓ)) := by
              conv_lhs => rw [hpeq]
              rw [updateAt_append]
            rw [hs2, getN_updateAt_some _ hpar, updateAt_single hbr]
          have hgs0 : getN t (path ++ [nod.br_1st]) = some s0 :=
            getN_snoc hg hbs0
          have hobs3 : ∀ p2,
              obs (updateAt t path (fun _ => s0.setBrOwn ℓ)) p2
              = if path <+: p2
                then obs t ((path ++ [nod.br_1st])
                  ++ (p2.drop path.length))
                else obs t p2 := by
            intro p2
            rw [obs_replace_stage hg (s0.setBrOwn ℓ) p2]
            by_cases hpre : path <+: p2
            · rw [if_pos hpre, if_pos hpre, obs_setBrOwn,
                obs_append hgs0]
            · rw [if_neg hpre, if_neg hpre]
          have hgdef : ∀ p2,
              (if path <+: p2
                then (path ++ [nod.br_1st]) ++ (p2.drop path.length)
                else p2) = path
              → False := by
            intro p2 hcon
            by_cases hpre : path <+: p2
            · rw [if_pos hpre] at hcon
              have := congrArg List.length hcon
              simp at this
            · rw [if_neg hpre] at hcon
              rw [hcon] at hpre
              exact hpre (List.prefix_refl _)
          have hobsm : ∀ (T2 : Node),
              (∀ p2, obs T2 p2
                = obs (updateAt t path (fun _ => s0.setBrOwn ℓ)) p2) →
              ∀ p2, obs T2 p2
                = if (if path <+: p2
                    then (path ++ [nod.br_1st]) ++ (p2.drop path.length)
                    else p2) = path
                  then none
                  else obs t (if path <+: p2
                    then (path ++ [nod.br_1st]) ++ (p2.drop path.length)
                    else p2) := by
            intro T2 hT2 p2
            rw [hT2 p2, hobs3 p2, if_neg (fun hcon => hgdef p2 hcon)]
            by_cases hpre : path <+: p2
            · simp only [if_pos hpre]
            · simp only [if_neg hpre]
          have hadv : ∀ (A : Iter),
              (match next t path,
                some (path ++ [(nod.setItem none).br_1st],
                  parentPath path ++ [(nod.setItem none).br_own]) with
              | some q, some (oldPre, newPre) =>
                if oldPre.isPrefixOf q
                then some (newPre ++ q.drop oldPre.length)
                else some q
              | _, _ => next t path) = A →
              (next t path = none → A = none) ∧
              (∀ q, next t path = some q → ∃ q', A = some q' ∧
                (if path <+: q'
                  then (path ++ [nod.br_1st]) ++ (q'.drop path.length)
                  else q') = q) := by
            intro A hA
            rw [setItem_br_1st, setItem_br_own, hlown, ← hpeq] at hA
            constructor
            · intro hn
              rw [hn] at hA
              exact hA.symm
            · intro q hq
              simp only [hq] at hA
              by_cases hpref : (path ++ [nod.br_1st]).isPrefixOf q
              · rw [if_pos hpref] at hA
                obtain ⟨rest, hrest⟩ :=
                  List.isPrefixOf_iff_prefix.mp hpref
                refine ⟨path ++ q.drop (path ++ [nod.br_1st]).length,
                  hA.symm, ?_⟩
                rw [if_pos (List.prefix_append _ _)]
                rw [List.drop_left]
                rw [← hrest, List.drop_left]
              · rw [if_neg hpref] at hA
                refine ⟨q, hA.symm, ?_⟩
                rw [if_neg ?_]
                intro hpre
                obtain ⟨rel, hrel⟩ := hpre
                cases rel with
                | nil =>
                  apply next_ne hw hg hq
                  rw [← hrel, List.append_nil]
                | cons j rest =>
                  obtain ⟨m, hm⟩ := (next_shape hw hg hq).1
                  rw [← hrel, getN_append, hg] at hm
                  have hbj : ∃ c2, nod.branch j = some c2 := by
                    cases hbj0 : nod.branch j with
                    | none =>
                      exfalso
                      simp only [Option.bind, getN, hbj0] at hm
                      cases hm
                    | some c2 => exact ⟨c2, rfl⟩
                  obtain ⟨c2, hbj⟩ := hbj
                  have hj16 : j < 16 := by
                    by_contra hge
                    rw [branch_none_of_ge (wfN_len hwnod) (by omega)]
                      at hbj
                    cases hbj
                  have hjocc : j ∈ occSlots nod :=
                    occSlots_mem.mpr ⟨hj16, by rw [hbj]; rfl⟩
                  have hjb1 : j = nod.br_1st := mem_len1 hone hb1occ hjocc
                  subst hjb1
                  exact absurd (List.isPrefixOf_iff_prefix.mpr
                    ⟨rest, by rw [← hrel]; simp⟩) hpref
          by_cases hpi : par.item.isSome = true
          · obtain ⟨p0, hp0⟩ : ∃ p0, par.item = some p0 := by
              cases hi : par.item
              · rw [hi] at hpi; cases hpi
              · exact ⟨_, rfl⟩
            have hg4f : ((par.setBranch ℓ
                (some (s0.setBrOwn ℓ))).item = none) = False := by
              simp [setBranch_item, hp0]
            simp only [erase, hg, hleaff, Bool.false_eq_true, false_and,
              if_false, hn2, hos2m, hit2m, hpe, ne_eq, not_false_eq_true,
              and_true, true_and, and_self, if_true, hbr1m, hsplice,
              hn3, hg4f, and_false, Except.ok.injEq, Prod.mk.injEq] at hok
            obtain ⟨hok1, hok2⟩ := hok
            refine ⟨fun p2 => if path <+: p2
              then (path ++ [nod.br_1st]) ++ (p2.drop path.length)
              else p2,
              hobsm t' (fun p2 => by rw [← hok1]),
              (hadv adv' hok2).1, (hadv adv' hok2).2⟩
          · have hpin : par.item = none := by
              cases hi : par.item
              · rfl
              · rw [hi] at hpi; simp at hpi
            by_cases hppe : parentPath path = []
            · have hg4f : (parentPath path ≠ []) = False := by
                simp [hppe]
              simp only [erase, hg, hleaff, Bool.false_eq_true, false_and,
                if_false, hn2, hos2m, hit2m, hpe, ne_eq,
                not_false_eq_true, and_true, true_and, and_self, if_true,
                hbr1m, hsplice, hn3, hg4f, and_false,
                Except.ok.injEq, Prod.mk.injEq] at hok
              obtain ⟨hok1, hok2⟩ := hok
              refine ⟨fun p2 => if path <+: p2
                then (path ++ [nod.br_1st]) ++ (p2.drop path.length)
                else p2,
                hobsm t' (fun p2 => by rw [← hok1]),
                (hadv adv' hok2).1, (hadv adv' hok2).2⟩
            · have hw3b := hw3
              have hn3wf : wfNode true false
                  (par.setBranch ℓ (some (s0.setBrOwn ℓ))) = true := by
                rcases getN_wf hw3 hn3 with ⟨hc, _⟩ | h2
                · exact absurd hc hppe
                · exact h2
              have hn3leaf : (par.setBranch ℓ
                  (some (s0.setBrOwn ℓ))).is_leaf = false := by
                cases hlf : (par.setBranch ℓ
                    (some (s0.setBrOwn ℓ))).is_leaf
                · rfl
                · exfalso
                  apply hoccne
                  apply (wfN_leaf_iff hwpar).mp
                  simp only [Node.is_leaf, setBranch_br_1st,
                    setBranch_br_last] at hlf
                  simp only [Node.is_leaf]
                  exact hlf
              have hn3item : (par.setBranch ℓ
                  (some (s0.setBrOwn ℓ))).item = none := by
                rw [setBranch_item]; exact hpin
              obtain ⟨c4, hbr4⟩ := branch_of_not_leaf hn3wf hn3leaf
              simp only [erase, hg, hleaff, Bool.false_eq_true, false_and,
                if_false, hn2, hos2m, hit2m, hpe, ne_eq,
                not_false_eq_true, and_true, true_and, and_self, if_true,
                hbr1m, hsplice, hn3, hn3leaf, hn3item, hppe, hbr4,
                Except.ok.injEq, Prod.mk.injEq] at hok
              obtain ⟨hok1, hok2⟩ := hok
              refine ⟨fun p2 => if path <+: p2
                then (path ++ [nod.br_1st]) ++ (p2.drop path.length)
                else p2,
                hobsm t' (fun p2 => by rw [← hok1, obs_reborrowGo]),
                (hadv adv' hok2).1, (hadv adv' hok2).2⟩
        · -- the erased interim node keeps at least two children
          have hdeg2 : 2 ≤ (occSlots nod).length := by
            have hpos : 0 < (occSlots nod).length :=
              List.length_pos.mpr hoccn
            omega
          have hosf : nod.has_only_son = false := by
            cases ho : nod.has_only_son
            · rfl
            · have := (wfN_only_son_iff hwnod hoccn).mp ho
              omega
          have hos2m : (nod.setItem none).has_only_son = false := by
            simp only [Node.has_only_son, setItem_br_1st, setItem_br_last]
            simp only [Node.has_only_son] at hosf
            exact hosf
          simp only [erase, hg, hleaff, Bool.false_eq_true, false_and,
            if_false, hn2, hos2m, hit2m, hpe, ne_eq, not_false_eq_true,
            and_true, true_and, and_self, if_true, hleaf2m, hbr1m,
            Except.ok.injEq, Prod.mk.injEq] at hok
          obtain ⟨hok1, hok2⟩ := hok
          refine ⟨fun x => x, ?_, ?_, ?_⟩
          · intro p2
            rw [← hok1, obs_reborrowGo]
            exact hobs1 p2
          · intro hn
            rw [hn] at hok2
            exact hok2.symm
          · intro q hq
            rw [hq] at hok2
            exact ⟨q, hok2.symm, rfl⟩

theorem obs_eq_some {t M : Node} {p : Path} {it : Item}
    (hg : getN t p = some M) (hit : M.item = some it) :
    obs t p = some (M.key.take (M.qlen >>> 1), M.qlen >>> 1, it) := by
  unfold obs
  simp only [hg, hit]

theorem obs_some_inv {t : Node} {p : Path} {a : List Nat} {b : Nat}
    {i : Item} (h : obs t p = some (a, b, i)) :
    ∃ M, getN t p = some M ∧ M.item = some i := by
  unfold obs at h
  cases hg : getN t p with
  | none =>
    simp only [hg] at h
    cases h
  | some M =>
    simp only [hg] at h
    cases hit : M.item with
    | none =>
      simp only [hit] at h
      cases h
    | some i2 =>
      simp only [hit, Option.some.injEq, Prod.mk.injEq] at h
      exact ⟨M, rfl, by rw [hit, h.2.2]⟩

/-! ### Claims -/

/-- C9.  During trace Phase-A descent on byte `i`, when the required child
slot of the current node is empty, the miss handler is invoked at the
current node with matched nibble count `2*i` (branching on the high
nibble, `qv = 0`) or `2*i + 1` (branching on the low nibble, `qv = 1`) —
except that when the branch is on the low nibble of byte `i` and the high
nibble of byte `i` disagrees with the current node's key byte `i`, the
miss handler is invoked at the current node's parent with matched nibble
count `2*i`. -/
theorem trace_phaseA_empty_slot_miss (slob : Bool) (byte i : Nat)
    (nod : Node) (path : Path) (qv : Nat) (fwd : Bool) (hqv : qv ≤ 1)
    (hslot : nod.branch (if qv = 1 then byte % 16 else byte / 16) = none) :
    phaseA slob byte i nod path qv fwd =
      if qv = 1 ∧ (nod.key.getD i 0) >>> 4 ≠ byte >>> 4 then
        .missAt (parentPath path) (2 * i)
      else
        .missAt path (2 * i + qv) := by
  rw [phaseA_eq]
  rw [if_neg (by omega)]
  simp only [hslot]
  by_cases hhi : (nod.key.getD i 0) >>> 4 = byte >>> 4
  · rw [if_neg, if_neg]
    · rintro ⟨h1, h2⟩
      exact h2 hhi
    · rintro ⟨h1, h2⟩
      exact ((xor_hi_ne_zero _ _).mp h2) hhi
  · by_cases h1 : qv = 1
    · rw [if_pos ⟨h1, (xor_hi_ne_zero _ _).mpr hhi⟩, if_pos ⟨h1, hhi⟩]
    · rw [if_neg, if_neg]
      · rintro ⟨h1', _⟩
        exact h1 h1'
      · rintro ⟨h1', _⟩
        exact h1 h1'

/-- Closed witness for `trace_phaseA_empty_slot_miss`: both the exception
case (low-nibble branch with a disagreeing high nibble, reported at the
parent at `2*i`) and the ordinary case on an empty slot of the empty
root. -/
theorem trace_phaseA_empty_slot_miss_witness :
    ((Node.mk none [0x25] 1 0 1 0 emptyBranches).branch (0x39 % 16) = none)
    ∧ phaseA false 0x39 0 (.mk none [0x25] 1 0 1 0 emptyBranches) [2] 1 false
        = .missAt [] 0
    ∧ emptyTrie.branch (0x39 / 16) = none
    ∧ phaseA false 0x39 0 emptyTrie [] 0 false = .missAt [] 0 := by
  refine ⟨rfl, ?_, rfl, ?_⟩
  · rw [trace_phaseA_empty_slot_miss false 0x39 0
      (.mk none [0x25] 1 0 1 0 emptyBranches) [2] 1 false (by decide) rfl]
    rw [if_pos ⟨rfl, by decide⟩]
    rfl
  · rw [trace_phaseA_empty_slot_miss false 0x39 0 emptyTrie [] 0 false
      (by decide) rfl]
    rw [if_neg (by simp)]

/-- C10.  The slobby fast path never compares the query key's length to
the matched leaf's key length: on the slobby-mode trie holding the single
entry `(ab cd, 7)`, the query `ab` — never inserted, and of byte length 1,
different from the stored entry's byte length 2 — reaches the stored leaf
during Phase-A descent, and `find` returns a non-end iterator at that
stored entry, the trace position carrying matched nibble count
`2 * 1 = 2`. -/
theorem slobby_no_length_check :
    searchPos (trace true oneKeyTrie [0xab]) = ⟨[10], 2 * [0xab].length, true⟩
    ∧ find true oneKeyTrie [0xab] = some [10]
    ∧ deref oneKeyTrie (find true oneKeyTrie [0xab])
        = some ([0xab, 0xcd], 2, ⟨[0xab, 0xcd], 7⟩)
    ∧ ([0xab] : List Nat) ≠ [0xab, 0xcd]
    ∧ ([0xab] : List Nat).length ≠ ([0xab, 0xcd] : List Nat).length := by
  refine ⟨by decide, by decide, by decide, by decide, by decide⟩

/-- C6.  `insert(item, pos)` (insert at a position from `lower_bound`)
fails with `AlreadyPresent` when the held position's match flag is true,
leaving the trie unchanged (the check precedes any mutation; the model
returns an error without a new tree); otherwise, when the position's
matched nibble count differs from the position node's `qlen`, it first
runs the `insert_node` protocol (the Step-1 split) at the held position
and then installs the entry in the resulting node, returning an iterator
at that entry. -/
theorem insertAtPos_spec (t : Node) (it : Item) (pos : Position) :
    (pos.mtch = true → insertAtPos t it pos = .error .AlreadyPresent)
    ∧ (pos.mtch = false → ∀ nod, getN t pos.node = some nod →
        pos.qlen ≠ nod.qlen →
        insertAtPos t it pos =
          .ok (insert_item
                (insert_node it.key it.key.length t pos.node pos.qlen).1
                (insert_node it.key it.key.length t pos.node pos.qlen).2 it,
               (insert_node it.key it.key.length t pos.node pos.qlen).2)) := by
  constructor
  · intro hm
    simp [insertAtPos, hm]
  · intro hm nod hg hq
    simp only [insertAtPos, hm, Bool.false_eq_true, if_false, hg]
    rw [if_pos hq]

/-- Closed witness for `insertAtPos_spec`: on the one-entry trie `posTrie`
(`12 34` stored), the matching position from `lower_bound` of `12 34`
makes `insert_at` fail with `AlreadyPresent`, and the mismatch position
from `lower_bound` of `12 35` (matched nibble count 3, at the root of
`qlen` 0) makes it split and install the new entry. -/
theorem insertAtPos_spec_witness :
    lower_bound posTrie [0x12, 0x34] = ⟨[1], 4, true⟩
    ∧ insertAtPos posTrie ⟨[0x12, 0x34], 9⟩ ⟨[1], 4, true⟩
        = .error .AlreadyPresent
    ∧ lower_bound posTrie [0x12, 0x35] = ⟨[], 3, false⟩
    ∧ insertAtPos posTrie ⟨[0x12, 0x35], 6⟩ ⟨[], 3, false⟩
        = .ok (insert_item
            (insert_node [0x12, 0x35] 2 posTrie [] 3).1
            (insert_node [0x12, 0x35] 2 posTrie [] 3).2 ⟨[0x12, 0x35], 6⟩,
           (insert_node [0x12, 0x35] 2 posTrie [] 3).2) := by
  refine ⟨by decide, ?_, by decide, ?_⟩
  · exact (insertAtPos_spec posTrie ⟨[0x12, 0x34], 9⟩ ⟨[1], 4, true⟩).1 rfl
  · exact (insertAtPos_spec posTrie ⟨[0x12, 0x35], 6⟩ ⟨[], 3, false⟩).2 rfl
      posTrie rfl (by decide)

/-- C8 counterexample: inserting the zero-length key installs its entry at
the root — the root *does* carry an entry after this public operation,
contradicting "the root never carries an Entry (including insertion of a
zero-length key)". -/
theorem root_entry_empty_key_cex :
    (insert emptyTrie ⟨[], 99⟩).1.item = some ⟨[], 99⟩ := by decide

/-- C7 counterexample: the trie holding the single entry `(ab cd, 7)` (so
there are no two distinct inserted keys at all, and the claim's
"no two inserted keys share a prefix that reaches a leaf" hypothesis holds
vacuously), yet on the query key `ab` the slobby-mode `find` returns the
stored entry while the strict-mode `find` returns the end iterator. -/
theorem slobby_strict_diverge_cex :
    (∀ k1 k2 : List Nat, k1 ∈ [[0xab, 0xcd]] → k2 ∈ [[0xab, 0xcd]]
      → k1 = k2)
    ∧ find true oneKeyTrie [0xab] = some [10]
    ∧ find false oneKeyTrie [0xab] = none
    ∧ find true oneKeyTrie [0xab] ≠ find false oneKeyTrie [0xab] := by
  refine ⟨?_, by decide, by decide, by decide⟩
  intro k1 k2 h1 h2
  simp at h1 h2
  rw [h1, h2]


/-- C4.  After every operation sequence built from `insert`, `insert_at`
and `erase`, no node other than the root that carries no entry has fewer
than two occupied child slots (invariant I5). -/
theorem interim_nodes_have_two_children {t : Node} (h : ReachableX t) :
    ∀ p n, getN t p = some n → p ≠ [] → n.item = none →
      2 ≤ (occSlots n).length := by
  intro p n hg hp hit
  have hw : wfNode false true t = true := reachableX_wwf h
  have hn := getN_wf_flavor hw hg
  rw [if_neg hp] at hn
  exact wfN_interim hn hit

/-- Closed witness for `interim_nodes_have_two_children`: in the
six-entry trie of scenario S1 the non-root node at path `[0]` carries no
entry, and the theorem yields its two-children bound. -/
theorem interim_nodes_have_two_children_witness :
    2 ≤ (occSlots ((getN s1Trie [0]).getD emptyTrie)).length := by
  have hre : ReachableX s1Trie :=
    ReachableX.insert _ ⟨[0x10, 0x13, 0x11], 5⟩
      (ReachableX.insert _ ⟨[0x10, 0x12], 4⟩
        (ReachableX.insert _ ⟨[0x10, 0x12, 0x03], 3⟩
          (ReachableX.insert _ ⟨[0x02, 0x12, 0x03], 2⟩
            (ReachableX.insert _ ⟨[0x01, 0x12, 0x03], 1⟩
              (ReachableX.insert _ ⟨[0x01, 0x02, 0x03], 0⟩
                ReachableX.empty (by decide))
              (by decide))
            (by decide))
          (by decide))
        (by decide))
      (by decide)
  exact interim_nodes_have_two_children hre [0] _ (by rfl) (by decide)
    (by rfl)

/-- C8 (amended).  For every state reachable by the public mutators the
root exists with `qlen = 0` and is never removed; after erasing every
entry the trie is a root node whose children are all empty and whose
leaf encoding `br_first > br_last` holds.  (The original claim's "the
root never carries an Entry, even for a zero-length key" part is refuted
by `root_entry_empty_key_cex`: inserting the zero-length key stores its
entry at the root.) -/
theorem root_qlen_zero_and_empty_encoding {t : Node} (h : ReachableX t) :
    t.qlen = 0 ∧
    (entriesOf t = [] → (∀ i, t.branch i = none) ∧ t.br_last < t.br_1st)
    := by
  have hw : wfNode false true t = true := reachableX_wwf h
  exact ⟨wfN_root_qlen hw, empty_entries_all_branches_none hw⟩

/-- Closed witness for `root_qlen_zero_and_empty_encoding`, at the fresh
trie. -/
theorem root_qlen_zero_and_empty_encoding_witness :
    emptyTrie.qlen = 0 ∧
    (∀ i, emptyTrie.branch i = none) ∧
      emptyTrie.br_last < emptyTrie.br_1st :=
  ⟨(root_qlen_zero_and_empty_encoding ReachableX.empty).1,
   (root_qlen_zero_and_empty_encoding ReachableX.empty).2 rfl⟩


/-- C3.  On a well-formed trie, inserting an entry whose key is already
present leaves the tree unchanged and returns an iterator pointing at the
existing occupant; consequently `insert(e)` immediately followed by
`insert(e)` leaves the tree in the same state as a single `insert(e)`. -/
theorem insert_existing_key_noop {t : Node} {it : Item}
    (hw : wf t = true) (hb : bytesOk it.key = true) :
    (∀ p0 M it0, getN t p0 = some M → M.item = some it0 →
      it0.key = it.key →
      (insert t it).1 = t ∧
      ∃ M2, getN t (insert t it).2 = some M2 ∧ M2.item = some it0) ∧
    (insert (insert t it).1 it).1 = (insert t it).1 := by
  have hwt : wfNode true true t = true := hw
  constructor
  · intro p0 M it0 hg hit0 hk0
    have hwM := getN_wf_flavor hwt hg
    have hq0 : M.qlen = 2 * it0.key.length := (wfN_item hwM hit0).2.2.2 rfl
    have hb0 : bytesOk it0.key = true := (wfN_item hwM hit0).2.1
    obtain ⟨p, htr, hgp⟩ := find_present hwt hb0 hg hit0 hq0
    rw [hk0] at htr
    have hred : insert t it = (t, p) := by
      simp only [insert, htr, if_true]
    rw [hred]
    exact ⟨rfl, M, hgp, hit0⟩
  · rcases insert_self_present hwt hb with hsame | ⟨P, X, hgX, hitX, hqX⟩
    · rw [hsame]
      exact hsame
    · have hw2 := insert_wf (e := true) hwt hb
      obtain ⟨p2, htr2, hgp2⟩ := find_present hw2 hb hgX hitX hqX
      set T := (insert t it).1 with hT
      simp only [insert, htr2, if_true]

/-- Closed witness for `insert_existing_key_noop`: re-inserting the
single entry of `oneKeyTrie` changes nothing. -/
theorem insert_existing_key_noop_witness :
    (insert oneKeyTrie ⟨[0xab, 0xcd], 7⟩).1 = oneKeyTrie ∧
    (insert (insert oneKeyTrie ⟨[0xab, 0xcd], 7⟩).1
        ⟨[0xab, 0xcd], 7⟩).1
      = (insert oneKeyTrie ⟨[0xab, 0xcd], 7⟩).1 := by
  have h := @insert_existing_key_noop oneKeyTrie ⟨[0xab, 0xcd], 7⟩
    (by decide) (by decide)
  exact ⟨(h.1 [10] ((getN oneKeyTrie [10]).getD emptyTrie)
    ⟨[0xab, 0xcd], 7⟩ (by rfl) (by rfl) rfl).1, h.2⟩


/-- C1.  In strict mode, on any state reachable by insertions and
erasures, a currently present entry is found: `find` returns a non-end
iterator observing exactly the stored key bytes, their count and the
stored entry; and after erasing through that iterator, `find` on the
same key returns the end iterator. -/
theorem find_roundtrip {t : Node} (hre : Reachable t) {k : List Nat}
    {p0 : Path} {M : Node} {it : Item}
    (hg : getN t p0 = some M) (hit : M.item = some it) (hk : it.key = k) :
    ∃ p, find false t k = some p ∧
      deref t (some p) = some (k, k.length, it) ∧
      ∀ t2 it2, erase t (some p) = .ok (t2, it2) →
        find false t2 k = none := by
  subst hk
  have hw : wfNode true true t = true := reachable_wf hre
  have hwM := getN_wf_flavor hw hg
  have hb : bytesOk it.key = true := (wfN_item hwM hit).2.1
  have hq0 : M.qlen = 2 * it.key.length := (wfN_item hwM hit).2.2.2 rfl
  have hMk : M.key = it.key := (wfN_item hwM hit).1
  obtain ⟨p, hfind, hgp⟩ := find_hits hw hb hg hit hq0
  have hsh : M.qlen >>> 1 = it.key.length := by
    rw [hq0, Nat.shiftRight_eq_div_pow]
    omega
  refine ⟨p, hfind, ?_, ?_⟩
  · rw [deref_eq_obs, obs_eq_some hgp hit, hMk, hsh, List.take_length]
  · intro t2 it2 hok2
    have hw2 : wfNode true true t2 = true := erase_wf hw hok2
    cases hf2 : find false t2 it.key with
    | none => rfl
    | some p2 =>
      exfalso
      obtain ⟨M2, it3, hgp2, hit3, hk3, hq2⟩ := find_some_present hw2 hb hf2
      obtain ⟨g, hobs, _, _⟩ := erase_obs hw hok2
      have hobs2 : obs t2 p2
          = some (M2.key.take (M2.qlen >>> 1), M2.qlen >>> 1, it3) :=
        obs_eq_some hgp2 hit3
      have hfor := hobs p2
      by_cases hgp' : g p2 = p
      · rw [if_pos hgp'] at hfor
        rw [hobs2] at hfor
        cases hfor
      · rw [if_neg hgp'] at hfor
        rw [hobs2] at hfor
        obtain ⟨M3, hgM3, hitM3⟩ := obs_some_inv hfor.symm
        have hwM3 := getN_wf_flavor hw hgM3
        have hq3 : M3.qlen = 2 * it3.key.length :=
          (wfN_item hwM3 hitM3).2.2.2 rfl
        have hM3k : M3.key = it3.key := (wfN_item hwM3 hitM3).1
        have ha3 : nibAgree it.key M3.key M3.qlen = true := by
          rw [hM3k, hk3]
          exact nibAgree_refl _ _
        have haM : nibAgree it.key M.key M.qlen = true := by
          rw [hMk]
          exact nibAgree_refl _ _
        have hun := chain_unique hw hgM3 hgp ha3 haM
          (by rw [hq3, hk3, hq0])
        exact hgp' hun.1

/-- Closed witness for `find_roundtrip`, on the one-entry trie. -/
theorem find_roundtrip_witness :
    ∃ p, find false oneKeyTrie [0xab, 0xcd] = some p ∧
      deref oneKeyTrie (some p)
        = some ([0xab, 0xcd], 2, ⟨[0xab, 0xcd], 7⟩) ∧
      ∀ t2 it2, erase oneKeyTrie (some p) = .ok (t2, it2) →
        find false t2 [0xab, 0xcd] = none :=
  @find_roundtrip oneKeyTrie
    (Reachable.insert _ _ Reachable.empty (by decide)) [0xab, 0xcd] [10]
    ((getN oneKeyTrie [10]).getD emptyTrie) ⟨[0xab, 0xcd], 7⟩
    (by rfl) (by rfl) rfl

/-- C5.  `erase` on the end iterator fails with `EndIterator` (leaving
the trie untouched); on a valid iterator it first advances to the
in-order successor, so the returned iterator observes in the new tree
exactly what `++iter` would have observed before the erase. -/
theorem erase_end_iterator_and_advance {t : Node} {p : Path} {t' : Node}
    {it' : Iter} (hw : wf t = true)
    (hok : erase t (some p) = .ok (t', it')) :
    (∀ u : Node, erase u none = .error .EndIterator) ∧
    deref t' it' = deref t (next t p) := by
  have hwt : wfNode true true t = true := hw
  obtain ⟨g, hobs, h2, h3⟩ := erase_obs hwt hok
  refine ⟨fun u => rfl, ?_⟩
  cases hnext : next t p with
  | none =>
    rw [h2 hnext]
    rfl
  | some q =>
    obtain ⟨q', hq', hgq⟩ := h3 q hnext
    rw [hq', deref_eq_obs, deref_eq_obs, hobs q', hgq]
    have hqnep : q ≠ p := by
      cases hgp : getN t p with
      | none =>
        exfalso
        unfold next at hnext
        rw [hgp] at hnext
        cases hnext
      | some nod => exact next_ne hwt hgp hnext
    rw [if_neg hqnep]

/-- Closed witness for `erase_end_iterator_and_advance`: erasing the
single entry of `oneKeyTrie` through its iterator. -/
theorem erase_end_iterator_and_advance_witness :
    (∀ u : Node, erase u none = .error .EndIterator) ∧
    deref ((erase oneKeyTrie (some [10])).toOption.getD
        (emptyTrie, none)).1
      ((erase oneKeyTrie (some [10])).toOption.getD (emptyTrie, none)).2
      = deref oneKeyTrie (next oneKeyTrie [10]) :=
  erase_end_iterator_and_advance (by decide) (by rfl)

end Trie
